import Mathlib

/-!
Verification of the storage/concurrency engine of the CMU-15445 database
repository against its natural-language specification.

The development shallowly embeds the relevant C++ source files:

* `src/concurrency/lock_manager.{h,cpp}` (tuple lock manager, wait-die),
* `src/buffer/buffer_pool_manager.cpp` (buffer pool),
* `src/page/b_plus_tree_leaf_page.cpp`, `src/page/b_plus_tree_internal_page.cpp`,
  `src/index/b_plus_tree.cpp` (B+tree index).

Machine integers (`txn_id_t`, `page_id_t`, `lsn_t`, all 32-bit ints that never
approach overflow in the modelled scenarios) are embedded as `Int`; C++
in-place mutation is embedded as explicit state passing; blocking on a
condition variable is embedded as an explicit `waiting` outcome recording the
state at the moment the thread blocks; `assert` failures (undefined behaviour
in release builds) are embedded as `Option.none` results or are excluded by
explicit hypotheses.  Disk-manager side effects (`WritePage`,
`DeallocatePage`) are recorded as event traces inside the state so that
theorems can speak about "the moment of the write".
-/

namespace LockMgr

/-- Record identifier: page id and slot number (common/rid.h). -/
abbrev RID := Int × Int

/-- enum class LockMode of lock_manager.h. -/
inductive LockMode where
  | shared
  | exclusive
  | upgrading
deriving DecidableEq, Repr

/-- TransactionState of concurrency/transaction.h (the states the lock
manager manipulates). -/
inductive TxState where
  | growing
  | shrinking
  | committed
  | aborted
deriving DecidableEq, Repr

/-- struct TxItem of lock_manager.h.  The mutex and condition variable are
concurrency plumbing; the `granted_` flag they protect is kept. -/
structure TxItem where
  tid : Int
  mode : LockMode
  granted : Bool
deriving DecidableEq, Repr

/-- struct TxList of lock_manager.h (its list of TxItem and the
`hasUpgrading_` flag; the mutex is concurrency plumbing). -/
structure TxList where
  locks : List TxItem
  hasUpgrading : Bool
deriving DecidableEq, Repr

/-- Transaction, restricted to the fields the lock manager reads and writes:
id, state, and the two lock sets (std::unordered_set becomes Finset). -/
structure Txn where
  tid : Int
  state : TxState
  sharedSet : Finset RID
  exclusiveSet : Finset RID

/-- LockManager state: the strict-2PL flag and the lock table
(std::unordered_map from RID to TxList, embedded as an association list). -/
structure LMState where
  strict2PL : Bool
  lockTable : List (RID × TxList)

/-- Lookup in the lock table; a missing entry reads as the value
default-constructed by operator[] (empty list, upgrading flag clear). -/
def tableGet (t : List (RID × TxList)) (rid : RID) : TxList :=
  match t.find? (fun p => p.1 == rid) with
  | some p => p.2
  | none => { locks := [], hasUpgrading := false }

/-- Store a TxList under a RID (update in place, or append a fresh entry:
the effect of writing through operator[]). -/
def tableSet (t : List (RID × TxList)) (rid : RID) (l : TxList) :
    List (RID × TxList) :=
  match t with
  | [] => [(rid, l)]
  | p :: rest => if p.1 == rid then (rid, l) :: rest else p :: tableSet rest rid l

/-- lockTable_.erase(rid). -/
def tableErase (t : List (RID × TxList)) (rid : RID) : List (RID × TxList) :=
  t.filter (fun p => !(p.1 == rid))

/-- TxList::checkCanGrant of lock_manager.h: an empty list always grants;
otherwise only a SHARED request behind a granted SHARED tail grants. -/
def checkCanGrant (l : TxList) (mode : LockMode) : Bool :=
  match l.locks.getLast? with
  | none => true
  | some last =>
    if mode = LockMode.shared then last.granted && (last.mode == LockMode.shared)
    else false

/-- How a lock request call ends: granted immediately, blocked waiting on the
item's condition variable (the call returns true only after a later Grant), or
aborted (the call returns false). -/
inductive LockOutcome where
  | granted
  | waiting
  | aborted
deriving DecidableEq, Repr

/-- TxList::insert of lock_manager.h.  For the `waiting` outcome the state is
the snapshot at the moment the thread blocks in TxItem::Wait (the lock-set
insertion in the source happens only after the thread is woken). -/
def txListInsert (l : TxList) (txn : Txn) (rid : RID) (mode : LockMode)
    (canGrant : Bool) : TxList × Txn × LockOutcome :=
  let upgradingMode := mode == LockMode.upgrading
  let mode1 := if upgradingMode && canGrant then LockMode.exclusive else mode
  let l1 : TxList :=
    { locks := l.locks ++ [{ tid := txn.tid, mode := mode1, granted := canGrant }]
      hasUpgrading := l.hasUpgrading || (!canGrant && upgradingMode) }
  if canGrant then
    if mode1 == LockMode.shared then
      (l1, { txn with sharedSet := insert rid txn.sharedSet }, LockOutcome.granted)
    else
      (l1, { txn with exclusiveSet := insert rid txn.exclusiveSet }, LockOutcome.granted)
  else
    (l1, txn, LockOutcome.waiting)

/-- Step 2 of LockManager::lockTemplate (the upgrade path): fail if an
upgrade is already queued, locate this transaction's granted SHARED item,
erase it from the list and remove the RID from the shared-lock set.
For the other modes this step is the identity.  `none` means the transaction
is aborted in this step. -/
def lockStep2 (txl : TxList) (txn : Txn) (rid : RID) (mode : LockMode) :
    Option (TxList × Txn) :=
  if mode = LockMode.upgrading then
    if txl.hasUpgrading then none
    else
      match txl.locks.find? (fun it => it.tid == txn.tid) with
      | none => none
      | some it =>
        if it.mode = LockMode.shared ∧ it.granted then
          some ({ txl with locks := txl.locks.eraseP (fun i2 => i2.tid == txn.tid) },
                { txn with sharedSet := txn.sharedSet.erase rid })
        else none
  else some (txl, txn)

/-- LockManager::lockTemplate of lock_manager.cpp.  The table entry is
written back eagerly (operator[] default-constructs a missing entry, and the
list is mutated in place through a reference in the source). -/
def lockTemplate (lm : LMState) (txn : Txn) (rid : RID) (mode : LockMode) :
    LMState × Txn × LockOutcome :=
  if txn.state ≠ TxState.growing then
    (lm, { txn with state := TxState.aborted }, LockOutcome.aborted)
  else
    let txl := tableGet lm.lockTable rid
    let lm1 : LMState := { lm with lockTable := tableSet lm.lockTable rid txl }
    match lockStep2 txl txn rid mode with
    | none => (lm1, { txn with state := TxState.aborted }, LockOutcome.aborted)
    | some (txl2, txn2) =>
      let lm2 : LMState := { lm1 with lockTable := tableSet lm1.lockTable rid txl2 }
      let canGrant := checkCanGrant txl2 mode
      let die := !canGrant &&
        (match txl2.locks.getLast? with
         | some last => decide (last.tid < txn.tid)
         | none => false)
      if die then
        (lm2, { txn2 with state := TxState.aborted }, LockOutcome.aborted)
      else
        let r := txListInsert txl2 txn2 rid mode canGrant
        ({ lm2 with lockTable := tableSet lm2.lockTable rid r.1 }, r.2.1, r.2.2)

/-- Step 4 of LockManager::Unlock of lock_manager.cpp: the loop over the
remaining list.  It stops at the first already-granted item; otherwise it
grants the item, continues after a shared grant, and stops after granting an
exclusive or an upgrading item (the upgrading item is promoted to exclusive
and `hasUpgrading_` is cleared). -/
def grantLoop : List TxItem → Bool → List TxItem × Bool
  | [], hu => ([], hu)
  | it :: rest, hu =>
    if it.granted then (it :: rest, hu)
    else
      let it1 : TxItem := { it with granted := true }
      match it.mode with
      | LockMode.shared =>
        let r := grantLoop rest hu
        (it1 :: r.1, r.2)
      | LockMode.upgrading => ({ it1 with mode := LockMode.exclusive } :: rest, false)
      | LockMode.exclusive => (it1 :: rest, hu)

/-- LockManager::Unlock of lock_manager.cpp.  `none` embeds the failure of
the source's assert that the caller has an item in the list. -/
def unlock (lm : LMState) (txn : Txn) (rid : RID) :
    Option (LMState × Txn × Bool) :=
  if lm.strict2PL &&
      !(txn.state == TxState.committed || txn.state == TxState.aborted) then
    some (lm, { txn with state := TxState.aborted }, false)
  else
    let txn1 := if !lm.strict2PL && txn.state == TxState.growing then
        { txn with state := TxState.shrinking } else txn
    let txl := tableGet lm.lockTable rid
    let lm1 : LMState := { lm with lockTable := tableSet lm.lockTable rid txl }
    match txl.locks.find? (fun it => it.tid == txn1.tid) with
    | none => none
    | some it =>
      let txn2 := if it.mode = LockMode.shared then
          { txn1 with sharedSet := txn1.sharedSet.erase rid }
        else
          { txn1 with exclusiveSet := txn1.exclusiveSet.erase rid }
      let locks1 := txl.locks.eraseP (fun i2 => i2.tid == txn1.tid)
      if locks1.isEmpty then
        some ({ lm1 with lockTable := tableErase lm1.lockTable rid }, txn2, true)
      else
        let r := grantLoop locks1 txl.hasUpgrading
        some ({ lm1 with lockTable :=
                  tableSet lm1.lockTable rid { locks := r.1, hasUpgrading := r.2 } },
              txn2, true)

/-- Modelled from the words of claim C3: the walk from the head grants every
ungranted item it reaches, continues past already-granted shared items so
that further compatible shared requests are also granted, and stops only
after granting an exclusive or an upgrading item (promoting the upgrading
item to exclusive and clearing the upgrading flag). -/
def walkClaimed : List TxItem → Bool → List TxItem × Bool
  | [], hu => ([], hu)
  | it :: rest, hu =>
    if it.granted then
      if it.mode = LockMode.shared then
        let r := walkClaimed rest hu
        (it :: r.1, r.2)
      else (it :: rest, hu)
    else
      let it1 : TxItem := { it with granted := true }
      match it.mode with
      | LockMode.shared =>
        let r := walkClaimed rest hu
        (it1 :: r.1, r.2)
      | LockMode.upgrading => ({ it1 with mode := LockMode.exclusive } :: rest, false)
      | LockMode.exclusive => (it1 :: rest, hu)

/-- Modelled from the amended wording of claim C3: starting from the head
the walk grants each ungranted item, continuing past a shared item it has
just granted, and stops after granting an exclusive or an upgrading item
(promoting the upgrading item to exclusive and clearing the upgrading flag);
it stops at the first already-granted item, which is never passed over. -/
def walkAmended : List TxItem → Bool → List TxItem × Bool
  | [], hu => ([], hu)
  | it :: rest, hu =>
    if it.granted then (it :: rest, hu)
    else
      let it1 : TxItem := { it with granted := true }
      match it.mode with
      | LockMode.shared =>
        let r := walkAmended rest hu
        (it1 :: r.1, r.2)
      | LockMode.upgrading => ({ it1 with mode := LockMode.exclusive } :: rest, false)
      | LockMode.exclusive => (it1 :: rest, hu)

end LockMgr

namespace BufferPool

/-- The fields of class Page that the buffer pool manager reads and writes:
`page_id_`, `pin_count_`, `is_dirty_` and the LSN stored in the page's data
area (`GetLSN`).  The raw data bytes themselves are not modelled. -/
structure Page where
  pageId : Int
  pinCount : Int
  isDirty : Bool
  lsn : Int
deriving DecidableEq, Repr

/-- A default-constructed page (page_id INVALID_PAGE_ID = -1, zeroed data). -/
def emptyPage : Page := { pageId := -1, pinCount := 0, isDirty := false, lsn := 0 }

/-- One call of DiskManager::WritePage on the data file, recording the
written page's id, the LSN stored in the written image, and the log
manager's persistent LSN at the moment of the write. -/
structure DiskWriteEvent where
  pageId : Int
  pageLsn : Int
  persistentLsn : Int
deriving DecidableEq, Repr

/-- State of BufferPoolManager together with the parts of DiskManager and
LogManager it interacts with.  `pages` is the pool array indexed by frame;
`pageTable` is the extendible hash (page id to frame index, embedded as an
association list); `replacer` is the LRU list with the most recently
inserted frame at the head; `writes` and `deallocs` are the disk-manager
event traces; `persistentLsn` and `lastLsn` belong to the log manager. -/
structure BPM where
  poolSize : Nat
  pages : List Page
  pageTable : List (Int × Nat)
  freeList : List Nat
  replacer : List Nat
  enableLogging : Bool
  persistentLsn : Int
  lastLsn : Int
  nextPageId : Int
  writes : List DiskWriteEvent
  deallocs : List Int
deriving Repr

/-- ExtendibleHash::Find on the page table. -/
def ptFind (t : List (Int × Nat)) (pid : Int) : Option Nat :=
  match t.find? (fun p => p.1 == pid) with
  | some p => some p.2
  | none => none

/-- ExtendibleHash::Remove on the page table. -/
def ptRemove (t : List (Int × Nat)) (pid : Int) : List (Int × Nat) :=
  t.filter (fun p => !(p.1 == pid))

/-- ExtendibleHash::Insert on the page table (the callers only insert keys
that are not present). -/
def ptInsert (t : List (Int × Nat)) (pid : Int) (f : Nat) : List (Int × Nat) :=
  (pid, f) :: t

/-- LRUReplacer::Erase. -/
def replacerErase (r : List Nat) (f : Nat) : List Nat :=
  r.filter (fun g => !(g == f))

/-- Read frame `f` of the pool array. -/
def getPage (s : BPM) (f : Nat) : Page := s.pages.getD f emptyPage

/-- Write frame `f` of the pool array. -/
def setPage (s : BPM) (f : Nat) (p : Page) : BPM :=
  { s with pages := s.pages.set f p }

/-- LogManager::Flush(true): the caller hands the buffer to the flush thread
and blocks until the flush completes, after which the persistent LSN equals
the last assigned LSN (RunFlushThread writes the buffer and calls
SetPersistentLSN(lastLsn_)). -/
def logFlushForce (s : BPM) : BPM := { s with persistentLsn := s.lastLsn }

/-- DiskManager::WritePage of the data file, recorded as an event carrying
the page LSN of the written image and the persistent LSN at this moment. -/
def diskWrite (s : BPM) (pid : Int) (plsn : Int) : BPM :=
  { s with writes :=
      s.writes ++ [{ pageId := pid, pageLsn := plsn, persistentLsn := s.persistentLsn }] }

/-- BufferPoolManager::GetVictimPage: prefer the free list's front; when it
is empty take the LRU end of the replacer; fail when both are empty. -/
def getVictimPage (s : BPM) : Option (Nat × BPM) :=
  match s.freeList with
  | f :: rest => some (f, { s with freeList := rest })
  | [] =>
    match s.replacer.getLast? with
    | none => none
    | some v => some (v, { s with replacer := s.replacer.dropLast })

/-- BufferPoolManager::FetchPage.  A resident page is pinned and removed
from the replacer.  Otherwise a victim frame is obtained; a dirty victim is
written back, preceded by a forced log flush when logging is enabled and the
persistent LSN is behind the victim's page LSN; then the page table is
rewired and the requested page is read in (the read image's LSN is not
modelled and reads as 0). -/
def fetchPage (s : BPM) (pid : Int) : BPM × Option Nat :=
  match ptFind s.pageTable pid with
  | some f =>
    let p := getPage s f
    let s1 := setPage s f { p with pinCount := p.pinCount + 1 }
    ({ s1 with replacer := replacerErase s1.replacer f }, some f)
  | none =>
    match getVictimPage s with
    | none => (s, none)
    | some (f, s1) =>
      let tar := getPage s1 f
      let s2 :=
        if tar.isDirty then
          let sf := if s1.enableLogging && decide (s1.persistentLsn < tar.lsn) then
              logFlushForce s1 else s1
          diskWrite sf tar.pageId tar.lsn
        else s1
      let s3 := { s2 with pageTable := ptInsert (ptRemove s2.pageTable tar.pageId) pid f }
      let s4 := setPage s3 f { pageId := pid, pinCount := 1, isDirty := false, lsn := 0 }
      (s4, some f)

/-- BufferPoolManager::NewPage: obtain a victim exactly like FetchPage (the
same dirty write-back with the same log-flush guard), allocate a fresh page
id from the disk manager's counter, rewire the page table, and reset the
frame. -/
def newPage (s : BPM) : BPM × Option (Nat × Int) :=
  match getVictimPage s with
  | none => (s, none)
  | some (f, s1) =>
    let pid := s1.nextPageId
    let s2 := { s1 with nextPageId := s1.nextPageId + 1 }
    let tar := getPage s2 f
    let s3 :=
      if tar.isDirty then
        let sf := if s2.enableLogging && decide (s2.persistentLsn < tar.lsn) then
            logFlushForce s2 else s2
        diskWrite sf tar.pageId tar.lsn
      else s2
    let s4 := { s3 with pageTable := ptInsert (ptRemove s3.pageTable tar.pageId) pid f }
    let s5 := setPage s4 f { pageId := pid, pinCount := 1, isDirty := false, lsn := 0 }
    (s5, some (f, pid))

/-- BufferPoolManager::FlushPage: a resident dirty page is written to disk
(with no log-flush guard in the source) and its dirty bit cleared; returns
false when the page is not resident or its id is invalid. -/
def flushPage (s : BPM) (pid : Int) : BPM × Bool :=
  match ptFind s.pageTable pid with
  | none => (s, false)
  | some f =>
    let tar := getPage s f
    if tar.pageId == -1 then (s, false)
    else if tar.isDirty then
      (setPage (diskWrite s pid tar.lsn) f { tar with isDirty := false }, true)
    else (s, true)

/-- BufferPoolManager::DeletePage: a resident page with a positive pin count
makes the call fail (returning before the disk manager is reached);
otherwise a resident page's frame is removed from the replacer and page
table, reset, and appended to the free list; DeallocatePage is recorded on
the paths that reach the end of the function. -/
def deletePage (s : BPM) (pid : Int) : BPM × Bool :=
  match ptFind s.pageTable pid with
  | some f =>
    let tar := getPage s f
    if tar.pinCount > 0 then (s, false)
    else
      let s1 := { s with replacer := replacerErase s.replacer f,
                         pageTable := ptRemove s.pageTable pid }
      let s2 := setPage s1 f { pageId := -1, pinCount := tar.pinCount,
                               isDirty := false, lsn := 0 }
      let s3 := { s2 with freeList := s2.freeList ++ [f] }
      ({ s3 with deallocs := s3.deallocs ++ [pid] }, true)
  | none => ({ s with deallocs := s.deallocs ++ [pid] }, true)

/-- BufferPoolManager::CheckAllUnpined: the source's loop runs the index
from 1 (frame 0 is never examined). -/
def checkAllUnpined (s : BPM) : Bool :=
  ((List.range s.poolSize).drop 1).all (fun i => (getPage s i).pinCount == 0)

end BufferPool

namespace BPT

/-! Index keys: GenericKey with GenericComparator compares as (signed)
integers, so keys are embedded as Int.  Leaf values are RIDs, embedded as
Int × Int. -/

/-- The binary-search loop shared by BPlusTreeLeafPage::KeyIndex and
BPlusTreeInternalPage::Lookup, abstracted over the predicate tested at the
midpoint (KeyIndex tests comparator(array[mid].first, key) >= 0, Lookup
moves the upper bound down when comparator(array[mid].first, key) > 0).
The C++ loops run on ints with st <= ed; here ed1 stands for ed + 1 so the
bounds stay in Nat, and the returned value is the final st, which equals
the final ed + 1. -/
def bsearch (f : Nat → Bool) (st ed1 : Nat) : Nat :=
  if h : st < ed1 then
    let mid := (ed1 - 1 - st) / 2 + st
    if f mid then bsearch f st mid else bsearch f (mid + 1) ed1
  else st
termination_by ed1 - st
decreasing_by
  all_goals
    have h2 : (ed1 - 1 - st) / 2 ≤ ed1 - 1 - st := Nat.div_le_self _ _
    omega

/-- BPlusTreeLeafPage::KeyIndex: binary search for the first index i with
array[i].first >= key; st starts at 0 and ed at size - 1. -/
def keyIndex (kvs : List (Int × (Int × Int))) (k : Int) : Nat :=
  bsearch (fun i => decide (k ≤ (kvs.map Prod.fst).getD i 0)) 0 kvs.length

/-- BPlusTreeInternalPage::Lookup restricted to the chosen index: binary
search over indices 1 .. size-1 for the last separator <= key, returning
array[st-1] index (0 when every separator exceeds the key). -/
def internalLookupIdx {α : Type} (arr : List (Int × α)) (k : Int) : Nat :=
  bsearch (fun i => decide (k < (arr.map Prod.fst).getD i 0)) 1 arr.length - 1

/-- BPlusTreeLeafPage::Lookup: the key is present iff the slot at KeyIndex
exists and carries exactly this key. -/
def leafLookup (kvs : List (Int × (Int × Int))) (k : Int) : Option (Int × Int) :=
  match kvs.get? (keyIndex kvs k) with
  | some p => if p.1 == k then some p.2 else none
  | none => none

/-- BPlusTreeLeafPage::Insert: shift the tail right and place the pair at
KeyIndex. -/
def leafInsert (kvs : List (Int × (Int × Int))) (k : Int) (v : (Int × Int)) : List (Int × (Int × Int)) :=
  kvs.insertIdx (keyIndex kvs k) (k, v)

/-- BPlusTreeLeafPage::RemoveAndDeleteRecord: when the slot at KeyIndex
carries exactly this key, close the gap with memmove; otherwise leave the
page unchanged. -/
def leafRemove (kvs : List (Int × (Int × Int))) (k : Int) : List (Int × (Int × Int)) :=
  match kvs.get? (keyIndex kvs k) with
  | some p => if p.1 == k then kvs.eraseIdx (keyIndex kvs k) else kvs
  | none => kvs

/-- Modelled from the spec (b_plus_tree_page.cpp, which defines GetMinSize,
is not among the sources): min_size = ceil(max_size/2) for a non-root leaf;
the root has relaxed rules, and AdjustRoot shows an underflowing root leaf
has size 0, so the root leaf's min size is 1. -/
def leafMin (isRoot : Bool) (maxL : Nat) : Nat :=
  if isRoot then 1 else (maxL + 1) / 2

/-- Modelled from the spec (b_plus_tree_page.cpp is not among the sources):
min_size = ceil(max_size/2) for a non-root internal page; AdjustRoot shows
an underflowing internal root has size 1, so the internal root's min size
is 2. -/
def internalMin (isRoot : Bool) (maxI : Nat) : Nat :=
  if isRoot then 2 else (maxI + 1) / 2

/-- A B+tree leaf page as BPlusTreeLeafPage stores it: the header fields
used by MoveHalfTo (page id, next page id, max size) and the sorted
key/value array. -/
structure LeafPage where
  pageId : Int
  nextPageId : Int
  maxSize : Nat
  entries : List (Int × (Int × Int))
deriving DecidableEq, Repr

/-- BPlusTreeLeafPage::MoveHalfTo: with the page holding max_size + 1
entries, the copy point is (max_size+1)/2; entries from the copy point on
migrate to the fresh recipient, the recipient's next pointer takes the
page's old next pointer, and the page's next pointer takes the recipient's
id.  Returns (old page, recipient). -/
def leafMoveHalfTo (pg recip : LeafPage) : LeafPage × LeafPage :=
  let total := pg.maxSize + 1
  let copyIdx := total / 2
  let recip1 := { recip with
    entries := (pg.entries.drop copyIdx).take (total - copyIdx)
    nextPageId := pg.nextPageId }
  let pg1 := { pg with
    entries := pg.entries.take copyIdx
    nextPageId := recip.pageId }
  (pg1, recip1)

/-- BPlusTreeInternalPage::MoveAllTo: the parent's separator key is first
written into array[0].first of this (right) node, then the whole array is
appended to the recipient (left) node.  Generic in the stored child value
(page ids on disk, subtrees in the tree model). -/
def internalMoveAllTo {α : Type} (sep : Int) (node recip : List (Int × α)) :
    List (Int × α) :=
  match node with
  | [] => recip
  | (_, v) :: t => recip ++ (sep, v) :: t

/-- The B+tree as a tree of pages.  An inner node holds the internal page's
full array: slot 0's key is the invalid/unused key of the pointer-before-key
layout, and every slot's value is the child (a page id on disk). -/
inductive BTNode where
  | leaf : List (Int × (Int × Int)) → BTNode
  | inner : List (Int × BTNode) → BTNode

/-- BPlusTree::Coalesce for two internal siblings inside the parent's array:
the separator is read at removeIndex, written through array[0].first of the
right node by MoveAllTo, the merged array replaces the left child (whose own
separator key in the parent is untouched), the right child's entry is
removed from the parent, and CoalesceOrRedistribute recurses on the parent
iff the parent's new size is <= its min size (the returned flag). -/
def coalesceInternalStep (parentMin : Nat) (arr : List (Int × BTNode))
    (leftIdx removeIndex : Nat) (leftArr rightArr : List (Int × BTNode)) :
    BTNode × Bool :=
  let sep := (arr.map Prod.fst).getD removeIndex 0
  let merged := internalMoveAllTo sep rightArr leftArr
  let arr2 := (arr.set leftIdx ((arr.map Prod.fst).getD leftIdx 0,
      BTNode.inner merged)).eraseIdx removeIndex
  (BTNode.inner arr2, decide (arr2.length ≤ parentMin))

/-- BPlusTree::Coalesce for two leaf siblings (BPlusTreeLeafPage::MoveAllTo
concatenates the right page's entries onto the left page), with the same
parent update and recursion trigger as the internal case. -/
def coalesceLeafStep (parentMin : Nat) (arr : List (Int × BTNode))
    (leftIdx removeIndex : Nat) (leftKvs rightKvs : List (Int × (Int × Int))) :
    BTNode × Bool :=
  let arr2 := (arr.set leftIdx ((arr.map Prod.fst).getD leftIdx 0,
      BTNode.leaf (leftKvs ++ rightKvs))).eraseIdx removeIndex
  (BTNode.inner arr2, decide (arr2.length ≤ parentMin))

/-- BPlusTree::Redistribute for leaf pages, carried out inside the parent's
array.  index = 0: the right sibling's first entry moves to the node's end
and the parent's key at the sibling's slot becomes the sibling's new first
key (MoveFirstToEndOf).  index > 0: the left sibling's last entry moves to
the node's front and the parent's key at the node's slot becomes that moved
key (MoveLastToFrontOf / CopyFirstFrom). -/
def redistributeLeafStep (arr : List (Int × BTNode)) (i : Nat)
    (nodeKvs sibKvs : List (Int × (Int × Int))) : BTNode :=
  if i == 0 then
    let moved := sibKvs.headD (0, (0, 0))
    let sib1 := sibKvs.tail
    BTNode.inner ((arr.set 0 ((arr.map Prod.fst).getD 0 0,
        BTNode.leaf (nodeKvs ++ [moved]))).set 1
      ((sib1.map Prod.fst).getD 0 0, BTNode.leaf sib1))
  else
    let moved := sibKvs.getLastD (0, (0, 0))
    BTNode.inner ((arr.set (i - 1) ((arr.map Prod.fst).getD (i - 1) 0,
        BTNode.leaf sibKvs.dropLast)).set i
      (moved.1, BTNode.leaf (moved :: nodeKvs)))

/-- BPlusTree::Redistribute for internal pages.  index = 0: the right
sibling's slot-0 pair (its key being the stale invalid-slot key) moves to
the node's end and the parent's key at the sibling's slot becomes the
sibling's new slot-0 key (MoveFirstToEndOf).  index > 0: the left sibling's
last pair moves to the node's front and the parent's key at the node's slot
becomes that pair's key (MoveLastToFrontOf / CopyFirstFrom). -/
def redistributeInternalStep (arr : List (Int × BTNode)) (i : Nat)
    (nodeArr sibArr : List (Int × BTNode)) : BTNode :=
  if i == 0 then
    let moved := sibArr.headD (0, BTNode.leaf [])
    let sib1 := sibArr.tail
    BTNode.inner ((arr.set 0 ((arr.map Prod.fst).getD 0 0,
        BTNode.inner (nodeArr ++ [moved]))).set 1
      ((sib1.map Prod.fst).getD 0 0, BTNode.inner sib1))
  else
    let moved := sibArr.getLastD (0, BTNode.leaf [])
    BTNode.inner ((arr.set (i - 1) ((arr.map Prod.fst).getD (i - 1) 0,
        BTNode.inner sibArr.dropLast)).set i
      (moved.1, BTNode.inner (moved :: nodeArr)))

/-- BPlusTree::CoalesceOrRedistribute of a non-root child, carried out in
the frame of its parent node (the source reaches the parent and the sibling
through page fetches; FindLeftSibling picks index i-1, or i+1 when i = 0).
Coalesce (into the left of the two, i.e. the roles swap when the sibling is
the right one) when the two sizes fit into node's max size, else
redistribute one entry.  The flag reports whether the parent itself must be
rebalanced (only a coalesce can shrink the parent; its trigger is
size <= min size). -/
def rebalanceChild (maxL maxI : Nat) (isRoot : Bool)
    (arr : List (Int × BTNode)) (i : Nat) : BTNode × Bool :=
  let sibIdx := if i == 0 then 1 else i - 1
  match arr.get? i, arr.get? sibIdx with
  | some nodeP, some sibP =>
    (match nodeP.2, sibP.2 with
     | BTNode.leaf nodeKvs, BTNode.leaf sibKvs =>
       if nodeKvs.length + sibKvs.length ≤ maxL then
         if i == 0 then
           coalesceLeafStep (internalMin isRoot maxI) arr 0 1 nodeKvs sibKvs
         else
           coalesceLeafStep (internalMin isRoot maxI) arr (i - 1) i sibKvs nodeKvs
       else (redistributeLeafStep arr i nodeKvs sibKvs, false)
     | BTNode.inner nodeArr, BTNode.inner sibArr =>
       if nodeArr.length + sibArr.length ≤ maxI then
         if i == 0 then
           coalesceInternalStep (internalMin isRoot maxI) arr 0 1 nodeArr sibArr
         else
           coalesceInternalStep (internalMin isRoot maxI) arr (i - 1) i sibArr nodeArr
       else (redistributeInternalStep arr i nodeArr sibArr, false)
     | _, _ => (BTNode.inner arr, false))
  | _, _ => (BTNode.inner arr, false)

/-- BPlusTree::GetValue's descent (FindLeafPage choosing the child by
BPlusTreeInternalPage::Lookup) followed by BPlusTreeLeafPage::Lookup. -/
def getV : BTNode → Int → Option (Int × Int)
  | BTNode.leaf kvs, k => leafLookup kvs k
  | BTNode.inner arr, k =>
    match h : arr.get? (internalLookupIdx arr k) with
    | some p => getV p.2 k
    | none => none
termination_by t _ => sizeOf t
decreasing_by
  have hm := List.get?_mem h
  have h1 := List.sizeOf_lt_of_mem hm
  obtain ⟨a, b⟩ := p
  simp only [BTNode.inner.sizeOf_spec, Prod.mk.sizeOf_spec] at h1 ⊢
  omega

/-- Result of BPlusTree::InsertIntoLeaf on a subtree: a duplicate key (the
call returns false with the tree untouched), a plainly updated subtree, or
an updated subtree plus the separator and fresh right sibling handed to
InsertIntoParent. -/
inductive InsResult where
  | dup
  | ok (t : BTNode)
  | moreSplit (t : BTNode) (sep : Int) (t2 : BTNode)

/-- BPlusTree::InsertIntoLeaf together with Split and the non-root arm of
InsertIntoParent: descend by internal Lookup; a present key aborts with
false; otherwise insert into the leaf, split it at (max_size+1)/2 when its
size exceeds max size (the separator handed up is the new page's KeyAt(0)),
and on the way back insert the separator after the old child's slot
(InsertNodeAfter), splitting the internal page the same way when it
overflows. -/
def insV (maxL maxI : Nat) : BTNode → Int → (Int × Int) → InsResult
  | BTNode.leaf kvs, k, v =>
    if (leafLookup kvs k).isSome then InsResult.dup
    else
      let kvs1 := leafInsert kvs k v
      if kvs1.length > maxL then
        let copyIdx := (maxL + 1) / 2
        InsResult.moreSplit (BTNode.leaf (kvs1.take copyIdx))
          (((kvs1.drop copyIdx).map Prod.fst).getD 0 0)
          (BTNode.leaf (kvs1.drop copyIdx))
      else InsResult.ok (BTNode.leaf kvs1)
  | BTNode.inner arr, k, v =>
    match h : arr.get? (internalLookupIdx arr k) with
    | none => InsResult.dup
    | some p =>
      match insV maxL maxI p.2 k v with
      | InsResult.dup => InsResult.dup
      | InsResult.ok c1 =>
        InsResult.ok (BTNode.inner (arr.set (internalLookupIdx arr k) (p.1, c1)))
      | InsResult.moreSplit c1 sep c2 =>
        let arr1 := (arr.set (internalLookupIdx arr k) (p.1, c1)).insertIdx
          (internalLookupIdx arr k + 1) (sep, c2)
        if arr1.length > maxI then
          let copyIdx := (maxI + 1) / 2
          InsResult.moreSplit (BTNode.inner (arr1.take copyIdx))
            (((arr1.drop copyIdx).map Prod.fst).getD 0 0)
            (BTNode.inner (arr1.drop copyIdx))
        else InsResult.ok (BTNode.inner arr1)
termination_by t _ _ => sizeOf t
decreasing_by
  have hm := List.get?_mem h
  have h1 := List.sizeOf_lt_of_mem hm
  obtain ⟨a, b⟩ := p
  simp only [BTNode.inner.sizeOf_spec, Prod.mk.sizeOf_spec] at h1 ⊢
  omega

/-- BPlusTree::Insert: an empty tree starts a new root leaf (StartNewTree);
otherwise InsertIntoLeaf runs, and a split reaching the root allocates a new
root via PopulateNewRoot ([old root at the invalid slot 0, separator and new
sibling at slot 1]; 0 stands for the slot-0 key the source never writes). -/
def insertT (maxL maxI : Nat) (t : Option BTNode) (k : Int) (v : (Int × Int)) :
    Option BTNode × Bool :=
  match t with
  | none => (some (BTNode.leaf [(k, v)]), true)
  | some root =>
    match insV maxL maxI root k v with
    | InsResult.dup => (some root, false)
    | InsResult.ok r => (some r, true)
    | InsResult.moreSplit r sep r2 =>
      (some (BTNode.inner [(0, r), (sep, r2)]), true)

/-- Remove the key from a subtree.  The leaf case is
RemoveAndDeleteRecord followed by BPlusTree::Remove's underflow test
(size < min size); an inner node's case descends, then runs
CoalesceOrRedistribute for an underflowing child, reporting its own
underflow (size <= min size after a coalesce removed a separator) to its
caller. -/
def delV (maxL maxI : Nat) (isRoot : Bool) : BTNode → Int → BTNode × Bool
  | BTNode.leaf kvs, k =>
    let kvs1 := leafRemove kvs k
    (BTNode.leaf kvs1, decide (kvs1.length < leafMin isRoot maxL))
  | BTNode.inner arr, k =>
    match h : arr.get? (internalLookupIdx arr k) with
    | none => (BTNode.inner arr, false)
    | some p =>
      let r := delV maxL maxI false p.2 k
      let arr1 := arr.set (internalLookupIdx arr k) (p.1, r.1)
      if r.2 then rebalanceChild maxL maxI isRoot arr1 (internalLookupIdx arr k)
      else (BTNode.inner arr1, false)
termination_by t _ => sizeOf t
decreasing_by
  have hm := List.get?_mem h
  have h1 := List.sizeOf_lt_of_mem hm
  obtain ⟨a, b⟩ := p
  simp only [BTNode.inner.sizeOf_spec, Prod.mk.sizeOf_spec] at h1 ⊢
  omega

/-- BPlusTree::AdjustRoot: an (empty) leaf root empties the tree; an
internal root of size 1 promotes its sole child; otherwise nothing
changes. -/
def adjustRoot (t : BTNode) : Option BTNode :=
  match t with
  | BTNode.leaf kvs => if kvs.isEmpty then none else some t
  | BTNode.inner arr =>
    if arr.length == 1 then (arr.get? 0).map Prod.snd else some t

/-- BPlusTree::Remove: nothing on an empty tree; otherwise delete in the
tree and, when the root reports underflow, AdjustRoot. -/
def removeT (maxL maxI : Nat) (t : Option BTNode) (k : Int) : Option BTNode :=
  match t with
  | none => none
  | some root =>
    let r := delV maxL maxI true root k
    if r.2 then adjustRoot r.1 else some r.1

/-- BPlusTree::GetValue: false on the empty tree (FindLeafPage returns
null), otherwise the descent's leaf lookup. -/
def getT (t : Option BTNode) (k : Int) : Option (Int × Int) :=
  match t with
  | none => none
  | some root => getV root k

mutual
/-- All leaf entries in leaf order (the sequence the next_page_id chain
enumerates). -/
def entriesOf : BTNode → List (Int × (Int × Int))
  | BTNode.leaf kvs => kvs
  | BTNode.inner [] => []
  | BTNode.inner ((_, c0) :: rest) => entriesSeq c0 rest
termination_by t => sizeOf t

/-- Leaf entries of a child followed by those of the later children. -/
def entriesSeq : BTNode → List (Int × BTNode) → List (Int × (Int × Int))
  | c, [] => entriesOf c
  | c, (_, c2) :: rest => entriesOf c ++ entriesSeq c2 rest
termination_by c rest => sizeOf c + sizeOf rest
end

/-- Child at slot j of an inner array (defaulting like the C++ array reads
that the invariants keep in range). -/
def childD (arr : List (Int × BTNode)) (j : Nat) : BTNode :=
  (arr.getD j (0, BTNode.leaf [])).2

/-- Int at slot j of an inner array (slot 0's key is the invalid one). -/
def sepD (arr : List (Int × BTNode)) (j : Nat) : Int :=
  (arr.getD j (0, BTNode.leaf [])).1

/-- Lower window edge of child j inside an inner array whose own window
starts at lo. -/
def wloD (lo : Option Int) (arr : List (Int × BTNode)) (j : Nat) : Option Int :=
  if j = 0 then lo else some (sepD arr j)

/-- Upper window edge of child j inside an inner array whose own window
ends at hi. -/
def whiD (hi : Option Int) (arr : List (Int × BTNode)) (j : Nat) : Option Int :=
  if j + 1 = arr.length then hi else some (sepD arr (j + 1))

/-- A separator key lies strictly inside the window (none standing for
infinity). -/
def sepStrict (lo hi : Option Int) (s : Int) : Bool :=
  (match lo with | none => true | some l => decide (l < s)) &&
  (match hi with | none => true | some h => decide (s < h))

/-- Strict-order predicate on a key list (keys within a page strictly
increasing). -/
def chainLtB : List Int → Bool
  | [] => true
  | [_] => true
  | a :: b :: r => decide (a < b) && chainLtB (b :: r)

/-- One key lies in the half-open window (lo inclusive, hi exclusive), with
none standing for infinity. -/
def inBounds (lo hi : Option Int) (k : Int) : Bool :=
  (match lo with | none => true | some l => decide (l ≤ k)) &&
  (match hi with | none => true | some h => decide (k < h))

mutual
/-- The search-tree invariant of the spec, as an executable check: keys
within each page strictly increase and lie in the window; child i of an
inner node carries the window [key i, key i+1) (slot 0's key read as the
lower window edge); inner arrays are non-empty. -/
def ordB : Option Int → Option Int → BTNode → Bool
  | lo, hi, BTNode.leaf kvs =>
    chainLtB (kvs.map Prod.fst) && (kvs.map Prod.fst).all (inBounds lo hi)
  | _, _, BTNode.inner [] => false
  | lo, hi, BTNode.inner ((_, c0) :: rest) =>
    chainLtB (rest.map Prod.fst) && (rest.map Prod.fst).all (sepStrict lo hi) &&
      ordSeq lo hi c0 rest
termination_by _ _ t => sizeOf t

/-- The windowed invariant for a child followed by the later separated
children, the separators splitting the window. -/
def ordSeq : Option Int → Option Int → BTNode → List (Int × BTNode) → Bool
  | lo, hi, c, [] => ordB lo hi c
  | lo, hi, c, (s, c2) :: rest => ordB lo (some s) c && ordSeq (some s) hi c2 rest
termination_by _ _ c rest => sizeOf c + sizeOf rest
end

mutual
/-- Every leaf of the subtree is non-empty (and inner arrays are
non-empty). -/
def neB : BTNode → Bool
  | BTNode.leaf kvs => !kvs.isEmpty
  | BTNode.inner [] => false
  | BTNode.inner ((_, c0) :: rest) => neSeq c0 rest
termination_by t => sizeOf t

/-- Non-emptiness for a child and the later children. -/
def neSeq : BTNode → List (Int × BTNode) → Bool
  | c, [] => neB c
  | c, (_, c2) :: rest => neB c && neSeq c2 rest
termination_by c rest => sizeOf c + sizeOf rest
end

/-- Well-formedness of a whole tree: the root leaf (possibly empty) is
merely sorted; a deeper tree satisfies the windowed invariant with
non-empty leaves. -/
def wfT : Option BTNode → Bool
  | none => true
  | some (BTNode.leaf kvs) => chainLtB (kvs.map Prod.fst)
  | some (BTNode.inner arr) => ordB none none (BTNode.inner arr) &&
      neB (BTNode.inner arr)

/-- Association-list lookup on the flattened entries (specification-side
helper for the statements and proofs of the round-trip laws). -/
def lookupL (l : List (Int × (Int × Int))) (k : Int) : Option (Int × Int) :=
  match l.find? (fun p => p.1 == k) with
  | some p => some p.2
  | none => none

/-- Leaf entries of the whole (possibly empty) tree. -/
def entriesT : Option BTNode → List (Int × (Int × Int))
  | none => []
  | some t => entriesOf t

/-- Example leaf of max size 3 holding four entries, about to split. -/
def exLeafFull : LeafPage :=
  { pageId := 10, nextPageId := 77, maxSize := 3
    entries := [(1, (1, 1)), (2, (2, 2)), (3, (3, 3)), (4, (4, 4))] }

/-- Example freshly initialised sibling leaf. -/
def exLeafFresh : LeafPage :=
  { pageId := 11, nextPageId := -1, maxSize := 3, entries := [] }

/-- Example parent array of three slots for the coalesce step. -/
def exC7Parent : List (Int × BTNode) :=
  [(0, BTNode.leaf []), (5, BTNode.leaf []), (9, BTNode.leaf [])]

/-- Example left sibling array for the coalesce step. -/
def exC7Left : List (Int × BTNode) := [(0, BTNode.leaf [(5, (5, 5))])]

/-- Example right sibling child for the coalesce step. -/
def exC7RightChild : BTNode := BTNode.leaf [(9, (9, 9))]

end BPT

namespace LockMgr

/-- Example RID. -/
def exRid : RID := (1, 1)

/-- Example item: transaction 3 holding a granted shared lock. -/
def exS3 : TxItem := { tid := 3, mode := LockMode.shared, granted := true }

/-- Example item: transaction 1 holding a granted shared lock. -/
def exS1 : TxItem := { tid := 1, mode := LockMode.shared, granted := true }

/-- Example item: transaction 0 waiting for an exclusive lock. -/
def exX0 : TxItem := { tid := 0, mode := LockMode.exclusive, granted := false }

/-- Example item: transaction 5 holding a granted exclusive lock. -/
def exX5 : TxItem := { tid := 5, mode := LockMode.exclusive, granted := true }

/-- Example item: transaction 4 holding a granted shared lock. -/
def exS4 : TxItem := { tid := 4, mode := LockMode.shared, granted := true }

/-- Example lock-manager state for the unlock walk: shared holders 3 and 1
granted, transaction 0 queued waiting for exclusive. -/
def exLmWalk : LMState :=
  { strict2PL := false
    lockTable := [(exRid, { locks := [exS3, exS1, exX0], hasUpgrading := false })] }

/-- Example transaction 3 in its growing phase holding the shared lock. -/
def exTxn3 : Txn :=
  { tid := 3, state := TxState.growing, sharedSet := {exRid}, exclusiveSet := ∅ }

/-- Example lock-manager state: transaction 5 holds an exclusive lock. -/
def exLmX5 : LMState :=
  { strict2PL := false
    lockTable := [(exRid, { locks := [exX5], hasUpgrading := false })] }

/-- Example transaction 7 (younger than 5) in its growing phase. -/
def exTxn7 : Txn :=
  { tid := 7, state := TxState.growing, sharedSet := ∅, exclusiveSet := ∅ }

/-- Example lock-manager state for the upgrade: transactions 4 and 1 hold
granted shared locks. -/
def exLmUp : LMState :=
  { strict2PL := false
    lockTable := [(exRid, { locks := [exS4, exS1], hasUpgrading := false })] }

/-- Example transaction 4 in its growing phase holding the shared lock. -/
def exTxn4 : Txn :=
  { tid := 4, state := TxState.growing, sharedSet := {exRid}, exclusiveSet := ∅ }

end LockMgr

namespace BufferPool

/-- Example pool of one frame holding dirty page 7 whose page LSN 5 is ahead
of the persistent LSN 0 while logging is enabled. -/
def exBpmDirty : BPM :=
  { poolSize := 1
    pages := [{ pageId := 7, pinCount := 0, isDirty := true, lsn := 5 }]
    pageTable := [(7, 0)]
    freeList := []
    replacer := [0]
    enableLogging := true
    persistentLsn := 0
    lastLsn := 5
    nextPageId := 8
    writes := []
    deallocs := [] }

/-- Example pool of one frame holding page 7 pinned twice. -/
def exBpmPinned : BPM :=
  { poolSize := 1
    pages := [{ pageId := 7, pinCount := 2, isDirty := false, lsn := 0 }]
    pageTable := [(7, 0)]
    freeList := []
    replacer := []
    enableLogging := false
    persistentLsn := 0
    lastLsn := 0
    nextPageId := 8
    writes := []
    deallocs := [] }

/-- Example pool of two frames where only frame 0 carries a pinned page (a
forgotten unpin in the first frame). -/
def exBpmFrame0 : BPM :=
  { poolSize := 2
    pages := [{ pageId := 3, pinCount := 1, isDirty := false, lsn := 0 }, emptyPage]
    pageTable := [(3, 0)]
    freeList := [1]
    replacer := []
    enableLogging := false
    persistentLsn := 0
    lastLsn := 0
    nextPageId := 4
    writes := []
    deallocs := [] }

end BufferPool

/-! ## Theorems -/

namespace LockMgr

theorem tableGet_tableSet (t : List (RID × TxList)) (rid : RID) (l : TxList) :
    tableGet (tableSet t rid l) rid = l := by
  induction t with
  | nil => simp [tableSet, tableGet, List.find?]
  | cons p rest ih =>
    by_cases h : p.1 == rid
    · simp [tableSet, h, tableGet, List.find?]
    · simpa [tableSet, h, tableGet, List.find?] using ih

theorem lockStep2_some_state {txl : TxList} {txn : Txn} {rid : RID}
    {mode : LockMode} {txl2 : TxList} {txn2 : Txn}
    (h : lockStep2 txl txn rid mode = some (txl2, txn2)) :
    txn2.state = txn.state ∧ txn2.tid = txn.tid := by
  unfold lockStep2 at h
  split at h
  · split at h
    · simp at h
    · split at h
      · simp at h
      · split at h
        · obtain ⟨h1, h2⟩ := Prod.mk.injEq _ _ _ _ ▸ Option.some.inj h
          subst h2
          exact ⟨rfl, rfl⟩
        · simp at h
  · obtain ⟨h1, h2⟩ := Prod.mk.injEq _ _ _ _ ▸ Option.some.inj h
    subst h2
    exact ⟨rfl, rfl⟩

/-- C2 (confirmed): a lock_shared, lock_exclusive or lock_upgrade request
that reaches the grantability check and is not immediately grantable is
resolved by wait-die: when the last queued item's txn id is smaller than the
requester's (smaller id = older, so the requester is younger), the requester
is set to ABORTED and the call fails; otherwise the requester blocks waiting
and is not aborted. -/
theorem c2_wait_die (lm : LMState) (txn : Txn) (rid : RID) (mode : LockMode)
    (txl2 : TxList) (txn2 : Txn) (last : TxItem)
    (h1 : txn.state = TxState.growing)
    (h2 : lockStep2 (tableGet lm.lockTable rid) txn rid mode = some (txl2, txn2))
    (h3 : checkCanGrant txl2 mode = false)
    (h4 : txl2.locks.getLast? = some last) :
    (last.tid < txn.tid →
      (lockTemplate lm txn rid mode).2.2 = LockOutcome.aborted ∧
      (lockTemplate lm txn rid mode).2.1.state = TxState.aborted) ∧
    (¬ last.tid < txn.tid →
      (lockTemplate lm txn rid mode).2.2 = LockOutcome.waiting ∧
      (lockTemplate lm txn rid mode).2.1.state = TxState.growing) := by
  have hs := lockStep2_some_state h2
  constructor
  · intro hlt
    simp [lockTemplate, h1, h2, h3, h4, hlt]
  · intro hlt
    have hins : (txListInsert txl2 txn2 rid mode false).2.2 = LockOutcome.waiting ∧
        (txListInsert txl2 txn2 rid mode false).2.1 = txn2 := by
      simp [txListInsert]
    simp [lockTemplate, h1, h2, h3, h4, hlt, txListInsert, hs.1]

end LockMgr

namespace LockMgr

/-- C3 (counterexample): with granted shared holders for transactions 3 and
1 ahead of transaction 0 waiting for exclusive, transaction 3's unlock
leaves the queue as the code's walk produces it — it stops at the first
already-granted item, so transaction 0 stays ungranted — while the walk the
claim describes passes the granted shared item and grants transaction 0's
exclusive request; the two results differ. -/
theorem c3_unlock_counterexample :
    (unlock exLmWalk exTxn3 exRid).map (fun x => tableGet x.1.lockTable exRid) =
      some { locks := [exS1, exX0], hasUpgrading := false } ∧
    (walkClaimed [exS1, exX0] false).1 = [exS1, { exX0 with granted := true }] ∧
    ([exS1, exX0] : List TxItem) ≠ [exS1, { exX0 with granted := true }] := by
  refine ⟨?_, by decide, by decide⟩
  rfl

theorem grantLoop_eq_walkAmended (l : List TxItem) (hu : Bool) :
    grantLoop l hu = walkAmended l hu := by
  induction l generalizing hu with
  | nil => rfl
  | cons it rest ih =>
    by_cases h : it.granted
    · simp [grantLoop, walkAmended, h]
    · cases hm : it.mode <;> simp [grantLoop, walkAmended, h, hm, ih]

/-- C3 (corrected, amended): for an unlock on a RID whose list stays
non-empty after the caller's item is removed, the call succeeds and the
remaining queue is rewritten exactly by the amended walk: it stops at the
first already-granted item (never passing granted items over); otherwise it
grants from the head, continues past a shared item it has just granted, and
stops after granting an exclusive or an upgrading item, the upgrading item
being promoted to exclusive with has_upgrading cleared. -/
theorem c3_unlock_amended (lm : LMState) (txn : Txn) (rid : RID) (it : TxItem)
    (hguard : lm.strict2PL = false ∨ txn.state = TxState.committed ∨
      txn.state = TxState.aborted)
    (hfind : (tableGet lm.lockTable rid).locks.find?
      (fun i2 => i2.tid == txn.tid) = some it)
    (hne : (tableGet lm.lockTable rid).locks.eraseP
      (fun i2 => i2.tid == txn.tid) ≠ []) :
    (unlock lm txn rid).map (fun x => (x.2.2, tableGet x.1.lockTable rid)) =
      some (true,
        { locks := (walkAmended ((tableGet lm.lockTable rid).locks.eraseP
              (fun i2 => i2.tid == txn.tid)) (tableGet lm.lockTable rid).hasUpgrading).1
          hasUpgrading := (walkAmended ((tableGet lm.lockTable rid).locks.eraseP
              (fun i2 => i2.tid == txn.tid)) (tableGet lm.lockTable rid).hasUpgrading).2 }) := by
  have hg : (lm.strict2PL &&
      !(txn.state == TxState.committed || txn.state == TxState.aborted)) = false := by
    rcases hguard with h | h | h <;> simp [h]
  have htid : (if !lm.strict2PL && txn.state == TxState.growing then
      { txn with state := TxState.shrinking } else txn).tid = txn.tid := by
    split <;> rfl
  unfold unlock
  rw [hg]
  simp only [Bool.false_eq_true, if_false, htid, hfind]
  rw [if_neg (by simpa [List.isEmpty_iff] using hne)]
  simp only [grantLoop_eq_walkAmended]
  simp [tableGet_tableSet]

/-- C3 (amended) witness at the concrete scenario of the counterexample. -/
theorem c3_unlock_amended_witness :
    (unlock exLmWalk exTxn3 exRid).map (fun x => (x.2.2, tableGet x.1.lockTable exRid)) =
      some (true,
        { locks := (walkAmended ((tableGet exLmWalk.lockTable exRid).locks.eraseP
              (fun i2 => i2.tid == exTxn3.tid)) (tableGet exLmWalk.lockTable exRid).hasUpgrading).1
          hasUpgrading := (walkAmended ((tableGet exLmWalk.lockTable exRid).locks.eraseP
              (fun i2 => i2.tid == exTxn3.tid)) (tableGet exLmWalk.lockTable exRid).hasUpgrading).2 }) :=
  c3_unlock_amended exLmWalk exTxn3 exRid exS3 (Or.inl rfl) (by decide) (by decide)

end LockMgr

namespace LockMgr

/-- C10 (confirmed): when a lock_upgrade from a growing transaction holding
a granted shared item is killed by wait-die (not grantable after the erase,
and the last queued item's txn id is smaller than the requester's), the
failure is not atomic: at the point of failure the shared item has already
been erased from the RID's lock-table list (step 2 of lockTemplate) and the
RID removed from the shared-lock set, so the aborted transaction holds no
lock on the RID at all. -/
theorem c10_upgrade_not_atomic (lm : LMState) (txn : Txn) (rid : RID)
    (it last : TxItem)
    (h1 : txn.state = TxState.growing)
    (h2 : (tableGet lm.lockTable rid).hasUpgrading = false)
    (h3 : (tableGet lm.lockTable rid).locks.find?
      (fun i2 => i2.tid == txn.tid) = some it)
    (h4 : it.mode = LockMode.shared) (h5 : it.granted = true)
    (h6 : ((tableGet lm.lockTable rid).locks.eraseP
      (fun i2 => i2.tid == txn.tid)).getLast? = some last)
    (h7 : last.tid < txn.tid)
    (h8 : rid ∉ txn.exclusiveSet)
    (h9 : ((tableGet lm.lockTable rid).locks.eraseP
      (fun i2 => i2.tid == txn.tid)).find? (fun i2 => i2.tid == txn.tid) = none) :
    (lockTemplate lm txn rid LockMode.upgrading).2.2 = LockOutcome.aborted ∧
    (lockTemplate lm txn rid LockMode.upgrading).2.1.state = TxState.aborted ∧
    rid ∉ (lockTemplate lm txn rid LockMode.upgrading).2.1.sharedSet ∧
    rid ∉ (lockTemplate lm txn rid LockMode.upgrading).2.1.exclusiveSet ∧
    tableGet (lockTemplate lm txn rid LockMode.upgrading).1.lockTable rid =
      { locks := (tableGet lm.lockTable rid).locks.eraseP
          (fun i2 => i2.tid == txn.tid)
        hasUpgrading := (tableGet lm.lockTable rid).hasUpgrading } ∧
    (tableGet (lockTemplate lm txn rid LockMode.upgrading).1.lockTable
      rid).locks.find? (fun i2 => i2.tid == txn.tid) = none := by
  have hstep2 : lockStep2 (tableGet lm.lockTable rid) txn rid LockMode.upgrading =
      some ({ tableGet lm.lockTable rid with
                locks := (tableGet lm.lockTable rid).locks.eraseP
                  (fun i2 => i2.tid == txn.tid) },
            { txn with sharedSet := txn.sharedSet.erase rid }) := by
    simp [lockStep2, h2, h3, h4, h5]
  have hcg : checkCanGrant
      { tableGet lm.lockTable rid with
        locks := (tableGet lm.lockTable rid).locks.eraseP
          (fun i2 => i2.tid == txn.tid) } LockMode.upgrading = false := by
    simp [checkCanGrant, h6]
  unfold lockTemplate
  rw [if_neg (by simp [h1])]
  simp only [hstep2, hcg, h6]
  rw [if_pos (by simp [h7])]
  refine ⟨rfl, rfl, Finset.not_mem_erase rid txn.sharedSet, h8, ?_, ?_⟩
  · rw [tableGet_tableSet]
  · rw [tableGet_tableSet]
    exact h9

/-- C10 witness: transaction 4 upgrading its shared lock on the example RID
while older transaction 1 also holds a shared lock dies by wait-die with its
shared item already gone. -/
theorem c10_upgrade_not_atomic_witness :
    (lockTemplate exLmUp exTxn4 exRid LockMode.upgrading).2.2 = LockOutcome.aborted ∧
    (lockTemplate exLmUp exTxn4 exRid LockMode.upgrading).2.1.state = TxState.aborted ∧
    exRid ∉ (lockTemplate exLmUp exTxn4 exRid LockMode.upgrading).2.1.sharedSet ∧
    exRid ∉ (lockTemplate exLmUp exTxn4 exRid LockMode.upgrading).2.1.exclusiveSet ∧
    tableGet (lockTemplate exLmUp exTxn4 exRid LockMode.upgrading).1.lockTable exRid =
      { locks := (tableGet exLmUp.lockTable exRid).locks.eraseP
          (fun i2 => i2.tid == exTxn4.tid)
        hasUpgrading := (tableGet exLmUp.lockTable exRid).hasUpgrading } ∧
    (tableGet (lockTemplate exLmUp exTxn4 exRid LockMode.upgrading).1.lockTable
      exRid).locks.find? (fun i2 => i2.tid == exTxn4.tid) = none :=
  c10_upgrade_not_atomic exLmUp exTxn4 exRid exS4 exS1 rfl rfl (by decide)
    rfl rfl (by decide) (by decide) (by decide) (by decide)

/-- C2 witness: transaction 7 requesting a shared lock behind transaction
5's granted exclusive lock is not grantable; since 5 < 7 the first branch
aborts it (and the second branch holds vacuously). -/
theorem c2_wait_die_witness :
    (exX5.tid < exTxn7.tid →
      (lockTemplate exLmX5 exTxn7 exRid LockMode.shared).2.2 = LockOutcome.aborted ∧
      (lockTemplate exLmX5 exTxn7 exRid LockMode.shared).2.1.state = TxState.aborted) ∧
    (¬ exX5.tid < exTxn7.tid →
      (lockTemplate exLmX5 exTxn7 exRid LockMode.shared).2.2 = LockOutcome.waiting ∧
      (lockTemplate exLmX5 exTxn7 exRid LockMode.shared).2.1.state = TxState.growing) :=
  c2_wait_die exLmX5 exTxn7 exRid LockMode.shared
    { locks := [exX5], hasUpgrading := false } exTxn7 exX5 rfl rfl (by decide) (by decide)

end LockMgr

namespace BufferPool

theorem getVictimPage_some {s : BPM} {f : Nat} {s1 : BPM}
    (h : getVictimPage s = some (f, s1)) :
    s1.pages = s.pages ∧ s1.writes = s.writes ∧
    s1.enableLogging = s.enableLogging ∧ s1.persistentLsn = s.persistentLsn ∧
    s1.lastLsn = s.lastLsn := by
  unfold getVictimPage at h
  split at h
  · obtain ⟨h1, h2⟩ := Prod.mk.injEq _ _ _ _ ▸ Option.some.inj h
    subst h2
    exact ⟨rfl, rfl, rfl, rfl, rfl⟩
  · split at h
    · simp at h
    · obtain ⟨h1, h2⟩ := Prod.mk.injEq _ _ _ _ ▸ Option.some.inj h
      subst h2
      exact ⟨rfl, rfl, rfl, rfl, rfl⟩

theorem getPage_lsn_le {s : BPM} (hmem : ∀ p ∈ s.pages, p.lsn ≤ s.lastLsn)
    (hzero : 0 ≤ s.lastLsn) (f : Nat) : (getPage s f).lsn ≤ s.lastLsn := by
  unfold getPage
  by_cases hf : f < s.pages.length
  · rw [List.getD_eq_getElem _ _ hf]
    exact hmem _ (List.getElem_mem hf)
  · rw [List.getD_eq_default _ _ (Nat.le_of_not_lt hf)]
    exact hzero

/-- C1 (corrected, amended): in the victim write-backs of fetch_page and
new_page, when logging is enabled every disk write of a page happens with
persistent_lsn at least the page's LSN — the guard flushes the log first
when it is behind (given that page LSNs never exceed the log manager's last
assigned LSN); flush_page carries no such guard (its violation is the
counterexample). -/
theorem c1_wal_guard_amended (s : BPM) (pid : Int)
    (hlog : s.enableLogging = true)
    (hmem : ∀ p ∈ s.pages, p.lsn ≤ s.lastLsn)
    (hzero : 0 ≤ s.lastLsn) :
    (∀ w ∈ (fetchPage s pid).1.writes, w ∈ s.writes ∨ w.pageLsn ≤ w.persistentLsn) ∧
    (∀ w ∈ (newPage s).1.writes, w ∈ s.writes ∨ w.pageLsn ≤ w.persistentLsn) := by
  constructor
  · intro w hw
    unfold fetchPage at hw
    split at hw
    · exact Or.inl hw
    · split at hw
      · exact Or.inl hw
      · rename_i f s1 hvic
        obtain ⟨hp, hwr, hel, hpl, hll⟩ := getVictimPage_some hvic
        simp only [setPage] at hw
        split at hw
        · split at hw
          · simp only [diskWrite, logFlushForce, List.mem_append, List.mem_singleton] at hw
            rcases hw with hw | hw
            · exact Or.inl (hwr ▸ hw)
            · subst hw
              refine Or.inr ?_
              simp only [hll]
              have hgp : getPage s1 f = getPage s f := by
                unfold getPage
                rw [hp]
              rw [hgp]
              exact getPage_lsn_le hmem hzero f
          · rename_i hguard
            simp only [diskWrite, List.mem_append, List.mem_singleton] at hw
            rcases hw with hw | hw
            · exact Or.inl (hwr ▸ hw)
            · subst hw
              refine Or.inr ?_
              rw [hel, hlog] at hguard
              simpa using hguard
        · exact Or.inl (hwr ▸ hw)
  · intro w hw
    unfold newPage at hw
    split at hw
    · exact Or.inl hw
    · rename_i f s1 hvic
      obtain ⟨hp, hwr, hel, hpl, hll⟩ := getVictimPage_some hvic
      simp only [setPage] at hw
      split at hw
      · split at hw
        · simp only [diskWrite, logFlushForce, List.mem_append, List.mem_singleton] at hw
          rcases hw with hw | hw
          · exact Or.inl (hwr ▸ hw)
          · subst hw
            refine Or.inr ?_
            simp only [hll, getPage]
            rw [hp]
            exact getPage_lsn_le hmem hzero f
        · rename_i hguard
          simp only [diskWrite, List.mem_append, List.mem_singleton] at hw
          rcases hw with hw | hw
          · exact Or.inl (hwr ▸ hw)
          · subst hw
            refine Or.inr ?_
            simp only [hel, hlog, Bool.true_and, decide_eq_true_eq, Int.not_lt] at hguard
            simpa [getPage] using hguard
      · exact Or.inl (hwr ▸ hw)

/-- C1 witness: fetching a fresh page into the pool whose only frame holds
the dirty page with LSN 5 forces the log flush, so the recorded write
satisfies the guard. -/
theorem c1_wal_guard_amended_witness :
    (∀ w ∈ (fetchPage exBpmDirty 9).1.writes,
      w ∈ exBpmDirty.writes ∨ w.pageLsn ≤ w.persistentLsn) ∧
    (∀ w ∈ (newPage exBpmDirty).1.writes,
      w ∈ exBpmDirty.writes ∨ w.pageLsn ≤ w.persistentLsn) :=
  c1_wal_guard_amended exBpmDirty 9 rfl (by decide) (by decide)

/-- C1 (counterexample): flush_page writes the dirty page with LSN 5 to
disk while logging is enabled and persistent_lsn is still 0; the WAL guard
(persistent_lsn at least the page's LSN at the moment of the write) is
violated on this disk write, so the claim that the guard covers flush_page
and is never bypassed is false. -/
theorem c1_wal_guard_counterexample :
    exBpmDirty.enableLogging = true ∧
    (flushPage exBpmDirty 7).1.writes =
      [{ pageId := 7, pageLsn := 5, persistentLsn := 0 }] ∧
    ¬ ((5 : Int) ≤ 0) :=
  ⟨rfl, rfl, by decide⟩

end BufferPool

namespace BufferPool

/-- C8 (corrected, amended): delete_page fails, leaving the state untouched
and skipping deallocate_page, exactly when the page is resident with a
positive pin count; when it is resident unpinned, the frame leaves the
replacer and page table, the page is reset, the frame returns to the free
list, and deallocate_page is recorded; when it is not resident,
deallocate_page is recorded and the call succeeds. -/
theorem c8_delete_page_amended (s : BPM) (pid : Int) :
    (∀ f, ptFind s.pageTable pid = some f → 0 < (getPage s f).pinCount →
      deletePage s pid = (s, false)) ∧
    (∀ f, ptFind s.pageTable pid = some f → ¬ 0 < (getPage s f).pinCount →
      deletePage s pid =
        ({ s with replacer := replacerErase s.replacer f
                  pageTable := ptRemove s.pageTable pid
                  pages := s.pages.set f
                    { pageId := -1, pinCount := (getPage s f).pinCount,
                      isDirty := false, lsn := 0 }
                  freeList := s.freeList ++ [f]
                  deallocs := s.deallocs ++ [pid] }, true)) ∧
    (ptFind s.pageTable pid = none →
      deletePage s pid = ({ s with deallocs := s.deallocs ++ [pid] }, true)) := by
  refine ⟨?_, ?_, ?_⟩
  · intro f hf hpin
    unfold deletePage
    rw [hf]
    simp only [hpin, if_pos]
  · intro f hf hpin
    unfold deletePage
    rw [hf]
    simp only [setPage]
    rw [if_neg hpin]
  · intro hf
    unfold deletePage
    rw [hf]

/-- C8 witness: deleting the twice-pinned resident page 7 fails and leaves
the state untouched, and deleting from the state whose page is unpinned
succeeds with the deallocation recorded. -/
theorem c8_delete_page_amended_witness :
    deletePage exBpmPinned 7 = (exBpmPinned, false) ∧
    ptFind exBpmDirty.pageTable 7 = some 0 ∧
    ¬ 0 < (getPage exBpmDirty 0).pinCount ∧
    deletePage exBpmDirty 7 =
      ({ exBpmDirty with replacer := replacerErase exBpmDirty.replacer 0
                         pageTable := ptRemove exBpmDirty.pageTable 7
                         pages := exBpmDirty.pages.set 0
                           { pageId := -1, pinCount := (getPage exBpmDirty 0).pinCount,
                             isDirty := false, lsn := 0 }
                         freeList := exBpmDirty.freeList ++ [0]
                         deallocs := exBpmDirty.deallocs ++ [7] }, true) :=
  ⟨(c8_delete_page_amended exBpmPinned 7).1 0 rfl (by decide), rfl, by decide,
    (c8_delete_page_amended exBpmDirty 7).2.1 0 rfl (by decide)⟩

/-- C8 (counterexample): deleting the pinned resident page fails, and the
deallocation trace stays empty — deallocate_page is not called on this
path, refuting the claim that it is called in every case. -/
theorem c8_delete_page_counterexample :
    (deletePage exBpmPinned 7).2 = false ∧
    (deletePage exBpmPinned 7).1.deallocs = [] :=
  ⟨rfl, rfl⟩

/-- C9 (corrected, amended): check_all_unpinned returns true iff every
frame with index at least 1 holds pin count 0; frame 0 is outside the
source's loop, so a leftover pin there is not detected (the
counterexample). -/
theorem c9_check_all_unpinned_amended (s : BPM) :
    checkAllUnpined s = true ↔
      ∀ i, 1 ≤ i → i < s.poolSize → (getPage s i).pinCount = 0 := by
  unfold checkAllUnpined
  rw [List.all_eq_true]
  have hdr : (List.range s.poolSize).drop 1 = List.range' 1 (s.poolSize - 1) := by
    cases hn : s.poolSize with
    | zero => simp
    | succ m =>
      rw [List.range_eq_range', List.range'_succ]
      simp
  rw [hdr]
  constructor
  · intro h i h1 h2
    have hm : i ∈ List.range' 1 (s.poolSize - 1) := by
      rw [List.mem_range'_1]
      omega
    simpa using h i hm
  · intro h i hm
    rw [List.mem_range'_1] at hm
    simpa using h i (by omega) (by omega)

/-- C9 witness for the amended equivalence at a concrete state with a pin
left in frame 1 of a two-frame pool. -/
theorem c9_check_all_unpinned_amended_witness :
    (checkAllUnpined { exBpmFrame0 with
        pages := [emptyPage, { pageId := 3, pinCount := 1, isDirty := false, lsn := 0 }] } = true ↔
      ∀ i, 1 ≤ i → i < ({ exBpmFrame0 with
        pages := [emptyPage, { pageId := 3, pinCount := 1, isDirty := false, lsn := 0 }] } : BPM).poolSize →
        (getPage { exBpmFrame0 with
          pages := [emptyPage, { pageId := 3, pinCount := 1, isDirty := false, lsn := 0 }] } i).pinCount = 0) :=
  c9_check_all_unpinned_amended _

/-- C9 (counterexample): in a two-frame pool whose frame 0 carries a page
with pin count 1 (and frame 1 is clean), check_all_unpinned still returns
true although not every frame has pin count 0 — the leftover pin in frame 0
is undetectable, refuting the claimed equivalence. -/
theorem c9_check_all_unpinned_counterexample :
    checkAllUnpined exBpmFrame0 = true ∧
    (getPage exBpmFrame0 0).pinCount ≠ 0 ∧ 0 < exBpmFrame0.poolSize :=
  ⟨rfl, by decide, by decide⟩

end BufferPool

namespace BPT

/-- C6 (confirmed): on a leaf page holding exactly max_size + 1 entries,
MoveHalfTo keeps the first (max_size+1)/2 entries in the old page, moves the
rest to the fresh right sibling, chains the sibling after the old page
(new.next = old's former next, old.next = new page's id), and both halves
have at least min size = ceil(max_size/2) entries. -/
theorem c6_leaf_move_half_to (pg recip : LeafPage)
    (h : pg.entries.length = pg.maxSize + 1) :
    (leafMoveHalfTo pg recip).1.entries =
      pg.entries.take ((pg.maxSize + 1) / 2) ∧
    (leafMoveHalfTo pg recip).2.entries =
      pg.entries.drop ((pg.maxSize + 1) / 2) ∧
    (leafMoveHalfTo pg recip).2.nextPageId = pg.nextPageId ∧
    (leafMoveHalfTo pg recip).1.nextPageId = recip.pageId ∧
    leafMin false pg.maxSize ≤ (leafMoveHalfTo pg recip).1.entries.length ∧
    leafMin false pg.maxSize ≤ (leafMoveHalfTo pg recip).2.entries.length := by
  have hdiv : (pg.maxSize + 1) / 2 ≤ pg.maxSize + 1 := Nat.div_le_self _ _
  have hdrop : (pg.entries.drop ((pg.maxSize + 1) / 2)).length =
      pg.maxSize + 1 - (pg.maxSize + 1) / 2 := by
    rw [List.length_drop, h]
  refine ⟨rfl, ?_, rfl, rfl, ?_, ?_⟩
  · show (pg.entries.drop ((pg.maxSize + 1) / 2)).take
        (pg.maxSize + 1 - (pg.maxSize + 1) / 2) = pg.entries.drop ((pg.maxSize + 1) / 2)
    rw [← hdrop, List.take_length]
  · show leafMin false pg.maxSize ≤ (pg.entries.take ((pg.maxSize + 1) / 2)).length
    rw [List.length_take, h, leafMin]
    simp only [if_false, Bool.false_eq_true]
    omega
  · show leafMin false pg.maxSize ≤
      ((pg.entries.drop ((pg.maxSize + 1) / 2)).take
        (pg.maxSize + 1 - (pg.maxSize + 1) / 2)).length
    rw [List.length_take, hdrop, leafMin]
    simp only [if_false, Bool.false_eq_true]
    have h2 : (pg.maxSize + 1) / 2 * 2 ≤ pg.maxSize + 1 := Nat.div_mul_le_self _ _
    omega

/-- C6 witness: a leaf with max size 3 holding the four keys 1..4 splits
into [1,2] and [3,4] with the next pointers rechained. -/
theorem c6_leaf_move_half_to_witness :
    (leafMoveHalfTo exLeafFull exLeafFresh).1.entries =
      exLeafFull.entries.take ((exLeafFull.maxSize + 1) / 2) ∧
    (leafMoveHalfTo exLeafFull exLeafFresh).2.entries =
      exLeafFull.entries.drop ((exLeafFull.maxSize + 1) / 2) ∧
    (leafMoveHalfTo exLeafFull exLeafFresh).2.nextPageId = exLeafFull.nextPageId ∧
    (leafMoveHalfTo exLeafFull exLeafFresh).1.nextPageId = exLeafFresh.pageId ∧
    leafMin false exLeafFull.maxSize ≤
      (leafMoveHalfTo exLeafFull exLeafFresh).1.entries.length ∧
    leafMin false exLeafFull.maxSize ≤
      (leafMoveHalfTo exLeafFull exLeafFresh).2.entries.length :=
  c6_leaf_move_half_to exLeafFull exLeafFresh rfl

/-- C7 (confirmed for internal siblings, the case whose MoveAllTo the claim
describes): coalescing the right internal sibling into the left one inside
the parent's array removes exactly the separator entry at removeIndex from
the parent, the moved sequence starts with the parent's separator key in
place of the right node's invalid slot-0 key (the write-through of
MoveAllTo), and the driver recurses on the parent iff the parent's new size
is <= its min size — in particular it already recurses at equality, which
distinguishes the <= trigger from <. -/
theorem c7_internal_coalesce (parentMin : Nat) (arr : List (Int × BTNode))
    (leftIdx removeIndex : Nat) (leftArr : List (Int × BTNode))
    (k0 : Int) (c0 : BTNode) (rest : List (Int × BTNode)) :
    (coalesceInternalStep parentMin arr leftIdx removeIndex leftArr
        ((k0, c0) :: rest)).1 =
      BTNode.inner ((arr.set leftIdx ((arr.map Prod.fst).getD leftIdx 0,
        BTNode.inner (leftArr ++ ((arr.map Prod.fst).getD removeIndex 0, c0) ::
          rest))).eraseIdx removeIndex) ∧
    (∀ j, j < removeIndex →
      (arr.eraseIdx removeIndex).getD j (0, BTNode.leaf []) =
        arr.getD j (0, BTNode.leaf [])) ∧
    (∀ j, removeIndex ≤ j → j + 1 < arr.length →
      (arr.eraseIdx removeIndex).getD j (0, BTNode.leaf []) =
        arr.getD (j + 1) (0, BTNode.leaf [])) ∧
    ((coalesceInternalStep parentMin arr leftIdx removeIndex leftArr
        ((k0, c0) :: rest)).2 = true ↔
      ((arr.set leftIdx ((arr.map Prod.fst).getD leftIdx 0,
        BTNode.inner (leftArr ++ ((arr.map Prod.fst).getD removeIndex 0, c0) ::
          rest))).eraseIdx removeIndex).length ≤ parentMin) ∧
    (removeIndex < arr.length → (arr.eraseIdx removeIndex).length = parentMin →
      (coalesceInternalStep parentMin arr leftIdx removeIndex leftArr
        ((k0, c0) :: rest)).2 = true) := by
  refine ⟨rfl, ?_, ?_, ?_, ?_⟩
  · intro j hj
    by_cases hlen : j < (arr.eraseIdx removeIndex).length
    · rw [List.getD_eq_getElem _ _ hlen, List.getElem_eraseIdx]
      rw [dif_pos hj]
      rw [List.getD_eq_getElem]
    · rw [List.getD_eq_default _ _ (Nat.le_of_not_lt hlen)]
      rw [List.length_eraseIdx] at hlen
      rw [List.getD_eq_default]
      split at hlen <;> omega
  · intro j hj1 hj2
    have hlen : j < (arr.eraseIdx removeIndex).length := by
      rw [List.length_eraseIdx]
      split <;> omega
    rw [List.getD_eq_getElem _ _ hlen, List.getElem_eraseIdx]
    rw [dif_neg (by omega)]
    rw [List.getD_eq_getElem]
  · simp [coalesceInternalStep, internalMoveAllTo]
  · intro hri hlen
    simp only [coalesceInternalStep, internalMoveAllTo, decide_eq_true_eq]
    rw [List.length_eraseIdx, List.length_set]
    rw [List.length_eraseIdx] at hlen
    split at hlen <;> split <;> omega

/-- C7 witness: a parent of three slots whose children at slots 1 and 2
coalesce; with parent min size 2 the new parent size is exactly 2, and the
boundary conjunct of the theorem shows the recursion trigger fires at
equality. -/
theorem c7_internal_coalesce_witness :
    (coalesceInternalStep 2 exC7Parent 1 2 exC7Left
      ((0, exC7RightChild) :: [])).2 = true :=
  (c7_internal_coalesce 2 exC7Parent 1 2 exC7Left 0 exC7RightChild []).2.2.2.2
    (by decide) (by decide)

end BPT

namespace BPT

theorem sizeOf_child_lt {arr : List (Int × BTNode)} {p : Int × BTNode}
    (h : p ∈ arr) : sizeOf p.2 < sizeOf (BTNode.inner arr) := by
  have h1 := List.sizeOf_lt_of_mem h
  obtain ⟨a, b⟩ := p
  simp only [BTNode.inner.sizeOf_spec, Prod.mk.sizeOf_spec] at h1 ⊢
  omega

theorem btNode_ind (P : BTNode → Prop)
    (hleaf : ∀ kvs, P (BTNode.leaf kvs))
    (hinner : ∀ arr, (∀ p ∈ arr, P p.2) → P (BTNode.inner arr)) :
    ∀ t, P t := by
  have key : ∀ (n : Nat) (t : BTNode), sizeOf t = n → P t := by
    intro n
    induction n using Nat.strong_induction_on with
    | _ n ih =>
      intro t hn
      cases t with
      | leaf kvs => exact hleaf kvs
      | inner arr =>
        refine hinner arr (fun p hp => ?_)
        exact ih (sizeOf p.2) (by rw [← hn]; exact sizeOf_child_lt hp) p.2 rfl
  intro t
  exact key (sizeOf t) t rfl

theorem bsearch_spec (f : Nat → Bool) (st ed1 : Nat) (hst : st ≤ ed1)
    (mono : ∀ i j, st ≤ i → i ≤ j → j < ed1 → f i = true → f j = true) :
    st ≤ bsearch f st ed1 ∧ bsearch f st ed1 ≤ ed1 ∧
    (∀ i, st ≤ i → i < bsearch f st ed1 → f i = false) ∧
    (∀ i, bsearch f st ed1 ≤ i → i < ed1 → f i = true) := by
  have key : ∀ (m st ed1 : Nat), ed1 - st = m → st ≤ ed1 →
      (∀ i j, st ≤ i → i ≤ j → j < ed1 → f i = true → f j = true) →
      (st ≤ bsearch f st ed1 ∧ bsearch f st ed1 ≤ ed1 ∧
       (∀ i, st ≤ i → i < bsearch f st ed1 → f i = false) ∧
       (∀ i, bsearch f st ed1 ≤ i → i < ed1 → f i = true)) := by
    intro m
    induction m using Nat.strong_induction_on with
    | _ m ih =>
      intro st ed1 hm hst2 mono2
      by_cases h : st < ed1
      · rw [bsearch]
        rw [dif_pos h]
        set mid := (ed1 - 1 - st) / 2 + st with hmid
        have hmid1 : st ≤ mid := by omega
        have hmid2 : mid < ed1 := by
          have := Nat.div_le_self (ed1 - 1 - st) 2
          omega
        by_cases hf : f mid
        · rw [if_pos hf]
          have hrec := ih (mid - st) (by omega) st mid rfl (by omega) ?mono3
          case mono3 =>
            intro i j hi hij hj hfi
            exact mono2 i j hi hij (by omega) hfi
          obtain ⟨r1, r2, r3, r4⟩ := hrec
          refine ⟨r1, by omega, r3, ?_⟩
          intro i hi1 hi2
          by_cases hcase : i < mid
          · exact r4 i hi1 hcase
          · exact mono2 mid i hmid1 (by omega) hi2 hf
        · rw [if_neg hf]
          have hrec := ih (ed1 - (mid + 1)) (by omega) (mid + 1) ed1 rfl (by omega) ?mono4
          case mono4 =>
            intro i j hi hij hj hfi
            exact mono2 i j (by omega) hij hj hfi
          obtain ⟨r1, r2, r3, r4⟩ := hrec
          refine ⟨by omega, r2, ?_, r4⟩
          intro i hi1 hi2
          by_cases hcase : mid + 1 ≤ i
          · exact r3 i hcase hi2
          · have hile : i ≤ mid := by omega
            rcases Nat.eq_or_lt_of_le hile with hEq | hlt2
            · subst hEq
              simpa using hf
            · by_cases hfi : f i
              · have := mono2 i mid hi1 (by omega) hmid2 hfi
                exact absurd this hf
              · simpa using hfi
      · rw [bsearch]
        rw [dif_neg h]
        refine ⟨Nat.le_refl st, by omega, ?_, ?_⟩
        · intro i hi1 hi2
          omega
        · intro i hi1 hi2
          omega
  exact key (ed1 - st) st ed1 rfl hst mono

theorem chainLtB_iff_chain (l : List Int) :
    chainLtB l = true ↔ List.Chain' (· < ·) l := by
  induction l with
  | nil => simp [chainLtB]
  | cons a rest ih =>
    cases rest with
    | nil => simp [chainLtB]
    | cons b rest2 =>
      rw [chainLtB]
      rw [Bool.and_eq_true, decide_eq_true_eq, ih, List.chain'_cons]

theorem chainLtB_pairwise (l : List Int) :
    chainLtB l = true ↔ List.Pairwise (· < ·) l := by
  rw [chainLtB_iff_chain, List.chain'_iff_pairwise]

theorem chainLtB_getD {l : List Int} (h : chainLtB l = true)
    {i j : Nat} (hij : i < j) (hj : j < l.length) :
    l.getD i 0 < l.getD j 0 := by
  rw [chainLtB_pairwise, List.pairwise_iff_getElem] at h
  rw [List.getD_eq_getElem _ _ (by omega), List.getD_eq_getElem _ _ hj]
  exact h i j (by omega) hj hij

theorem chainLtB_sublist {l l2 : List Int} (hs : l2.Sublist l)
    (h : chainLtB l = true) : chainLtB l2 = true := by
  rw [chainLtB_pairwise] at h ⊢
  exact h.sublist hs

end BPT

namespace BPT

theorem entriesSeq_eq (c : BTNode) (rest : List (Int × BTNode)) :
    entriesSeq c rest = entriesOf c ++ rest.flatMap (fun p => entriesOf p.2) := by
  induction rest generalizing c with
  | nil => simp [entriesSeq]
  | cons q rest2 ih =>
    rw [entriesSeq]
    rw [ih q.2, List.flatMap_cons]

theorem entries_inner (arr : List (Int × BTNode)) :
    entriesOf (BTNode.inner arr) = arr.flatMap (fun p => entriesOf p.2) := by
  cases arr with
  | nil => simp [entriesOf]
  | cons p rest =>
    obtain ⟨k0, c0⟩ := p
    rw [entriesOf, entriesSeq_eq, List.flatMap_cons]

theorem childD_cons_succ (q : Int × BTNode) (rest : List (Int × BTNode)) (j : Nat) :
    childD (q :: rest) (j + 1) = childD rest j := rfl

theorem sepD_cons_succ (q : Int × BTNode) (rest : List (Int × BTNode)) (j : Nat) :
    sepD (q :: rest) (j + 1) = sepD rest j := rfl

theorem wloD_cons_succ (lo : Option Int) (q q2 : Int × BTNode)
    (rest : List (Int × BTNode)) (j : Nat) :
    wloD lo (q :: q2 :: rest) (j + 1) = wloD (some q2.1) (q2 :: rest) j := by
  cases j with
  | zero => simp [wloD, sepD]
  | succ j3 =>
    simp only [wloD]
    rw [if_neg (by omega), if_neg (by omega), sepD_cons_succ]

theorem whiD_cons_succ (hi : Option Int) (q q2 : Int × BTNode)
    (rest : List (Int × BTNode)) (j : Nat) :
    whiD hi (q :: q2 :: rest) (j + 1) = whiD hi (q2 :: rest) j := by
  simp only [whiD, List.length_cons, sepD_cons_succ]
  by_cases hend : j + 1 = rest.length + 1
  · rw [if_pos (by omega), if_pos (by omega)]
  · rw [if_neg (by omega), if_neg (by omega)]

theorem ordSeq_iff_windows (rest : List (Int × BTNode)) :
    ∀ (lo hi : Option Int) (k0 : Int) (c0 : BTNode),
    ordSeq lo hi c0 rest = true ↔
      ∀ j, j < rest.length + 1 →
        ordB (wloD lo ((k0, c0) :: rest) j) (whiD hi ((k0, c0) :: rest) j)
          (childD ((k0, c0) :: rest) j) = true := by
  induction rest with
  | nil =>
    intro lo hi k0 c0
    rw [ordSeq]
    constructor
    · intro h j hj
      simp only [List.length_nil] at hj
      have hj0 : j = 0 := by omega
      subst hj0
      simpa [wloD, whiD, childD] using h
    · intro h
      have := h 0 (by simp)
      simpa [wloD, whiD, childD] using this
  | cons q rest2 ih =>
    intro lo hi k0 c0
    obtain ⟨s, c1⟩ := q
    rw [ordSeq]
    rw [Bool.and_eq_true, ih (some s) hi s c1]
    constructor
    · intro ⟨h0, hrest⟩ j hj
      cases j with
      | zero =>
        simpa [wloD, whiD, childD] using h0
      | succ j2 =>
        have hj2 : j2 < rest2.length + 1 := by
          simp only [List.length_cons] at hj
          omega
        have := hrest j2 hj2
        rw [childD_cons_succ, wloD_cons_succ, whiD_cons_succ]
        exact this
    · intro h
      constructor
      · have := h 0 (by simp)
        simpa [wloD, whiD, childD] using this
      · intro j2 hj2
        have := h (j2 + 1) (by simp only [List.length_cons]; omega)
        rw [childD_cons_succ, wloD_cons_succ, whiD_cons_succ] at this
        exact this

theorem ord_inner_iff (lo hi : Option Int) (k0 : Int) (c0 : BTNode)
    (rest : List (Int × BTNode)) :
    ordB lo hi (BTNode.inner ((k0, c0) :: rest)) = true ↔
      chainLtB (rest.map Prod.fst) = true ∧
      (∀ s, s ∈ rest.map Prod.fst → sepStrict lo hi s = true) ∧
      (∀ j, j < rest.length + 1 →
        ordB (wloD lo ((k0, c0) :: rest) j) (whiD hi ((k0, c0) :: rest) j)
          (childD ((k0, c0) :: rest) j) = true) := by
  rw [ordB]
  rw [Bool.and_eq_true, Bool.and_eq_true, List.all_eq_true,
    ordSeq_iff_windows rest lo hi k0 c0]
  constructor
  · intro ⟨⟨h1, h2⟩, h3⟩
    exact ⟨h1, fun s hs => h2 s hs, h3⟩
  · intro ⟨h1, h2, h3⟩
    exact ⟨⟨h1, fun s hs => h2 s hs⟩, h3⟩

theorem neSeq_iff (rest : List (Int × BTNode)) :
    ∀ (c0 : BTNode),
    neSeq c0 rest = true ↔ (neB c0 = true ∧ ∀ p ∈ rest, neB p.2 = true) := by
  induction rest with
  | nil =>
    intro c0
    rw [neSeq]
    simp
  | cons q rest2 ih =>
    intro c0
    obtain ⟨s, c1⟩ := q
    rw [neSeq]
    rw [Bool.and_eq_true, ih c1]
    constructor
    · intro ⟨h1, h2, h3⟩
      refine ⟨h1, fun p hp => ?_⟩
      rcases List.mem_cons.mp hp with hEq | hmem
      · subst hEq
        exact h2
      · exact h3 p hmem
    · intro ⟨h1, h2⟩
      exact ⟨h1, h2 (s, c1) (List.mem_cons_self _ _),
        fun p hp => h2 p (List.mem_cons_of_mem _ hp)⟩

theorem ne_inner_iff (arr : List (Int × BTNode)) :
    neB (BTNode.inner arr) = true ↔ arr ≠ [] ∧ ∀ p ∈ arr, neB p.2 = true := by
  cases arr with
  | nil => simp [neB]
  | cons q rest =>
    obtain ⟨k0, c0⟩ := q
    rw [neB]
    rw [neSeq_iff]
    constructor
    · intro ⟨h1, h2⟩
      refine ⟨by simp, fun p hp => ?_⟩
      rcases List.mem_cons.mp hp with hEq | hmem
      · subst hEq
        exact h1
      · exact h2 p hmem
    · intro ⟨h1, h2⟩
      exact ⟨h2 (k0, c0) (List.mem_cons_self _ _),
        fun p hp => h2 p (List.mem_cons_of_mem _ hp)⟩

end BPT

namespace BPT

theorem childD_getElem {arr : List (Int × BTNode)} {j : Nat} (hj : j < arr.length) :
    childD arr j = (arr[j]).2 := by
  unfold childD
  rw [List.getD_eq_getElem _ _ hj]

theorem sepD_getElem {arr : List (Int × BTNode)} {j : Nat} (hj : j < arr.length) :
    sepD arr j = (arr[j]).1 := by
  unfold sepD
  rw [List.getD_eq_getElem _ _ hj]

theorem inBounds_iff (lo hi : Option Int) (k : Int) :
    inBounds lo hi k = true ↔
      (∀ l, lo = some l → l ≤ k) ∧ (∀ h, hi = some h → k < h) := by
  unfold inBounds
  cases lo <;> cases hi <;> simp

theorem sepStrict_iff (lo hi : Option Int) (s : Int) :
    sepStrict lo hi s = true ↔
      (∀ l, lo = some l → l < s) ∧ (∀ h, hi = some h → s < h) := by
  unfold sepStrict
  cases lo <;> cases hi <;> simp

theorem entries_inner_mem {arr : List (Int × BTNode)} {p : Int × (Int × Int)} :
    p ∈ entriesOf (BTNode.inner arr) ↔
      ∃ j, j < arr.length ∧ p ∈ entriesOf (childD arr j) := by
  rw [entries_inner, List.mem_flatMap]
  constructor
  · intro ⟨q, hq, hp⟩
    obtain ⟨j, hj, hEq⟩ := List.mem_iff_getElem.mp hq
    exact ⟨j, hj, by rw [childD_getElem hj, hEq]; exact hp⟩
  · intro ⟨j, hj, hp⟩
    refine ⟨arr[j], List.getElem_mem hj, ?_⟩
    rw [childD_getElem hj] at hp
    exact hp

theorem sep_mem (rest : List (Int × BTNode)) (k0 : Int) (c0 : BTNode) (j : Nat)
    (h1 : 1 ≤ j) (h2 : j < rest.length + 1) :
    sepD ((k0, c0) :: rest) j ∈ rest.map Prod.fst := by
  rw [List.mem_iff_getElem]
  refine ⟨j - 1, by simp only [List.length_map]; omega, ?_⟩
  rw [List.getElem_map]
  rw [show sepD ((k0, c0) :: rest) j = sepD rest (j - 1) by
    rw [show j = (j - 1) + 1 by omega, sepD_cons_succ]
    rw [Nat.add_sub_cancel]]
  rw [sepD_getElem (by omega)]

theorem chainLt_head_lt {s : Int} {l : List Int} (h : chainLtB (s :: l) = true)
    {x : Int} (hx : x ∈ l) : s < x := by
  rw [chainLtB_pairwise] at h
  exact (List.pairwise_cons.mp h).1 x hx

theorem wloD_zero (lo : Option Int) (arr : List (Int × BTNode)) :
    wloD lo arr 0 = lo := by
  simp [wloD]

theorem whiD_zero_cons (hi : Option Int) (q q2 : Int × BTNode)
    (rest : List (Int × BTNode)) :
    whiD hi (q :: q2 :: rest) 0 = some q2.1 := by
  simp only [whiD, List.length_cons]
  rw [if_neg (by omega)]
  rfl

theorem whiD_zero_single (hi : Option Int) (q : Int × BTNode) :
    whiD hi [q] 0 = hi := by
  simp [whiD]

theorem childD_zero (q : Int × BTNode) (rest : List (Int × BTNode)) :
    childD (q :: rest) 0 = q.2 := rfl

theorem inBounds_of_window {lo hi : Option Int} {k0 : Int} {c0 : BTNode}
    {rest : List (Int × BTNode)} {j : Nat} {x : Int} (hj : j < rest.length + 1)
    (hsep : ∀ s, s ∈ rest.map Prod.fst → sepStrict lo hi s = true)
    (hin : inBounds (wloD lo ((k0, c0) :: rest) j)
      (whiD hi ((k0, c0) :: rest) j) x = true) :
    inBounds lo hi x = true := by
  rw [inBounds_iff] at hin ⊢
  constructor
  · intro l hl
    by_cases hj0 : j = 0
    · exact hin.1 l (by rw [hj0, wloD_zero, hl])
    · have hs := ((sepStrict_iff lo hi _).mp
        (hsep _ (sep_mem rest k0 c0 j (by omega) hj))).1 l hl
      have := hin.1 (sepD ((k0, c0) :: rest) j) (by rw [wloD, if_neg hj0])
      omega
  · intro h hh
    by_cases hjend : j + 1 = rest.length + 1
    · refine hin.2 h ?_
      rw [whiD, if_pos (by simp only [List.length_cons]; omega), hh]
    · have hs := ((sepStrict_iff lo hi _).mp
        (hsep _ (sep_mem rest k0 c0 (j + 1) (by omega) (by omega)))).2 h hh
      have := hin.2 (sepD ((k0, c0) :: rest) (j + 1))
        (by rw [whiD, if_neg (by simp only [List.length_cons]; omega)])
      omega

theorem sepStrict_narrow_left {lo hi : Option Int} {s s2 : Int}
    (h : sepStrict lo hi s2 = true) (hlt : s < s2) :
    sepStrict (some s) hi s2 = true := by
  rw [sepStrict_iff] at h ⊢
  refine ⟨fun l hl => ?_, h.2⟩
  obtain rfl : s = l := by injection hl
  exact hlt

theorem entries_sorted_bounds :
    ∀ t, ∀ lo hi, ordB lo hi t = true →
      chainLtB ((entriesOf t).map Prod.fst) = true ∧
      (∀ p, p ∈ entriesOf t → inBounds lo hi p.1 = true) := by
  refine btNode_ind _ ?_ ?_
  · intro kvs lo hi hord
    rw [ordB, Bool.and_eq_true, List.all_eq_true] at hord
    rw [entriesOf]
    exact ⟨hord.1, fun p hp => hord.2 p.1 (List.mem_map_of_mem Prod.fst hp)⟩
  · intro arr hC lo hi hord
    cases arr with
    | nil => rw [ordB] at hord; exact absurd hord (by simp)
    | cons q rest =>
      obtain ⟨k0, c0⟩ := q
      induction rest generalizing lo k0 c0 with
      | nil =>
        rw [ord_inner_iff] at hord
        obtain ⟨hch, hsep, hwin⟩ := hord
        have h0 := hwin 0 (by simp)
        rw [wloD_zero, whiD_zero_single, childD_zero] at h0
        have hc0 := hC (k0, c0) (List.mem_cons_self _ _) lo hi h0
        have hent : entriesOf (BTNode.inner [(k0, c0)]) = entriesOf c0 := by
          rw [entries_inner]
          simp
        rw [hent]
        exact hc0
      | cons q2 rest2 ih2 =>
        obtain ⟨s, c1⟩ := q2
        rw [ord_inner_iff] at hord
        obtain ⟨hch, hsep, hwin⟩ := hord
        have h0 := hwin 0 (by simp)
        rw [wloD_zero, whiD_zero_cons, childD_zero] at h0
        have hc0 := hC (k0, c0) (List.mem_cons_self _ _) lo (some s) h0
        have hchcons : chainLtB (s :: rest2.map Prod.fst) = true := by
          simpa using hch
        have hsmaller : ordB (some s) hi (BTNode.inner ((s, c1) :: rest2)) = true := by
          rw [ord_inner_iff]
          refine ⟨chainLtB_sublist ((List.sublist_cons_self (s, c1) rest2).map Prod.fst) hch,
            ?_, ?_⟩
          · intro s2 hs2
            have hstrict := hsep s2 (List.mem_cons_of_mem _ hs2)
            exact sepStrict_narrow_left hstrict (chainLt_head_lt hchcons hs2)
          · intro j hj
            have := hwin (j + 1) (by simp only [List.length_cons] at hj ⊢; omega)
            rw [childD_cons_succ, wloD_cons_succ, whiD_cons_succ] at this
            exact this
        have hrec := ih2 (some s) s c1
          (fun p hp => hC p (by
            rcases List.mem_cons.mp hp with hEq | hmem
            · exact hEq ▸ List.mem_cons_of_mem _ (List.mem_cons_self _ _)
            · exact List.mem_cons_of_mem _ (List.mem_cons_of_mem _ hmem)))
          hsmaller
        have hent : entriesOf (BTNode.inner ((k0, c0) :: (s, c1) :: rest2)) =
            entriesOf c0 ++ entriesOf (BTNode.inner ((s, c1) :: rest2)) := by
          rw [entries_inner, entries_inner, List.flatMap_cons]
        rw [hent]
        have hs_hi : sepStrict lo hi s = true := hsep s (by simp)
        constructor
        · rw [List.map_append, chainLtB_pairwise, List.pairwise_append]
          refine ⟨(chainLtB_pairwise _).mp hc0.1, (chainLtB_pairwise _).mp hrec.1, ?_⟩
          intro a ha b hb
          obtain ⟨pa, hpa, hpaEq⟩ := List.mem_map.mp ha
          obtain ⟨pb, hpb, hpbEq⟩ := List.mem_map.mp hb
          have h1 := ((inBounds_iff _ _ _).mp (hc0.2 pa hpa)).2 s rfl
          have h2 := ((inBounds_iff _ _ _).mp (hrec.2 pb hpb)).1 s rfl
          subst hpaEq hpbEq
          omega
        · intro p hp
          rcases List.mem_append.mp hp with hmem | hmem
          · have h1 := (inBounds_iff _ _ _).mp (hc0.2 p hmem)
            rw [inBounds_iff]
            refine ⟨h1.1, fun h hh => ?_⟩
            have h2 := ((sepStrict_iff _ _ _).mp hs_hi).2 h hh
            have h3 := h1.2 s rfl
            omega
          · have h1 := (inBounds_iff _ _ _).mp (hrec.2 p hmem)
            rw [inBounds_iff]
            refine ⟨fun l hl => ?_, h1.2⟩
            have h2 := ((sepStrict_iff _ _ _).mp hs_hi).1 l hl
            have h3 := h1.1 s rfl
            omega

end BPT

namespace BPT

theorem keyIndex_spec (kvs : List (Int × Int × Int)) (k : Int)
    (hch : chainLtB (kvs.map Prod.fst) = true) :
    keyIndex kvs k ≤ kvs.length ∧
    (∀ i, i < keyIndex kvs k → (kvs.map Prod.fst).getD i 0 < k) ∧
    (∀ i, keyIndex kvs k ≤ i → i < kvs.length → k ≤ (kvs.map Prod.fst).getD i 0) := by
  have h := bsearch_spec (fun i => decide (k ≤ (kvs.map Prod.fst).getD i 0))
    0 kvs.length (by omega) ?mono
  case mono =>
    intro i j hi hij hj hf
    simp only [decide_eq_true_eq] at hf ⊢
    rcases Nat.eq_or_lt_of_le hij with hEq | hlt
    · exact hEq ▸ hf
    · have := chainLtB_getD hch hlt (by simp only [List.length_map]; omega)
      omega
  obtain ⟨h1, h2, h3, h4⟩ := h
  rw [keyIndex]
  refine ⟨h2, ?_, ?_⟩
  · intro i hi
    have := h3 i (by omega) hi
    simp only [decide_eq_false_iff_not, not_le] at this
    exact this
  · intro i hi1 hi2
    have := h4 i hi1 hi2
    simpa using this

theorem leafLookup_some_iff (kvs : List (Int × Int × Int)) (k : Int) (v : Int × Int)
    (hch : chainLtB (kvs.map Prod.fst) = true) :
    leafLookup kvs k = some v ↔ (k, v) ∈ kvs := by
  obtain ⟨hk1, hk2, hk3⟩ := keyIndex_spec kvs k hch
  constructor
  · intro h
    unfold leafLookup at h
    split at h
    · rename_i p hp
      split at h
      · rename_i hbeq
        obtain rfl : p.2 = v := by injection h
        have hpk : p.1 = k := by simpa using hbeq
        have := List.get?_mem hp
        rw [show (k, p.2) = p by rw [← hpk]]
        exact this
      · exact absurd h (by simp)
    · exact absurd h (by simp)
  · intro hmem
    obtain ⟨i, hi, hEq⟩ := List.mem_iff_getElem.mp hmem
    have hkey : (kvs.map Prod.fst).getD i 0 = k := by
      rw [List.getD_eq_getElem _ _ (by simpa using hi), List.getElem_map, hEq]
    have hige : keyIndex kvs k ≤ i := by
      by_contra hcon
      have := hk2 i (by omega)
      omega
    have hieq : i = keyIndex kvs k := by
      rcases Nat.eq_or_lt_of_le hige with hEq2 | hlt
      · omega
      · exfalso
        have hx1 := hk3 (keyIndex kvs k) (Nat.le_refl _) (by omega)
        have hx2 := chainLtB_getD hch hlt (by simpa using hi)
        omega
    unfold leafLookup
    rw [show kvs.get? (keyIndex kvs k) = some (k, v) from ?_]
    · simp
    · rw [← hieq, List.get?_eq_getElem?, List.getElem?_eq_getElem (by omega)]
      rw [hEq]

theorem leafLookup_none_iff (kvs : List (Int × Int × Int)) (k : Int)
    (hch : chainLtB (kvs.map Prod.fst) = true) :
    leafLookup kvs k = none ↔ k ∉ kvs.map Prod.fst := by
  constructor
  · intro h hmem
    obtain ⟨p, hp, hpk⟩ := List.mem_map.mp hmem
    have : (k, p.2) ∈ kvs := by
      rw [show (k, p.2) = p by rw [← hpk]]
      exact hp
    rw [← leafLookup_some_iff kvs k p.2 hch] at this
    rw [h] at this
    exact absurd this (by simp)
  · intro hnot
    cases hv : leafLookup kvs k with
    | none => rfl
    | some v =>
      rw [leafLookup_some_iff kvs k v hch] at hv
      exact absurd (List.mem_map_of_mem Prod.fst hv) hnot

theorem sepD_eq_mapGetD (arr : List (Int × BTNode)) (j : Nat) :
    sepD arr j = (arr.map Prod.fst).getD j 0 := by
  by_cases hj : j < arr.length
  · rw [sepD_getElem hj, List.getD_eq_getElem _ _ (by simpa using hj), List.getElem_map]
  · rw [sepD, List.getD_eq_default _ _ (by omega),
      List.getD_eq_default _ _ (by simpa using hj)]

theorem sepD_chain (rest : List (Int × BTNode)) (k0 : Int) (c0 : BTNode)
    (hch : chainLtB (rest.map Prod.fst) = true) (j1 j2 : Nat)
    (h1 : 1 ≤ j1) (h12 : j1 < j2) (h2 : j2 < rest.length + 1) :
    sepD ((k0, c0) :: rest) j1 < sepD ((k0, c0) :: rest) j2 := by
  rw [show j1 = (j1 - 1) + 1 by omega, sepD_cons_succ,
    show j2 = (j2 - 1) + 1 by omega, sepD_cons_succ]
  rw [sepD_eq_mapGetD, sepD_eq_mapGetD]
  exact chainLtB_getD hch (by omega) (by simp only [List.length_map]; omega)

theorem ilidx_spec (k0 : Int) (c0 : BTNode) (rest : List (Int × BTNode)) (k : Int)
    (hch : chainLtB (rest.map Prod.fst) = true) :
    internalLookupIdx ((k0, c0) :: rest) k < rest.length + 1 ∧
    (∀ j, 1 ≤ j → j ≤ internalLookupIdx ((k0, c0) :: rest) k →
      sepD ((k0, c0) :: rest) j ≤ k) ∧
    (∀ j, internalLookupIdx ((k0, c0) :: rest) k < j → j < rest.length + 1 →
      k < sepD ((k0, c0) :: rest) j) := by
  have hlen : ((k0, c0) :: rest).length = rest.length + 1 := by simp
  have h := bsearch_spec
    (fun i => decide (k < (((k0, c0) :: rest).map Prod.fst).getD i 0))
    1 ((k0, c0) :: rest).length (by simp) ?mono
  case mono =>
    intro i j hi hij hj hf
    simp only [decide_eq_true_eq, ← sepD_eq_mapGetD] at hf ⊢
    rcases Nat.eq_or_lt_of_le hij with hEq | hlt
    · exact hEq ▸ hf
    · have := sepD_chain rest k0 c0 hch i j hi hlt (by omega)
      omega
  obtain ⟨h1, h2, h3, h4⟩ := h
  rw [internalLookupIdx]
  simp only [List.length_cons] at h1 h2 h3 h4 ⊢
  refine ⟨by omega, ?_, ?_⟩
  · intro j hj1 hj2
    have := h3 j hj1 (by omega)
    simp only [decide_eq_false_iff_not, not_lt, ← sepD_eq_mapGetD] at this
    exact this
  · intro j hj1 hj2
    have := h4 j (by omega) (by omega)
    simp only [decide_eq_true_eq, ← sepD_eq_mapGetD] at this
    exact this

theorem getV_inner (arr : List (Int × BTNode)) (k : Int)
    (hlt : internalLookupIdx arr k < arr.length) :
    getV (BTNode.inner arr) k = getV (childD arr (internalLookupIdx arr k)) k := by
  rw [childD_getElem hlt]
  rw [getV]
  split
  · rename_i p hp
    have hpe : p = arr[internalLookupIdx arr k] := by
      rw [List.get?_eq_getElem?, List.getElem?_eq_getElem hlt] at hp
      exact (Option.some.inj hp).symm
    rw [hpe]
  · rename_i hp
    rw [List.get?_eq_none] at hp
    omega

theorem getV_some_iff :
    ∀ t, ∀ lo hi (k : Int) (v : Int × Int), ordB lo hi t = true →
      (getV t k = some v ↔ (k, v) ∈ entriesOf t) := by
  refine btNode_ind _ ?_ ?_
  · intro kvs lo hi k v hord
    rw [ordB, Bool.and_eq_true] at hord
    rw [getV, entriesOf]
    exact leafLookup_some_iff kvs k v hord.1
  · intro arr hC lo hi k v hord
    cases arr with
    | nil => rw [ordB] at hord; exact absurd hord (by simp)
    | cons q rest =>
      obtain ⟨k0, c0⟩ := q
      have hord2 := hord
      rw [ord_inner_iff] at hord2
      obtain ⟨hch, hsep, hwin⟩ := hord2
      obtain ⟨hlt, hF1, hF2⟩ := ilidx_spec k0 c0 rest k hch
      set i := internalLookupIdx ((k0, c0) :: rest) k with hidef
      have hleni : i < ((k0, c0) :: rest).length := by simpa using hlt
      rw [getV_inner _ _ hleni]
      have hchild : ((k0, c0) :: rest)[i].2 = childD ((k0, c0) :: rest) i :=
        (childD_getElem hleni).symm
      have hmemi : ((k0, c0) :: rest)[i] ∈ (k0, c0) :: rest := List.getElem_mem hleni
      have hIH := hC _ hmemi (wloD lo ((k0, c0) :: rest) i)
        (whiD hi ((k0, c0) :: rest) i) k v (by rw [hchild]; exact hwin i hlt)
      rw [hchild] at hIH
      constructor
      · intro h
        rw [hIH] at h
        exact entries_inner_mem.mpr ⟨i, hleni, h⟩
      · intro hmem
        obtain ⟨j, hj, hmemj⟩ := entries_inner_mem.mp hmem
        have hjlen : j < rest.length + 1 := by simpa using hj
        by_cases hji : j = i
        · rw [hIH]
          rw [← hji]
          exact hmemj
        · exfalso
          have hbound := (entries_sorted_bounds (childD ((k0, c0) :: rest) j)
            (wloD lo ((k0, c0) :: rest) j) (whiD hi ((k0, c0) :: rest) j)
            (hwin j hjlen)).2 (k, v) hmemj
          rw [inBounds_iff] at hbound
          rcases Nat.lt_or_ge j i with hlt2 | hge
          · have hup := hbound.2 (sepD ((k0, c0) :: rest) (j + 1))
              (by rw [whiD, if_neg (by simp only [List.length_cons]; omega)])
            have := hF1 (j + 1) (by omega) (by omega)
            omega
          · have hj1 : 1 ≤ j := by omega
            have hlow := hbound.1 (sepD ((k0, c0) :: rest) j)
              (by rw [wloD, if_neg (by omega)])
            have := hF2 j (by omega) hjlen
            omega

end BPT

namespace BPT

theorem insertIdx_append_cons {α : Type} (A C : List α) (a b : α) :
    (A ++ a :: C).insertIdx (A.length + 1) b = A ++ a :: b :: C := by
  induction A with
  | nil =>
    simp only [List.nil_append, List.length_nil, List.insertIdx_succ_cons,
      List.insertIdx_zero]
  | cons x A2 ih =>
    simp only [List.cons_append, List.length_cons, List.insertIdx_succ_cons, ih]

theorem set_append_cons {α : Type} (A C : List α) (a b : α) :
    (A ++ b :: C).set A.length a = A ++ a :: C := by
  induction A with
  | nil => simp
  | cons x A2 ih =>
    simp only [List.cons_append, List.length_cons, List.set_cons_succ, ih]

theorem eraseIdx_append_cons_cons {α : Type} (A C : List α) (a b : α) :
    (A ++ a :: b :: C).eraseIdx (A.length + 1) = A ++ a :: C := by
  induction A with
  | nil =>
    simp only [List.nil_append, List.length_nil, List.eraseIdx_cons_succ,
      List.eraseIdx_cons_zero]
  | cons x A2 ih =>
    simp only [List.cons_append, List.length_cons, List.eraseIdx_cons_succ, ih]

theorem list_decomp1 {α : Type} (l : List α) (i : Nat) (h : i < l.length) :
    l = l.take i ++ l[i] :: l.drop (i + 1) := by
  rw [List.getElem_cons_drop l i h, List.take_append_drop]

theorem list_decomp2 {α : Type} (l : List α) (i : Nat) (h : i + 1 < l.length) :
    l = l.take i ++ l[i] :: l[i + 1] :: l.drop (i + 2) := by
  rw [List.getElem_cons_drop l (i + 1) h, List.getElem_cons_drop l i (by omega),
    List.take_append_drop]

theorem mem_take_idx {α : Type} {l : List α} {c : Nat} {x : α} (h : x ∈ l.take c) :
    ∃ j, j < c ∧ j < l.length ∧ ∀ d, l.getD j d = x := by
  obtain ⟨j, hj, hEq⟩ := List.mem_iff_getElem.mp h
  have hjlen : j < l.length := by
    rw [List.length_take] at hj
    omega
  refine ⟨j, by rw [List.length_take] at hj; omega, hjlen, fun d => ?_⟩
  rw [List.getD_eq_getElem l d hjlen, ← List.getElem_take l]
  · exact hEq

theorem mem_drop_idx {α : Type} {l : List α} {c : Nat} {x : α} (h : x ∈ l.drop c) :
    ∃ j, c + j < l.length ∧ ∀ d, l.getD (c + j) d = x := by
  obtain ⟨j, hj, hEq⟩ := List.mem_iff_getElem.mp h
  have hjlen : c + j < l.length := by
    rw [List.length_drop] at hj
    omega
  refine ⟨j, hjlen, fun d => ?_⟩
  rw [List.getD_eq_getElem l d hjlen, ← List.getElem_drop l]
  · exact hEq

theorem eraseP_first_idx {α : Type} (p : α → Bool) (l : List α) (i : Nat)
    (hi : i < l.length)
    (hbefore : ∀ j (hj : j < l.length), j < i → p (l[j]) = false)
    (hit : p (l[i]) = true) :
    l.eraseP p = l.take i ++ l.drop (i + 1) := by
  conv =>
    lhs
    rw [list_decomp1 l i hi]
  rw [List.eraseP_append_right]
  · rw [List.eraseP_cons_of_pos hit]
  · intro b hb
    obtain ⟨j, hj1, hj2, hj3⟩ := mem_take_idx hb
    have := hbefore j hj2 hj1
    have hbj : l.getD j b = b := hj3 b
    rw [List.getD_eq_getElem l b hj2] at hbj
    rw [hbj] at this
    simp [this]

theorem eraseP_append_right_clean {α : Type} (p : α → Bool) (B C : List α)
    (hC : ∀ c ∈ C, p c = false) :
    (B ++ C).eraseP p = B.eraseP p ++ C := by
  by_cases hB : ∃ b ∈ B, p b = true
  · obtain ⟨b, hb1, hb2⟩ := hB
    exact List.eraseP_append_left hb2 C hb1
  · push_neg at hB
    have hBf : ∀ b ∈ B, p b = false := fun b hb => Bool.eq_false_iff.mpr (hB b hb)
    have h1 : (B ++ C).eraseP p = B ++ C.eraseP p :=
      List.eraseP_append_right C (fun b hb => by simp [hBf b hb])
    have h2 : C.eraseP p = C :=
      List.eraseP_of_forall_not (fun a ha => by simp [hC a ha])
    have h3 : B.eraseP p = B :=
      List.eraseP_of_forall_not (fun a ha => by simp [hBf a ha])
    rw [h1, h2, h3]

theorem sepD_set (arr : List (Int × BTNode)) (i : Nat) (q : Int × BTNode) (j : Nat)
    (hq : q.1 = sepD arr i) : sepD (arr.set i q) j = sepD arr j := by
  by_cases hj : j < arr.length
  · have hjs : j < (arr.set i q).length := by
      rw [List.length_set]
      exact hj
    have h1 : sepD (arr.set i q) j = ((arr.set i q)[j]).1 := sepD_getElem hjs
    have h2 : sepD arr j = (arr[j]).1 := sepD_getElem hj
    rw [h1, h2, List.getElem_set]
    by_cases hij : i = j
    · rw [if_pos hij]
      rw [hq, hij]
      exact sepD_getElem hj
    · rw [if_neg hij]
  · rw [sepD, sepD, List.getD_eq_default _ _ (by rw [List.length_set]; omega),
      List.getD_eq_default _ _ (by omega)]

theorem childD_set_self (arr : List (Int × BTNode)) (i : Nat) (q : Int × BTNode)
    (hi : i < arr.length) : childD (arr.set i q) i = q.2 := by
  have his : i < (arr.set i q).length := by
    rw [List.length_set]
    exact hi
  have h1 : childD (arr.set i q) i = ((arr.set i q)[i]).2 := childD_getElem his
  rw [h1, List.getElem_set, if_pos rfl]

theorem childD_set_ne (arr : List (Int × BTNode)) (i : Nat) (q : Int × BTNode)
    (j : Nat) (hij : j ≠ i) : childD (arr.set i q) j = childD arr j := by
  by_cases hj : j < arr.length
  · have hjs : j < (arr.set i q).length := by
      rw [List.length_set]
      exact hj
    have h1 : childD (arr.set i q) j = ((arr.set i q)[j]).2 := childD_getElem hjs
    have h2 : childD arr j = (arr[j]).2 := childD_getElem hj
    rw [h1, h2, List.getElem_set, if_neg (by omega)]
  · rw [childD, childD, List.getD_eq_default _ _ (by rw [List.length_set]; omega),
      List.getD_eq_default _ _ (by omega)]

theorem sepD_take (arr : List (Int × BTNode)) (c j : Nat) (hj1 : j < c)
    (hj2 : j < arr.length) : sepD (arr.take c) j = sepD arr j := by
  have hjt : j < (arr.take c).length := by
    rw [List.length_take]
    omega
  have h1 : sepD (arr.take c) j = ((arr.take c)[j]).1 := sepD_getElem hjt
  have h2 : sepD arr j = (arr[j]).1 := sepD_getElem hj2
  rw [h1, h2, List.getElem_take]

theorem childD_take (arr : List (Int × BTNode)) (c j : Nat) (hj1 : j < c)
    (hj2 : j < arr.length) : childD (arr.take c) j = childD arr j := by
  have hjt : j < (arr.take c).length := by
    rw [List.length_take]
    omega
  have h1 : childD (arr.take c) j = ((arr.take c)[j]).2 := childD_getElem hjt
  have h2 : childD arr j = (arr[j]).2 := childD_getElem hj2
  rw [h1, h2, List.getElem_take]

theorem sepD_drop (arr : List (Int × BTNode)) (c j : Nat) (h : c + j < arr.length) :
    sepD (arr.drop c) j = sepD arr (c + j) := by
  have hjd : j < (arr.drop c).length := by
    rw [List.length_drop]
    omega
  have h1 : sepD (arr.drop c) j = ((arr.drop c)[j]).1 := sepD_getElem hjd
  have h2 : sepD arr (c + j) = (arr[c + j]).1 := sepD_getElem h
  rw [h1, h2, List.getElem_drop]

theorem childD_drop (arr : List (Int × BTNode)) (c j : Nat) (h : c + j < arr.length) :
    childD (arr.drop c) j = childD arr (c + j) := by
  have hjd : j < (arr.drop c).length := by
    rw [List.length_drop]
    omega
  have h1 : childD (arr.drop c) j = ((arr.drop c)[j]).2 := childD_getElem hjd
  have h2 : childD arr (c + j) = (arr[c + j]).2 := childD_getElem h
  rw [h1, h2, List.getElem_drop]

theorem sepD_insertIdx_lt (arr : List (Int × BTNode)) (m : Nat) (q : Int × BTNode)
    (j : Nat) (hj : j < m) (hm : m ≤ arr.length) :
    sepD (arr.insertIdx m q) j = sepD arr j := by
  have hji : j < (arr.insertIdx m q).length := by
    rw [List.length_insertIdx m arr hm]
    omega
  have h1 : sepD (arr.insertIdx m q) j = ((arr.insertIdx m q)[j]).1 :=
    sepD_getElem hji
  have h2 : sepD arr j = (arr[j]).1 := sepD_getElem (by omega)
  rw [h1, h2, List.getElem_insertIdx_of_lt arr q m j hj (by omega)]

theorem sepD_insertIdx_self (arr : List (Int × BTNode)) (m : Nat) (q : Int × BTNode)
    (hm : m ≤ arr.length) : sepD (arr.insertIdx m q) m = q.1 := by
  have hmi : m < (arr.insertIdx m q).length := by
    rw [List.length_insertIdx m arr hm]
    omega
  have h1 : sepD (arr.insertIdx m q) m = ((arr.insertIdx m q)[m]).1 :=
    sepD_getElem hmi
  rw [h1, List.getElem_insertIdx_self arr q m hm]

theorem sepD_insertIdx_gt (arr : List (Int × BTNode)) (m : Nat) (q : Int × BTNode)
    (j : Nat) (hj : m < j) (hjlen : j < arr.length + 1) :
    sepD (arr.insertIdx m q) j = sepD arr (j - 1) := by
  have hm : m ≤ arr.length := by omega
  have hk : m + (j - m - 1) < arr.length := by omega
  have hki : m + (j - m - 1) + 1 < (arr.insertIdx m q).length := by
    rw [List.length_insertIdx m arr hm]
    omega
  have hidx : (arr.insertIdx m q)[m + (j - m - 1) + 1] = arr[m + (j - m - 1)] :=
    List.getElem_insertIdx_add_succ arr q m (j - m - 1) hk
  have h1 : sepD (arr.insertIdx m q) j = sepD (arr.insertIdx m q) (m + (j - m - 1) + 1) := by
    congr 1
    omega
  have h2 : sepD (arr.insertIdx m q) (m + (j - m - 1) + 1) =
      ((arr.insertIdx m q)[m + (j - m - 1) + 1]).1 :=
    sepD_getElem hki
  have h3 : sepD arr (j - 1) = (arr[m + (j - m - 1)]).1 := by
    rw [show j - 1 = m + (j - m - 1) by omega]
    exact sepD_getElem (by omega)
  rw [h1, h2, h3, hidx]

theorem childD_insertIdx_lt (arr : List (Int × BTNode)) (m : Nat) (q : Int × BTNode)
    (j : Nat) (hj : j < m) (hm : m ≤ arr.length) :
    childD (arr.insertIdx m q) j = childD arr j := by
  have hji : j < (arr.insertIdx m q).length := by
    rw [List.length_insertIdx m arr hm]
    omega
  have h1 : childD (arr.insertIdx m q) j = ((arr.insertIdx m q)[j]).2 :=
    childD_getElem hji
  have h2 : childD arr j = (arr[j]).2 := childD_getElem (by omega)
  rw [h1, h2, List.getElem_insertIdx_of_lt arr q m j hj (by omega)]

theorem childD_insertIdx_self (arr : List (Int × BTNode)) (m : Nat) (q : Int × BTNode)
    (hm : m ≤ arr.length) : childD (arr.insertIdx m q) m = q.2 := by
  have hmi : m < (arr.insertIdx m q).length := by
    rw [List.length_insertIdx m arr hm]
    omega
  have h1 : childD (arr.insertIdx m q) m = ((arr.insertIdx m q)[m]).2 :=
    childD_getElem hmi
  rw [h1, List.getElem_insertIdx_self arr q m hm]

theorem childD_insertIdx_gt (arr : List (Int × BTNode)) (m : Nat) (q : Int × BTNode)
    (j : Nat) (hj : m < j) (hjlen : j < arr.length + 1) :
    childD (arr.insertIdx m q) j = childD arr (j - 1) := by
  have hm : m ≤ arr.length := by omega
  have hk : m + (j - m - 1) < arr.length := by omega
  have hki : m + (j - m - 1) + 1 < (arr.insertIdx m q).length := by
    rw [List.length_insertIdx m arr hm]
    omega
  have hidx : (arr.insertIdx m q)[m + (j - m - 1) + 1] = arr[m + (j - m - 1)] :=
    List.getElem_insertIdx_add_succ arr q m (j - m - 1) hk
  have h1 : childD (arr.insertIdx m q) j = childD (arr.insertIdx m q) (m + (j - m - 1) + 1) := by
    congr 1
    omega
  have h2 : childD (arr.insertIdx m q) (m + (j - m - 1) + 1) =
      ((arr.insertIdx m q)[m + (j - m - 1) + 1]).2 :=
    childD_getElem hki
  have h3 : childD arr (j - 1) = (arr[m + (j - m - 1)]).2 := by
    rw [show j - 1 = m + (j - m - 1) by omega]
    exact childD_getElem (by omega)
  rw [h1, h2, h3, hidx]

end BPT

namespace BPT

theorem ord_inner_idx_iff (lo hi : Option Int) (arr : List (Int × BTNode)) :
    ordB lo hi (BTNode.inner arr) = true ↔
      (arr ≠ [] ∧
       (∀ j1 j2, 1 ≤ j1 → j1 < j2 → j2 < arr.length → sepD arr j1 < sepD arr j2) ∧
       (∀ j, 1 ≤ j → j < arr.length → sepStrict lo hi (sepD arr j) = true) ∧
       (∀ j, j < arr.length →
         ordB (wloD lo arr j) (whiD hi arr j) (childD arr j) = true)) := by
  cases arr with
  | nil =>
    rw [ordB]
    simp
  | cons q rest =>
    obtain ⟨k0, c0⟩ := q
    rw [ord_inner_iff]
    constructor
    · intro ⟨hch, hsep, hwin⟩
      refine ⟨by simp, ?_, ?_, ?_⟩
      · intro j1 j2 h1 h12 h2
        exact sepD_chain rest k0 c0 hch j1 j2 h1 h12 (by simpa using h2)
      · intro j h1 h2
        exact hsep _ (sep_mem rest k0 c0 j h1 (by simpa using h2))
      · intro j hj
        exact hwin j (by simpa using hj)
    · intro ⟨hne2, hchain, hsepS, hwin⟩
      refine ⟨?_, ?_, ?_⟩
      · rw [chainLtB_pairwise, List.pairwise_iff_getElem]
        intro a b ha hb hab
        have ha2 : a < rest.length := by simpa using ha
        have hb2 : b < rest.length := by simpa using hb
        have := hchain (a + 1) (b + 1) (by omega) (by omega)
          (by simp only [List.length_cons]; omega)
        rw [sepD_cons_succ, sepD_cons_succ, sepD_getElem ha2, sepD_getElem hb2] at this
        simp only [List.getElem_map]
        exact this
      · intro s hs
        obtain ⟨a, ha, hEq⟩ := List.mem_iff_getElem.mp hs
        have ha2 : a < rest.length := by simpa using ha
        have := hsepS (a + 1) (by omega) (by simp only [List.length_cons]; omega)
        rw [sepD_cons_succ, sepD_getElem ha2] at this
        rw [List.getElem_map] at hEq
        rw [← hEq]
        exact this
      · intro j hj
        exact hwin j (by simpa using hj)

theorem ord_inner_set (lo hi : Option Int) (arr : List (Int × BTNode)) (i : Nat)
    (c1 : BTNode) (keep : Int) (hkeep : keep = sepD arr i) (hilen : i < arr.length)
    (hord : ordB lo hi (BTNode.inner arr) = true)
    (hc1 : ordB (wloD lo arr i) (whiD hi arr i) c1 = true) :
    ordB lo hi (BTNode.inner (arr.set i (keep, c1))) = true := by
  rw [ord_inner_idx_iff] at hord ⊢
  obtain ⟨hne2, hchain, hsepS, hwin⟩ := hord
  have hslen : (arr.set i (keep, c1)).length = arr.length := List.length_set arr i _
  have hsep2 : ∀ j, sepD (arr.set i (keep, c1)) j = sepD arr j :=
    fun j => sepD_set arr i (keep, c1) j hkeep
  have hwlo : ∀ j, wloD lo (arr.set i (keep, c1)) j = wloD lo arr j := by
    intro j
    by_cases hj0 : j = 0
    · rw [hj0, wloD_zero, wloD_zero]
    · rw [wloD, wloD, if_neg hj0, if_neg hj0, hsep2 j]
  have hwhi : ∀ j, whiD hi (arr.set i (keep, c1)) j = whiD hi arr j := by
    intro j
    by_cases hend : j + 1 = arr.length
    · rw [whiD, whiD, if_pos (by rw [hslen]; exact hend), if_pos hend]
    · rw [whiD, whiD, if_neg (by rw [hslen]; exact hend), if_neg hend, hsep2]
  refine ⟨?_, ?_, ?_, ?_⟩
  · intro hcon
    rw [hcon] at hslen
    simp only [List.length_nil] at hslen
    omega
  · intro j1 j2 h1 h12 h2
    rw [hslen] at h2
    rw [hsep2, hsep2]
    exact hchain j1 j2 h1 h12 h2
  · intro j h1 h2
    rw [hslen] at h2
    rw [hsep2]
    exact hsepS j h1 h2
  · intro j hj
    rw [hslen] at hj
    rw [hwlo, hwhi]
    by_cases hji : j = i
    · rw [hji, childD_set_self arr i _ hilen]
      rw [hji] at hj
      exact hc1
    · rw [childD_set_ne arr i _ j hji]
      exact hwin j hj

theorem ord_inner_insert (lo hi : Option Int) (arr : List (Int × BTNode)) (i : Nat)
    (c1 c2 : BTNode) (sep keep : Int)
    (hilen : i < arr.length)
    (hkeep : keep = sepD arr i)
    (hord : ordB lo hi (BTNode.inner arr) = true)
    (hc1 : ordB (wloD lo arr i) (some sep) c1 = true)
    (hc2 : ordB (some sep) (whiD hi arr i) c2 = true)
    (hsepN : sepStrict (wloD lo arr i) (whiD hi arr i) sep = true) :
    ordB lo hi
      (BTNode.inner ((arr.set i (keep, c1)).insertIdx (i + 1) (sep, c2))) = true := by
  rw [ord_inner_idx_iff] at hord ⊢
  obtain ⟨hne2, hchain, hsepS, hwin⟩ := hord
  have hAlen : (arr.set i (keep, c1)).length = arr.length := List.length_set arr i _
  have hA_sep : ∀ j, sepD (arr.set i (keep, c1)) j = sepD arr j :=
    fun j => sepD_set arr i (keep, c1) j hkeep
  have h1len : ((arr.set i (keep, c1)).insertIdx (i + 1) (sep, c2)).length =
      arr.length + 1 := by
    rw [List.length_insertIdx (i + 1) _ (by omega), hAlen]
  have hs_le : ∀ j, j ≤ i →
      sepD ((arr.set i (keep, c1)).insertIdx (i + 1) (sep, c2)) j = sepD arr j := by
    intro j hj
    rw [sepD_insertIdx_lt _ (i + 1) _ j (by omega) (by omega), hA_sep]
  have hs_self : sepD ((arr.set i (keep, c1)).insertIdx (i + 1) (sep, c2)) (i + 1) =
      sep := by
    rw [sepD_insertIdx_self _ (i + 1) _ (by omega)]
  have hs_gt : ∀ j, i + 1 < j → j < arr.length + 1 →
      sepD ((arr.set i (keep, c1)).insertIdx (i + 1) (sep, c2)) j = sepD arr (j - 1) := by
    intro j h1 h2
    rw [sepD_insertIdx_gt _ (i + 1) _ j h1 (by omega), hA_sep]
  have hc_lt : ∀ j, j < i →
      childD ((arr.set i (keep, c1)).insertIdx (i + 1) (sep, c2)) j = childD arr j := by
    intro j hj
    rw [childD_insertIdx_lt _ (i + 1) _ j (by omega) (by omega),
      childD_set_ne arr i _ j (by omega)]
  have hc_i : childD ((arr.set i (keep, c1)).insertIdx (i + 1) (sep, c2)) i = c1 := by
    rw [childD_insertIdx_lt _ (i + 1) _ i (by omega) (by omega),
      childD_set_self arr i _ hilen]
  have hc_i1 : childD ((arr.set i (keep, c1)).insertIdx (i + 1) (sep, c2)) (i + 1) =
      c2 := by
    rw [childD_insertIdx_self _ (i + 1) _ (by omega)]
  have hc_gt : ∀ j, i + 1 < j → j < arr.length + 1 →
      childD ((arr.set i (keep, c1)).insertIdx (i + 1) (sep, c2)) j =
        childD arr (j - 1) := by
    intro j h1 h2
    rw [childD_insertIdx_gt _ (i + 1) _ j h1 (by omega),
      childD_set_ne arr i _ (j - 1) (by omega)]
  have hwloi : wloD lo arr i = if i = 0 then lo else some (sepD arr i) := rfl
  have hwhii : whiD hi arr i =
      if i + 1 = arr.length then hi else some (sepD arr (i + 1)) := rfl
  have hsep_lt_new : ∀ j, 1 ≤ j → j ≤ i → sepD arr j < sep := by
    intro j h1 h2
    have hi1 : 1 ≤ i := by omega
    have hlo := ((sepStrict_iff _ _ _).mp hsepN).1 (sepD arr i)
      (by rw [hwloi, if_neg (by omega)])
    by_cases hji : j = i
    · rw [hji]
      exact hlo
    · have := hchain j i h1 (by omega) hilen
      omega
  have hnew_lt_sep : ∀ j, i + 1 ≤ j → j < arr.length → sep < sepD arr j := by
    intro j h1 h2
    have hhi := ((sepStrict_iff _ _ _).mp hsepN).2 (sepD arr (i + 1))
      (by rw [hwhii, if_neg (by omega)])
    by_cases hji : j = i + 1
    · rw [hji]
      exact hhi
    · have := hchain (i + 1) j (by omega) (by omega) h2
      omega
  refine ⟨?_, ?_, ?_, ?_⟩
  · intro hcon
    rw [hcon] at h1len
    simp only [List.length_nil] at h1len
    omega
  · intro j1 j2 h1 h12 h2
    rw [h1len] at h2
    rcases Nat.lt_trichotomy j1 (i + 1) with hj1 | hj1 | hj1
    · rw [hs_le j1 (by omega)]
      rcases Nat.lt_trichotomy j2 (i + 1) with hj2 | hj2 | hj2
      · rw [hs_le j2 (by omega)]
        exact hchain j1 j2 h1 h12 (by omega)
      · rw [hj2, hs_self]
        exact hsep_lt_new j1 h1 (by omega)
      · rw [hs_gt j2 hj2 h2]
        exact hchain j1 (j2 - 1) h1 (by omega) (by omega)
    · rw [hj1, hs_self]
      have hj2 : i + 1 < j2 := by omega
      rw [hs_gt j2 hj2 h2]
      exact hnew_lt_sep (j2 - 1) (by omega) (by omega)
    · rw [hs_gt j1 hj1 (by omega), hs_gt j2 (by omega) h2]
      exact hchain (j1 - 1) (j2 - 1) (by omega) (by omega) (by omega)
  · intro j h1 h2
    rw [h1len] at h2
    rcases Nat.lt_trichotomy j (i + 1) with hj | hj | hj
    · rw [hs_le j (by omega)]
      exact hsepS j h1 (by omega)
    · rw [hj, hs_self]
      rw [sepStrict_iff]
      constructor
      · intro l hl
        have hlo := ((sepStrict_iff _ _ _).mp hsepN).1
        by_cases hi0 : i = 0
        · exact hlo l (by rw [hwloi, if_pos hi0, hl])
        · have h3 := hlo (sepD arr i) (by rw [hwloi, if_neg hi0])
          have h4 := ((sepStrict_iff _ _ _).mp (hsepS i (by omega) hilen)).1 l hl
          omega
      · intro h hh
        have hhi := ((sepStrict_iff _ _ _).mp hsepN).2
        by_cases hiend : i + 1 = arr.length
        · exact hhi h (by rw [hwhii, if_pos hiend, hh])
        · have h3 := hhi (sepD arr (i + 1)) (by rw [hwhii, if_neg hiend])
          have h4 := ((sepStrict_iff _ _ _).mp
            (hsepS (i + 1) (by omega) (by omega))).2 h hh
          omega
    · rw [hs_gt j hj h2]
      exact hsepS (j - 1) (by omega) (by omega)
  · intro j hj
    rw [h1len] at hj
    rcases Nat.lt_trichotomy j i with hji | hji | hji
    · rw [hc_lt j hji]
      have hwl : wloD lo ((arr.set i (keep, c1)).insertIdx (i + 1) (sep, c2)) j =
          wloD lo arr j := by
        by_cases hj0 : j = 0
        · rw [hj0, wloD_zero, wloD_zero]
        · rw [wloD, wloD, if_neg hj0, if_neg hj0, hs_le j (by omega)]
      have hwh : whiD hi ((arr.set i (keep, c1)).insertIdx (i + 1) (sep, c2)) j =
          whiD hi arr j := by
        rw [whiD, whiD, if_neg (by rw [h1len]; omega), if_neg (by omega),
          hs_le (j + 1) (by omega)]
      rw [hwl, hwh]
      exact hwin j (by omega)
    · have hwl : wloD lo ((arr.set i (keep, c1)).insertIdx (i + 1) (sep, c2)) j =
          wloD lo arr i := by
        by_cases hj0 : j = 0
        · rw [hj0, wloD_zero, hwloi, if_pos (by omega)]
        · rw [wloD, if_neg hj0, hji, hs_le i (by omega), hwloi, if_neg (by omega)]
      have hwh : whiD hi ((arr.set i (keep, c1)).insertIdx (i + 1) (sep, c2)) j =
          some sep := by
        rw [whiD, if_neg (by rw [h1len]; omega), hji, hs_self]
      rw [hwl, hwh, hji, hc_i]
      exact hc1
    · rcases Nat.lt_trichotomy j (i + 1) with hji2 | hji2 | hji2
      · omega
      · have hwl : wloD lo ((arr.set i (keep, c1)).insertIdx (i + 1) (sep, c2)) j =
            some sep := by
          rw [wloD, if_neg (by omega), hji2, hs_self]
        have hwh : whiD hi ((arr.set i (keep, c1)).insertIdx (i + 1) (sep, c2)) j =
            whiD hi arr i := by
          by_cases hiend : i + 1 = arr.length
          · rw [whiD, if_pos (by rw [h1len]; omega), hwhii, if_pos hiend]
          · rw [whiD, if_neg (by rw [h1len]; omega), hji2,
              hs_gt (i + 2) (by omega) (by omega), hwhii, if_neg hiend]
            congr 1
        rw [hwl, hwh, hji2, hc_i1]
        exact hc2
      · rw [hc_gt j hji2 hj]
        have hwl : wloD lo ((arr.set i (keep, c1)).insertIdx (i + 1) (sep, c2)) j =
            wloD lo arr (j - 1) := by
          rw [wloD, wloD, if_neg (by omega), if_neg (by omega), hs_gt j hji2 hj]
        have hwh : whiD hi ((arr.set i (keep, c1)).insertIdx (i + 1) (sep, c2)) j =
            whiD hi arr (j - 1) := by
          by_cases hend : j = arr.length
          · rw [whiD, if_pos (by rw [h1len]; omega), whiD, if_pos (by omega)]
          · rw [whiD, if_neg (by rw [h1len]; omega), whiD, if_neg (by omega),
              hs_gt (j + 1) (by omega) (by omega)]
            have harg : j + 1 - 1 = j - 1 + 1 := by omega
            rw [harg]
        rw [hwl, hwh]
        exact hwin (j - 1) (by omega)

theorem ord_inner_split (lo hi : Option Int) (arr : List (Int × BTNode)) (c : Nat)
    (hord : ordB lo hi (BTNode.inner arr) = true) (hcge : 1 ≤ c)
    (hclt : c < arr.length) :
    ordB lo (some (sepD arr c)) (BTNode.inner (arr.take c)) = true ∧
    ordB (some (sepD arr c)) hi (BTNode.inner (arr.drop c)) = true ∧
    sepStrict lo hi (sepD arr c) = true := by
  rw [ord_inner_idx_iff] at hord
  obtain ⟨hne2, hchain, hsepS, hwin⟩ := hord
  have htlen : (arr.take c).length = c := by
    rw [List.length_take]
    omega
  have hdlen : (arr.drop c).length = arr.length - c := List.length_drop c arr
  refine ⟨?_, ?_, hsepS c hcge hclt⟩
  · rw [ord_inner_idx_iff]
    refine ⟨?_, ?_, ?_, ?_⟩
    · intro hcon
      rw [hcon] at htlen
      simp only [List.length_nil] at htlen
      omega
    · intro j1 j2 h1 h12 h2
      rw [htlen] at h2
      rw [sepD_take arr c j1 (by omega) (by omega), sepD_take arr c j2 (by omega) (by omega)]
      exact hchain j1 j2 h1 h12 (by omega)
    · intro j h1 h2
      rw [htlen] at h2
      rw [sepD_take arr c j (by omega) (by omega)]
      rw [sepStrict_iff]
      constructor
      · intro l hl
        exact ((sepStrict_iff _ _ _).mp (hsepS j h1 (by omega))).1 l hl
      · intro h hh
        obtain rfl : sepD arr c = h := by injection hh
        exact hchain j c h1 (by omega) hclt
    · intro j hj
      rw [htlen] at hj
      have hwl : wloD lo (arr.take c) j = wloD lo arr j := by
        by_cases hj0 : j = 0
        · rw [hj0, wloD_zero, wloD_zero]
        · rw [wloD, wloD, if_neg hj0, if_neg hj0,
            sepD_take arr c j (by omega) (by omega)]
      have hwh : whiD (some (sepD arr c)) (arr.take c) j = whiD hi arr j := by
        by_cases hend : j + 1 = c
        · rw [whiD, if_pos (by omega), whiD, if_neg (by omega), hend]
        · rw [whiD, if_neg (by omega), whiD, if_neg (by omega),
            sepD_take arr c (j + 1) (by omega) (by omega)]
      rw [childD_take arr c j (by omega) (by omega), hwl, hwh]
      exact hwin j (by omega)
  · rw [ord_inner_idx_iff]
    refine ⟨?_, ?_, ?_, ?_⟩
    · intro hcon
      rw [hcon] at hdlen
      simp only [List.length_nil] at hdlen
      omega
    · intro j1 j2 h1 h12 h2
      rw [hdlen] at h2
      rw [sepD_drop arr c j1 (by omega), sepD_drop arr c j2 (by omega)]
      exact hchain (c + j1) (c + j2) (by omega) (by omega) (by omega)
    · intro j h1 h2
      rw [hdlen] at h2
      rw [sepD_drop arr c j (by omega)]
      rw [sepStrict_iff]
      constructor
      · intro l hl
        obtain rfl : sepD arr c = l := by injection hl
        exact hchain c (c + j) hcge (by omega) (by omega)
      · intro h hh
        exact ((sepStrict_iff _ _ _).mp (hsepS (c + j) (by omega) (by omega))).2 h hh
    · intro j hj
      rw [hdlen] at hj
      have hwl : wloD (some (sepD arr c)) (arr.drop c) j = wloD lo arr (c + j) := by
        by_cases hj0 : j = 0
        · rw [hj0, wloD_zero, wloD, if_neg (by omega)]
          congr 1
        · rw [wloD, wloD, if_neg hj0, if_neg (by omega), sepD_drop arr c j (by omega)]
      have hwh : whiD hi (arr.drop c) j = whiD hi arr (c + j) := by
        by_cases hend : c + j + 1 = arr.length
        · rw [whiD, if_pos (by omega), whiD, if_pos (by omega)]
        · rw [whiD, if_neg (by omega), whiD, if_neg (by omega),
            sepD_drop arr c (j + 1) (by omega)]
          congr 1
      rw [childD_drop arr c j (by omega), hwl, hwh]
      exact hwin (c + j) (by omega)

theorem ne_inner_set (arr : List (Int × BTNode)) (i : Nat) (q : Int × BTNode)
    (hne : neB (BTNode.inner arr) = true) (hq : neB q.2 = true) :
    neB (BTNode.inner (arr.set i q)) = true := by
  rw [ne_inner_iff] at hne ⊢
  obtain ⟨h1, h2⟩ := hne
  refine ⟨by simp [h1], fun p hp => ?_⟩
  rcases List.mem_or_eq_of_mem_set hp with hmem | hEq
  · exact h2 p hmem
  · rw [hEq]
    exact hq

theorem ne_inner_set_insert (arr : List (Int × BTNode)) (i : Nat)
    (q q2 : Int × BTNode) (hi : i < arr.length)
    (hne : neB (BTNode.inner arr) = true) (hq : neB q.2 = true)
    (hq2 : neB q2.2 = true) :
    neB (BTNode.inner ((arr.set i q).insertIdx (i + 1) q2)) = true := by
  rw [ne_inner_iff] at hne ⊢
  obtain ⟨h1, h2⟩ := hne
  have hlen : ((arr.set i q).insertIdx (i + 1) q2).length = arr.length + 1 := by
    rw [List.length_insertIdx (i + 1) _ (by rw [List.length_set]; omega), List.length_set]
  refine ⟨?_, fun p hp => ?_⟩
  · intro hcon
    rw [hcon] at hlen
    simp only [List.length_nil] at hlen
    omega
  · rw [List.mem_insertIdx (by rw [List.length_set]; omega)] at hp
    rcases hp with hEq | hp2
    · rw [hEq]
      exact hq2
    · rcases List.mem_or_eq_of_mem_set hp2 with hmem | hEq
      · exact h2 p hmem
      · rw [hEq]
        exact hq

theorem ne_inner_take (arr : List (Int × BTNode)) (c : Nat) (hc : 1 ≤ c)
    (hne : neB (BTNode.inner arr) = true) :
    neB (BTNode.inner (arr.take c)) = true := by
  rw [ne_inner_iff] at hne ⊢
  obtain ⟨h1, h2⟩ := hne
  refine ⟨?_, fun p hp => h2 p (List.mem_of_mem_take hp)⟩
  cases arr with
  | nil => exact absurd rfl h1
  | cons x rest =>
    cases c with
    | zero => omega
    | succ c2 => simp

theorem ne_inner_drop (arr : List (Int × BTNode)) (c : Nat) (hc : c < arr.length)
    (hne : neB (BTNode.inner arr) = true) :
    neB (BTNode.inner (arr.drop c)) = true := by
  rw [ne_inner_iff] at hne ⊢
  obtain ⟨h1, h2⟩ := hne
  refine ⟨?_, fun p hp => h2 p (List.mem_of_mem_drop hp)⟩
  have : (arr.drop c).length = arr.length - c := List.length_drop c arr
  intro hcon
  rw [hcon] at this
  simp only [List.length_nil] at this
  omega

theorem entries_set_decomp (arr : List (Int × BTNode)) (i : Nat) (q : Int × BTNode)
    (hi : i < arr.length) :
    entriesOf (BTNode.inner (arr.set i q)) =
      (arr.take i).flatMap (fun p => entriesOf p.2) ++ entriesOf q.2 ++
      (arr.drop (i + 1)).flatMap (fun p => entriesOf p.2) := by
  rw [entries_inner, List.set_eq_take_append_cons_drop, if_pos hi, List.flatMap_append,
    List.flatMap_cons]
  simp only [List.append_assoc]

theorem entries_idx_decomp (arr : List (Int × BTNode)) (i : Nat)
    (hi : i < arr.length) :
    entriesOf (BTNode.inner arr) =
      (arr.take i).flatMap (fun p => entriesOf p.2) ++ entriesOf (childD arr i) ++
      (arr.drop (i + 1)).flatMap (fun p => entriesOf p.2) := by
  rw [entries_inner]
  conv =>
    lhs
    rw [list_decomp1 arr i hi]
  rw [List.flatMap_append, List.flatMap_cons, childD_getElem hi]
  simp only [List.append_assoc]

theorem entries_set_insert_decomp (arr : List (Int × BTNode)) (i : Nat)
    (keep sep : Int) (c1 c2 : BTNode) (hi : i < arr.length) :
    entriesOf (BTNode.inner ((arr.set i (keep, c1)).insertIdx (i + 1) (sep, c2))) =
      (arr.take i).flatMap (fun p => entriesOf p.2) ++ entriesOf c1 ++ entriesOf c2 ++
      (arr.drop (i + 1)).flatMap (fun p => entriesOf p.2) := by
  have hset : arr.set i (keep, c1) = arr.take i ++ (keep, c1) :: arr.drop (i + 1) := by
    rw [List.set_eq_take_append_cons_drop, if_pos hi]
  have hlen : (arr.take i).length = i := by
    rw [List.length_take]
    omega
  rw [hset, show i + 1 = (arr.take i).length + 1 by rw [hlen], insertIdx_append_cons,
    entries_inner, List.flatMap_append, List.flatMap_cons, List.flatMap_cons]
  simp only [List.append_assoc]

theorem entries_take_drop_split (arr : List (Int × BTNode)) (c : Nat) :
    entriesOf (BTNode.inner arr) =
      entriesOf (BTNode.inner (arr.take c)) ++ entriesOf (BTNode.inner (arr.drop c)) := by
  rw [entries_inner, entries_inner, entries_inner, ← List.flatMap_append,
    List.take_append_drop]

end BPT

namespace BPT

theorem getV_mem_of_some :
    ∀ t, ∀ (k : Int) (v : Int × Int), getV t k = some v → (k, v) ∈ entriesOf t := by
  refine btNode_ind _ ?_ ?_
  · intro kvs k v h
    rw [getV] at h
    rw [entriesOf]
    unfold leafLookup at h
    split at h
    · rename_i p hp
      split at h
      · rename_i hbeq
        obtain rfl : p.2 = v := by injection h
        have hpk : p.1 = k := by simpa using hbeq
        have := List.get?_mem hp
        rw [show (k, p.2) = p by rw [← hpk]]
        exact this
      · exact absurd h (by simp)
    · exact absurd h (by simp)
  · intro arr hC k v h
    rw [getV] at h
    split at h
    · rename_i p hp
      have hrec := hC p (List.get?_mem hp) k v h
      have hlen : internalLookupIdx arr k < arr.length := by
        by_contra hcon
        have hnone : arr.get? (internalLookupIdx arr k) = none := by
          rw [List.get?_eq_none]
          omega
        rw [hnone] at hp
        exact absurd hp (by simp)
      have hchild : childD arr (internalLookupIdx arr k) = p.2 := by
        rw [childD_getElem hlen]
        rw [List.get?_eq_getElem?, List.getElem?_eq_getElem hlen] at hp
        exact congrArg Prod.snd (Option.some.inj hp)
      exact entries_inner_mem.mpr ⟨internalLookupIdx arr k, hlen,
        by rw [hchild]; exact hrec⟩
    · exact absurd h (by simp)

theorem insV_inner_eq (maxL maxI : Nat) (arr : List (Int × BTNode)) (k : Int)
    (v : Int × Int) (p : Int × BTNode)
    (hp : arr.get? (internalLookupIdx arr k) = some p) :
    insV maxL maxI (BTNode.inner arr) k v =
      (match insV maxL maxI p.2 k v with
       | InsResult.dup => InsResult.dup
       | InsResult.ok c1 =>
         InsResult.ok (BTNode.inner (arr.set (internalLookupIdx arr k) (p.1, c1)))
       | InsResult.moreSplit c1 sep c2 =>
         let arr1 := (arr.set (internalLookupIdx arr k) (p.1, c1)).insertIdx
           (internalLookupIdx arr k + 1) (sep, c2)
         if arr1.length > maxI then
           InsResult.moreSplit (BTNode.inner (arr1.take ((maxI + 1) / 2)))
             (((arr1.drop ((maxI + 1) / 2)).map Prod.fst).getD 0 0)
             (BTNode.inner (arr1.drop ((maxI + 1) / 2)))
         else InsResult.ok (BTNode.inner arr1)) := by
  rw [insV]
  split
  · rename_i hnone
    rw [hnone] at hp
    exact absurd hp (by simp)
  · rename_i p2 hp2
    rw [hp2] at hp
    obtain rfl : p2 = p := by injection hp
    rfl

theorem insV_dup_of_found (maxL maxI : Nat) :
    ∀ t, ∀ (k : Int) (v0 v1 : Int × Int), getV t k = some v0 →
      insV maxL maxI t k v1 = InsResult.dup := by
  refine btNode_ind _ ?_ ?_
  · intro kvs k v0 v1 h
    rw [getV] at h
    rw [insV, h]
    simp
  · intro arr hC k v0 v1 h
    rw [getV] at h
    split at h
    · rename_i p hp
      rw [insV_inner_eq maxL maxI arr k v1 p hp]
      have hrec := hC p (List.get?_mem hp) k v0 v1 h
      rw [hrec]
    · exact absurd h (by simp)

end BPT

namespace BPT

/-- C5: in any tree state where key k is already mapped to v0 (GetValue finds
v0), Insert of any value v1 under the same key returns false and leaves the
tree unchanged, so GetValue still returns v0 afterwards — InsertIntoLeaf
aborts with false on a present key before modifying anything (unique keys). -/
theorem c5_duplicate_insert (maxL maxI : Nat) (t : Option BTNode) (k : Int)
    (v0 v1 : Int × Int) (hwf : wfT t = true) (h : getT t k = some v0) :
    insertT maxL maxI t k v1 = (t, false) ∧
    getT (insertT maxL maxI t k v1).1 k = some v0 := by
  cases t with
  | none => exact absurd h (by simp [getT])
  | some root =>
    rw [getT] at h
    have hdup := insV_dup_of_found maxL maxI root k v0 v1 h
    have heq : insertT maxL maxI (some root) k v1 = (some root, false) := by
      rw [insertT, hdup]
    refine ⟨heq, ?_⟩
    rw [heq, getT]
    exact h

/-- Witness for C5 at a concrete state: the tree holding 5 ↦ (0,0) (the
spec's scenario after `insert(5, RID(0,0))`); inserting (1,1) under key 5
returns false, the tree is unchanged, and get still yields (0,0). -/
theorem c5_duplicate_insert_witness :
    wfT (some (BTNode.leaf [(5, ((0 : Int), (0 : Int)))])) = true ∧
    getT (some (BTNode.leaf [(5, ((0 : Int), (0 : Int)))])) 5 = some (0, 0) ∧
    insertT 3 3 (some (BTNode.leaf [(5, (0, 0))])) 5 (1, 1) =
      (some (BTNode.leaf [(5, (0, 0))]), false) ∧
    getT (insertT 3 3 (some (BTNode.leaf [(5, (0, 0))])) 5 (1, 1)).1 5 =
      some (0, 0) := by
  have hwf : wfT (some (BTNode.leaf [(5, ((0 : Int), (0 : Int)))])) = true := by
    simp [wfT, chainLtB]
  have hget : getT (some (BTNode.leaf [(5, ((0 : Int), (0 : Int)))])) 5 =
      some (0, 0) := by
    simp [getT, getV, leafLookup, keyIndex, bsearch]
  have hmain := c5_duplicate_insert 3 3 (some (BTNode.leaf [(5, (0, 0))])) 5
    (0, 0) (1, 1) hwf hget
  exact ⟨hwf, hget, hmain.1, hmain.2⟩

end BPT

namespace BPT

theorem insertIdx_decomp {α : Type} (l : List α) (i : Nat) (a : α)
    (h : i ≤ l.length) : l.insertIdx i a = l.take i ++ a :: l.drop i := by
  induction l generalizing i with
  | nil =>
    have hi0 : i = 0 := by simpa using h
    rw [hi0]
    simp [List.insertIdx_zero]
  | cons x l2 ih =>
    cases i with
    | zero => simp [List.insertIdx_zero]
    | succ i2 =>
      simp only [List.insertIdx_succ_cons, List.take_succ_cons, List.drop_succ_cons,
        List.cons_append]
      rw [ih i2 (by simpa using h)]

theorem getD_mem {α : Type} (l : List α) (j : Nat) (d : α) (hj : j < l.length) :
    l.getD j d ∈ l := by
  rw [List.getD_eq_getElem l d hj]
  exact List.getElem_mem hj

theorem leafInsert_facts (kvs : List (Int × (Int × Int))) (k : Int) (v : Int × Int)
    (hch : chainLtB (kvs.map Prod.fst) = true)
    (hnone : leafLookup kvs k = none) :
    (leafInsert kvs k v).length = kvs.length + 1 ∧
    chainLtB ((leafInsert kvs k v).map Prod.fst) = true ∧
    (k, v) ∈ leafInsert kvs k v ∧
    (∀ s, s ∈ (leafInsert kvs k v).map Prod.fst → s = k ∨ s ∈ kvs.map Prod.fst) := by
  obtain ⟨hk1, hk2, hk3⟩ := keyIndex_spec kvs k hch
  have hknotin : k ∉ kvs.map Prod.fst := (leafLookup_none_iff kvs k hch).mp hnone
  have hk3s : ∀ j, keyIndex kvs k ≤ j → j < kvs.length →
      k < (kvs.map Prod.fst).getD j 0 := by
    intro j h1 h2
    have hle := hk3 j h1 h2
    have hmem : (kvs.map Prod.fst).getD j 0 ∈ kvs.map Prod.fst :=
      getD_mem _ j 0 (by rw [List.length_map]; exact h2)
    have hne2 : k ≠ (kvs.map Prod.fst).getD j 0 := by
      intro hcon
      rw [← hcon] at hmem
      exact hknotin hmem
    rcases Int.lt_or_lt_of_ne hne2 with hlt | hlt
    · exact hlt
    · omega
  have hdec : leafInsert kvs k v =
      kvs.take (keyIndex kvs k) ++ (k, v) :: kvs.drop (keyIndex kvs k) := by
    rw [leafInsert, insertIdx_decomp kvs (keyIndex kvs k) (k, v) hk1]
  have hmapdec : (leafInsert kvs k v).map Prod.fst =
      (kvs.map Prod.fst).take (keyIndex kvs k) ++
        k :: (kvs.map Prod.fst).drop (keyIndex kvs k) := by
    rw [hdec, List.map_append, List.map_cons, List.map_take, List.map_drop]
  refine ⟨?_, ?_, ?_, ?_⟩
  · rw [leafInsert, List.length_insertIdx (keyIndex kvs k) kvs hk1]
  · rw [hmapdec, chainLtB_pairwise, List.pairwise_append]
    have hKlen : (kvs.map Prod.fst).length = kvs.length := List.length_map _ _
    refine ⟨(chainLtB_pairwise _).mp
      (chainLtB_sublist (List.take_sublist _ _) hch), ?_, ?_⟩
    · rw [List.pairwise_cons]
      refine ⟨fun b hb => ?_, (chainLtB_pairwise _).mp
        (chainLtB_sublist (List.drop_sublist _ _) hch)⟩
      obtain ⟨j, hj1, hj2⟩ := mem_drop_idx hb
      have := hk3s (keyIndex kvs k + j) (by omega) (by omega)
      rw [hj2 0] at this
      exact this
    · intro a ha b hb
      obtain ⟨j, hj1, hj2, hj3⟩ := mem_take_idx ha
      have halt : a < k := by
        have := hk2 j hj1
        rw [hj3 0] at this
        exact this
      rcases List.mem_cons.mp hb with hEq | hbdrop
      · rw [hEq]
        exact halt
      · obtain ⟨j2, hj21, hj22⟩ := mem_drop_idx hbdrop
        have := hk3s (keyIndex kvs k + j2) (by omega) (by omega)
        rw [hj22 0] at this
        omega
  · rw [hdec]
    exact List.mem_append.mpr (Or.inr (List.mem_cons_self _ _))
  · intro s hs
    rw [hmapdec] at hs
    rcases List.mem_append.mp hs with hmem | hmem
    · exact Or.inr (List.mem_of_mem_take hmem)
    · rcases List.mem_cons.mp hmem with hEq | hmem2
      · exact Or.inl hEq
      · exact Or.inr (List.mem_of_mem_drop hmem2)

theorem leaf_split_ord (lo hi : Option Int) (kvs1 : List (Int × (Int × Int)))
    (c : Nat) (hch : chainLtB (kvs1.map Prod.fst) = true)
    (hb : ∀ s, s ∈ kvs1.map Prod.fst → inBounds lo hi s = true)
    (hcge : 1 ≤ c) (hclt : c < kvs1.length) :
    ordB lo (some ((kvs1.map Prod.fst).getD c 0)) (BTNode.leaf (kvs1.take c)) = true ∧
    ordB (some ((kvs1.map Prod.fst).getD c 0)) hi (BTNode.leaf (kvs1.drop c)) = true ∧
    sepStrict lo hi ((kvs1.map Prod.fst).getD c 0) = true ∧
    neB (BTNode.leaf (kvs1.take c)) = true ∧
    neB (BTNode.leaf (kvs1.drop c)) = true := by
  have hKlen : (kvs1.map Prod.fst).length = kvs1.length := List.length_map _ _
  have hsepmem : (kvs1.map Prod.fst).getD c 0 ∈ kvs1.map Prod.fst :=
    getD_mem _ c 0 (by omega)
  have hsepb := (inBounds_iff lo hi _).mp (hb _ hsepmem)
  refine ⟨?_, ?_, ?_, ?_, ?_⟩
  · rw [ordB, Bool.and_eq_true, List.all_eq_true]
    constructor
    · rw [List.map_take]
      exact chainLtB_sublist (List.take_sublist _ _) hch
    · intro s hs
      rw [List.map_take] at hs
      obtain ⟨j, hj1, hj2, hj3⟩ := mem_take_idx hs
      have hsk : s < (kvs1.map Prod.fst).getD c 0 := by
        have := chainLtB_getD hch hj1 (by omega)
        rw [hj3 0] at this
        exact this
      have hsb := (inBounds_iff lo hi s).mp (hb s (by
        rw [← hj3 0]
        exact getD_mem _ j 0 hj2))
      rw [inBounds_iff]
      refine ⟨hsb.1, fun h hh => ?_⟩
      obtain rfl : (kvs1.map Prod.fst).getD c 0 = h := by injection hh
      exact hsk
  · rw [ordB, Bool.and_eq_true, List.all_eq_true]
    constructor
    · rw [List.map_drop]
      exact chainLtB_sublist (List.drop_sublist _ _) hch
    · intro s hs
      rw [List.map_drop] at hs
      obtain ⟨j, hj1, hj2⟩ := mem_drop_idx hs
      have hsb := (inBounds_iff lo hi s).mp (hb s (by
        rw [← hj2 0]
        exact getD_mem _ (c + j) 0 hj1))
      rw [inBounds_iff]
      refine ⟨fun l hl => ?_, hsb.2⟩
      obtain rfl : (kvs1.map Prod.fst).getD c 0 = l := by injection hl
      by_cases hj0 : j = 0
      · subst hj0
        have hEq2 : (kvs1.map Prod.fst).getD c 0 = s := hj2 0
        omega
      · have := chainLtB_getD hch (show c < c + j by omega) (by omega)
        rw [hj2 0] at this
        omega
  · rw [sepStrict_iff]
    refine ⟨fun l hl => ?_, fun h hh => hsepb.2 h hh⟩
    have h0b := (inBounds_iff lo hi _).mp (hb _ (getD_mem (kvs1.map Prod.fst) 0 0
      (by omega)))
    have h0lt := chainLtB_getD hch (show 0 < c by omega) (by omega)
    have := h0b.1 l hl
    omega
  · have hne : kvs1.take c ≠ [] := by
      apply List.ne_nil_of_length_pos
      rw [List.length_take]
      omega
    rw [neB, Bool.not_eq_true', Bool.eq_false_iff]
    intro hcon
    rw [List.isEmpty_iff] at hcon
    exact hne hcon
  · have hne : kvs1.drop c ≠ [] := by
      apply List.ne_nil_of_length_pos
      rw [List.length_drop]
      omega
    rw [neB, Bool.not_eq_true', Bool.eq_false_iff]
    intro hcon
    rw [List.isEmpty_iff] at hcon
    exact hne hcon

end BPT

namespace BPT

theorem leafRemove_eraseP (kvs : List (Int × (Int × Int))) (k : Int)
    (hch : chainLtB (kvs.map Prod.fst) = true) :
    leafRemove kvs k = kvs.eraseP (fun p => p.1 == k) := by
  obtain ⟨hk1, hk2, hk3⟩ := keyIndex_spec kvs k hch
  have hkeyD : ∀ j (hj : j < kvs.length), (kvs.map Prod.fst).getD j 0 = (kvs[j]).1 := by
    intro j hj
    rw [List.getD_eq_getElem _ _ (by rw [List.length_map]; omega), List.getElem_map]
  rw [leafRemove]
  split
  · rename_i p hp
    have hlen : keyIndex kvs k < kvs.length := by
      by_contra hcon
      have hnone : kvs.get? (keyIndex kvs k) = none := by
        rw [List.get?_eq_none]
        omega
      rw [hnone] at hp
      exact absurd hp (by simp)
    have hpe : p = kvs[keyIndex kvs k] := by
      rw [List.get?_eq_getElem?, List.getElem?_eq_getElem hlen] at hp
      exact (Option.some.inj hp).symm
    by_cases hbeq : p.1 = k
    · rw [if_pos (by simpa using hbeq)]
      rw [eraseP_first_idx (fun p => p.1 == k) kvs (keyIndex kvs k) hlen ?before ?hit]
      · rw [List.eraseIdx_eq_take_drop_succ]
      case before =>
        intro j hj hji
        have := hk2 j hji
        rw [hkeyD j hj] at this
        simp only [beq_eq_false_iff_ne, ne_eq]
        omega
      case hit =>
        rw [← hpe]
        simpa using hbeq
    · rw [if_neg (by simpa using hbeq)]
      rw [List.eraseP_of_forall_not]
      intro a ha
      obtain ⟨j, hj, hEq⟩ := List.mem_iff_getElem.mp ha
      simp only [Bool.not_eq_true, beq_eq_false_iff_ne, ne_eq]
      intro hcon
      have hiK : k < (kvs[keyIndex kvs k]).1 := by
        have h1 := hk3 (keyIndex kvs k) (Nat.le_refl _) hlen
        rw [hkeyD _ hlen] at h1
        rcases Int.lt_or_lt_of_ne (show k ≠ (kvs[keyIndex kvs k]).1 by
          rw [← hpe]
          omega) with hx | hx
        · exact hx
        · omega
      rcases Nat.lt_or_ge j (keyIndex kvs k) with hji | hji
      · have := hk2 j hji
        rw [hkeyD j hj] at this
        rw [hEq] at this
        omega
      · rcases Nat.eq_or_lt_of_le hji with hEq2 | hlt2
        · have h1 := hkeyD j hj
          have h2 := hkeyD (keyIndex kvs k) hlen
          rw [hEq] at h1
          rw [← hpe] at h2
          rw [hEq2] at h2
          omega
        · have hmono := chainLtB_getD hch hlt2 (by rw [List.length_map]; omega)
          rw [hkeyD _ hlen, hkeyD j hj] at hmono
          rw [hEq] at hmono
          omega
  · rename_i hp
    have hlen : kvs.length ≤ keyIndex kvs k := by
      rw [List.get?_eq_getElem?] at hp
      by_contra hcon
      rw [List.getElem?_eq_getElem (by omega)] at hp
      exact absurd hp (by simp)
    rw [List.eraseP_of_forall_not]
    intro a ha
    obtain ⟨j, hj, hEq⟩ := List.mem_iff_getElem.mp ha
    simp only [Bool.not_eq_true, beq_eq_false_iff_ne, ne_eq]
    intro hcon
    have := hk2 j (by omega)
    rw [hkeyD j hj, hEq] at this
    omega

end BPT

namespace BPT

theorem insV_leaf_eq (maxL maxI : Nat) (kvs : List (Int × (Int × Int))) (k : Int)
    (v : Int × Int) :
    insV maxL maxI (BTNode.leaf kvs) k v =
      if (leafLookup kvs k).isSome then InsResult.dup
      else if (leafInsert kvs k v).length > maxL then
        InsResult.moreSplit
          (BTNode.leaf ((leafInsert kvs k v).take ((maxL + 1) / 2)))
          ((((leafInsert kvs k v).drop ((maxL + 1) / 2)).map Prod.fst).getD 0 0)
          (BTNode.leaf ((leafInsert kvs k v).drop ((maxL + 1) / 2)))
      else InsResult.ok (BTNode.leaf (leafInsert kvs k v)) := by
  rw [insV]

theorem insV_inner_dup_eq (maxL maxI : Nat) (arr : List (Int × BTNode)) (k : Int)
    (v : Int × Int) (p : Int × BTNode)
    (hp : arr.get? (internalLookupIdx arr k) = some p)
    (hrec : insV maxL maxI p.2 k v = InsResult.dup) :
    insV maxL maxI (BTNode.inner arr) k v = InsResult.dup := by
  rw [insV_inner_eq maxL maxI arr k v p hp, hrec]

theorem insV_inner_ok_eq (maxL maxI : Nat) (arr : List (Int × BTNode)) (k : Int)
    (v : Int × Int) (p : Int × BTNode) (c1 : BTNode)
    (hp : arr.get? (internalLookupIdx arr k) = some p)
    (hrec : insV maxL maxI p.2 k v = InsResult.ok c1) :
    insV maxL maxI (BTNode.inner arr) k v =
      InsResult.ok (BTNode.inner (arr.set (internalLookupIdx arr k) (p.1, c1))) := by
  rw [insV_inner_eq maxL maxI arr k v p hp, hrec]

theorem insV_inner_split_eq (maxL maxI : Nat) (arr : List (Int × BTNode)) (k : Int)
    (v : Int × Int) (p : Int × BTNode) (c1 : BTNode) (sepc : Int) (c2 : BTNode)
    (hp : arr.get? (internalLookupIdx arr k) = some p)
    (hrec : insV maxL maxI p.2 k v = InsResult.moreSplit c1 sepc c2) :
    insV maxL maxI (BTNode.inner arr) k v =
      (if ((arr.set (internalLookupIdx arr k) (p.1, c1)).insertIdx
           (internalLookupIdx arr k + 1) (sepc, c2)).length > maxI then
         InsResult.moreSplit
           (BTNode.inner (((arr.set (internalLookupIdx arr k) (p.1, c1)).insertIdx
             (internalLookupIdx arr k + 1) (sepc, c2)).take ((maxI + 1) / 2)))
           (((((arr.set (internalLookupIdx arr k) (p.1, c1)).insertIdx
             (internalLookupIdx arr k + 1) (sepc, c2)).drop
               ((maxI + 1) / 2)).map Prod.fst).getD 0 0)
           (BTNode.inner (((arr.set (internalLookupIdx arr k) (p.1, c1)).insertIdx
             (internalLookupIdx arr k + 1) (sepc, c2)).drop ((maxI + 1) / 2)))
       else
         InsResult.ok (BTNode.inner ((arr.set (internalLookupIdx arr k)
           (p.1, c1)).insertIdx (internalLookupIdx arr k + 1) (sepc, c2)))) := by
  rw [insV_inner_eq maxL maxI arr k v p hp, hrec]

end BPT

namespace BPT

theorem getD_drop_add {α : Type} (l : List α) (c j : Nat) (d : α)
    (h : c + j < l.length) : (l.drop c).getD j d = l.getD (c + j) d := by
  rw [List.getD_eq_getElem _ _ (by rw [List.length_drop]; omega),
    List.getD_eq_getElem _ _ h]
  exact List.getElem_drop l

theorem insV_spec (maxL maxI : Nat) (hL : 1 ≤ maxL) (hI : 1 ≤ maxI) :
    ∀ t, ∀ (lo hi : Option Int) (k : Int) (v : Int × Int),
      ordB lo hi t = true →
      (neB t = true ∨ ∃ kvs, t = BTNode.leaf kvs) →
      inBounds lo hi k = true →
      ((∀ t1, insV maxL maxI t k v = InsResult.ok t1 →
          ordB lo hi t1 = true ∧ neB t1 = true ∧ (k, v) ∈ entriesOf t1) ∧
       (∀ t1 sep t2, insV maxL maxI t k v = InsResult.moreSplit t1 sep t2 →
          ordB lo (some sep) t1 = true ∧ ordB (some sep) hi t2 = true ∧
          sepStrict lo hi sep = true ∧ neB t1 = true ∧ neB t2 = true ∧
          ((k, v) ∈ entriesOf t1 ∨ (k, v) ∈ entriesOf t2))) := by
  refine btNode_ind _ ?_ ?_
  · intro kvs lo hi k v hord hne hin
    rw [ordB, Bool.and_eq_true, List.all_eq_true] at hord
    obtain ⟨hch, hbAll⟩ := hord
    by_cases hlook : (leafLookup kvs k).isSome = true
    · constructor
      · intro t1 heq
        rw [insV_leaf_eq, if_pos hlook] at heq
        exact absurd heq (by simp)
      · intro t1 sep t2 heq
        rw [insV_leaf_eq, if_pos hlook] at heq
        exact absurd heq (by simp)
    · have hnone : leafLookup kvs k = none := by
        cases hv : leafLookup kvs k with
        | none => rfl
        | some w =>
          rw [hv] at hlook
          exact absurd rfl hlook
      obtain ⟨hlen1, hch1, hmem1, hkeys1⟩ := leafInsert_facts kvs k v hch hnone
      have hb1 : ∀ s, s ∈ (leafInsert kvs k v).map Prod.fst →
          inBounds lo hi s = true := by
        intro s hs
        rcases hkeys1 s hs with hEq | hmem
        · rw [hEq]
          exact hin
        · exact hbAll s hmem
      constructor
      · intro t1 heq
        rw [insV_leaf_eq, if_neg hlook] at heq
        by_cases hover : (leafInsert kvs k v).length > maxL
        · rw [if_pos hover] at heq
          exact absurd heq (by simp)
        · rw [if_neg hover] at heq
          obtain rfl : BTNode.leaf (leafInsert kvs k v) = t1 := by injection heq
          refine ⟨?_, ?_, ?_⟩
          · rw [ordB, Bool.and_eq_true, List.all_eq_true]
            exact ⟨hch1, hb1⟩
          · have hnonnil : leafInsert kvs k v ≠ [] := by
              apply List.ne_nil_of_length_pos
              omega
            rw [neB, Bool.not_eq_true', Bool.eq_false_iff]
            intro hcon
            rw [List.isEmpty_iff] at hcon
            exact hnonnil hcon
          · rw [entriesOf]
            exact hmem1
      · intro t1 sep t2 heq
        rw [insV_leaf_eq, if_neg hlook] at heq
        by_cases hover : (leafInsert kvs k v).length > maxL
        · rw [if_pos hover] at heq
          have hc1 : BTNode.leaf ((leafInsert kvs k v).take ((maxL + 1) / 2)) = t1 := by
            injection heq
          have hc2 : (((leafInsert kvs k v).drop ((maxL + 1) / 2)).map
              Prod.fst).getD 0 0 = sep := by
            injection heq with h1 h2 h3
          have hc3 : BTNode.leaf ((leafInsert kvs k v).drop ((maxL + 1) / 2)) = t2 := by
            injection heq with h1 h2 h3
          have hcge : 1 ≤ (maxL + 1) / 2 := by omega
          have hclt : (maxL + 1) / 2 < (leafInsert kvs k v).length := by omega
          have hKlen : ((leafInsert kvs k v).map Prod.fst).length =
              (leafInsert kvs k v).length := List.length_map _ _
          have hsepEq : (((leafInsert kvs k v).drop ((maxL + 1) / 2)).map
              Prod.fst).getD 0 0 =
              ((leafInsert kvs k v).map Prod.fst).getD ((maxL + 1) / 2) 0 := by
            rw [List.map_drop, getD_drop_add _ _ _ _ (by omega), Nat.add_zero]
          obtain ⟨hs1, hs2, hs3, hs4, hs5⟩ := leaf_split_ord lo hi
            (leafInsert kvs k v) ((maxL + 1) / 2) hch1 hb1 hcge hclt
          rw [← hc1, ← hc2, ← hc3, hsepEq]
          refine ⟨hs1, hs2, hs3, hs4, hs5, ?_⟩
          have hsplitmem : (k, v) ∈ (leafInsert kvs k v).take ((maxL + 1) / 2) ++
              (leafInsert kvs k v).drop ((maxL + 1) / 2) := by
            rw [List.take_append_drop]
            exact hmem1
          rcases List.mem_append.mp hsplitmem with hmem | hmem
          · exact Or.inl (by rw [entriesOf]; exact hmem)
          · exact Or.inr (by rw [entriesOf]; exact hmem)
        · rw [if_neg hover] at heq
          exact absurd heq (by simp)
  · intro arr hC lo hi k v hord hne hin
    have hneI : neB (BTNode.inner arr) = true := by
      rcases hne with hne | ⟨kvs2, hcon⟩
      · exact hne
      · exact BTNode.noConfusion hcon
    cases arr with
    | nil =>
      rw [ordB] at hord
      exact absurd hord (by simp)
    | cons q rest =>
      obtain ⟨k0, c0⟩ := q
      have hord2 := hord
      rw [ord_inner_iff] at hord2
      obtain ⟨hch, hsep, hwin⟩ := hord2
      obtain ⟨hlt, hF1, hF2⟩ := ilidx_spec k0 c0 rest k hch
      have hleni : internalLookupIdx ((k0, c0) :: rest) k <
          ((k0, c0) :: rest).length := by
        simp only [List.length_cons]
        omega
      have hp : ((k0, c0) :: rest).get? (internalLookupIdx ((k0, c0) :: rest) k) =
          some (((k0, c0) :: rest)[internalLookupIdx ((k0, c0) :: rest) k]) := by
        rw [List.get?_eq_getElem?, List.getElem?_eq_getElem hleni]
      have hchildp : childD ((k0, c0) :: rest) (internalLookupIdx ((k0, c0) :: rest) k) =
          (((k0, c0) :: rest)[internalLookupIdx ((k0, c0) :: rest) k]).2 :=
        childD_getElem hleni
      have hkeep : (((k0, c0) :: rest)[internalLookupIdx ((k0, c0) :: rest) k]).1 =
          sepD ((k0, c0) :: rest) (internalLookupIdx ((k0, c0) :: rest) k) :=
        (sepD_getElem hleni).symm
      have hwini := hwin (internalLookupIdx ((k0, c0) :: rest) k) hlt
      have hneChild : neB ((((k0, c0) :: rest)[internalLookupIdx
          ((k0, c0) :: rest) k]).2) = true := by
        rw [ne_inner_iff] at hneI
        exact hneI.2 _ (List.getElem_mem hleni)
      have hinwin : inBounds
          (wloD lo ((k0, c0) :: rest) (internalLookupIdx ((k0, c0) :: rest) k))
          (whiD hi ((k0, c0) :: rest) (internalLookupIdx ((k0, c0) :: rest) k))
          k = true := by
        rw [inBounds_iff]
        constructor
        · intro l hl
          rw [wloD] at hl
          by_cases hi0 : internalLookupIdx ((k0, c0) :: rest) k = 0
          · rw [if_pos hi0] at hl
            exact ((inBounds_iff lo hi k).mp hin).1 l hl
          · rw [if_neg hi0] at hl
            obtain rfl : sepD ((k0, c0) :: rest)
                (internalLookupIdx ((k0, c0) :: rest) k) = l := by injection hl
            exact hF1 _ (by omega) (Nat.le_refl _)
        · intro h hh
          rw [whiD] at hh
          by_cases hiend : internalLookupIdx ((k0, c0) :: rest) k + 1 =
              ((k0, c0) :: rest).length
          · rw [if_pos hiend] at hh
            exact ((inBounds_iff lo hi k).mp hin).2 h hh
          · rw [if_neg hiend] at hh
            obtain rfl : sepD ((k0, c0) :: rest)
                (internalLookupIdx ((k0, c0) :: rest) k + 1) = h := by injection hh
            refine hF2 _ (by omega) ?_
            simp only [List.length_cons] at hiend
            omega
      have hIH := hC _ (List.getElem_mem hleni)
        (wloD lo ((k0, c0) :: rest) (internalLookupIdx ((k0, c0) :: rest) k))
        (whiD hi ((k0, c0) :: rest) (internalLookupIdx ((k0, c0) :: rest) k))
        k v (by rw [← hchildp]; exact hwini) (Or.inl hneChild) hinwin
      obtain ⟨hIHok, hIHsplit⟩ := hIH
      cases hrec : insV maxL maxI
          ((((k0, c0) :: rest)[internalLookupIdx ((k0, c0) :: rest) k]).2) k v with
      | dup =>
        constructor
        · intro t1 heq
          rw [insV_inner_dup_eq maxL maxI _ k v _ hp hrec] at heq
          exact absurd heq (by simp)
        · intro t1 sep t2 heq
          rw [insV_inner_dup_eq maxL maxI _ k v _ hp hrec] at heq
          exact absurd heq (by simp)
      | ok c1 =>
        obtain ⟨hok1, hok2, hok3⟩ := hIHok c1 hrec
        constructor
        · intro t1 heq
          rw [insV_inner_ok_eq maxL maxI _ k v _ c1 hp hrec] at heq
          obtain rfl : BTNode.inner (((k0, c0) :: rest).set
              (internalLookupIdx ((k0, c0) :: rest) k)
              ((((k0, c0) :: rest)[internalLookupIdx ((k0, c0) :: rest) k]).1, c1)) =
              t1 := by injection heq
          refine ⟨?_, ?_, ?_⟩
          · exact ord_inner_set lo hi ((k0, c0) :: rest) _ c1 _ hkeep hleni hord hok1
          · exact ne_inner_set ((k0, c0) :: rest) _ _ hneI hok2
          · refine entries_inner_mem.mpr ⟨internalLookupIdx ((k0, c0) :: rest) k,
              by rw [List.length_set]; exact hleni, ?_⟩
            rw [childD_set_self _ _ _ hleni]
            exact hok3
        · intro t1 sep t2 heq
          rw [insV_inner_ok_eq maxL maxI _ k v _ c1 hp hrec] at heq
          exact absurd heq (by simp)
      | moreSplit c1 sepc c2 =>
        obtain ⟨hS1, hS2, hS3, hS4, hS5, hS6⟩ := hIHsplit c1 sepc c2 hrec
        have hAlen : (((k0, c0) :: rest).set (internalLookupIdx ((k0, c0) :: rest) k)
            ((((k0, c0) :: rest)[internalLookupIdx ((k0, c0) :: rest) k]).1,
              c1)).length = ((k0, c0) :: rest).length :=
          List.length_set _ _ _
        have harr1len : ((((k0, c0) :: rest).set
            (internalLookupIdx ((k0, c0) :: rest) k)
            ((((k0, c0) :: rest)[internalLookupIdx ((k0, c0) :: rest) k]).1,
              c1)).insertIdx (internalLookupIdx ((k0, c0) :: rest) k + 1)
            (sepc, c2)).length = ((k0, c0) :: rest).length + 1 := by
          rw [List.length_insertIdx _ _ (by rw [hAlen]; omega), hAlen]
        have hordarr1 : ordB lo hi (BTNode.inner ((((k0, c0) :: rest).set
            (internalLookupIdx ((k0, c0) :: rest) k)
            ((((k0, c0) :: rest)[internalLookupIdx ((k0, c0) :: rest) k]).1,
              c1)).insertIdx (internalLookupIdx ((k0, c0) :: rest) k + 1)
            (sepc, c2))) = true :=
          ord_inner_insert lo hi ((k0, c0) :: rest) _ c1 c2 sepc _ hleni hkeep
            hord hS1 hS2 hS3
        have hnearr1 : neB (BTNode.inner ((((k0, c0) :: rest).set
            (internalLookupIdx ((k0, c0) :: rest) k)
            ((((k0, c0) :: rest)[internalLookupIdx ((k0, c0) :: rest) k]).1,
              c1)).insertIdx (internalLookupIdx ((k0, c0) :: rest) k + 1)
            (sepc, c2))) = true :=
          ne_inner_set_insert ((k0, c0) :: rest) _ _ _ hleni hneI hS4 hS5
        have hmemarr1 : (k, v) ∈ entriesOf (BTNode.inner ((((k0, c0) :: rest).set
            (internalLookupIdx ((k0, c0) :: rest) k)
            ((((k0, c0) :: rest)[internalLookupIdx ((k0, c0) :: rest) k]).1,
              c1)).insertIdx (internalLookupIdx ((k0, c0) :: rest) k + 1)
            (sepc, c2))) := by
          have hchild1 : childD ((((k0, c0) :: rest).set
              (internalLookupIdx ((k0, c0) :: rest) k)
              ((((k0, c0) :: rest)[internalLookupIdx ((k0, c0) :: rest) k]).1,
                c1)).insertIdx (internalLookupIdx ((k0, c0) :: rest) k + 1)
              (sepc, c2)) (internalLookupIdx ((k0, c0) :: rest) k) = c1 := by
            rw [childD_insertIdx_lt _ _ _ _ (by omega) (by rw [hAlen]; omega),
              childD_set_self _ _ _ hleni]
          have hchild2 : childD ((((k0, c0) :: rest).set
              (internalLookupIdx ((k0, c0) :: rest) k)
              ((((k0, c0) :: rest)[internalLookupIdx ((k0, c0) :: rest) k]).1,
                c1)).insertIdx (internalLookupIdx ((k0, c0) :: rest) k + 1)
              (sepc, c2)) (internalLookupIdx ((k0, c0) :: rest) k + 1) = c2 := by
            rw [childD_insertIdx_self _ _ _ (by rw [hAlen]; omega)]
          rcases hS6 with hmem | hmem
          · exact entries_inner_mem.mpr ⟨internalLookupIdx ((k0, c0) :: rest) k,
              by rw [harr1len]; omega, by rw [hchild1]; exact hmem⟩
          · exact entries_inner_mem.mpr ⟨internalLookupIdx ((k0, c0) :: rest) k + 1,
              by rw [harr1len]; omega, by rw [hchild2]; exact hmem⟩
        constructor
        · intro t1 heq
          rw [insV_inner_split_eq maxL maxI _ k v _ c1 sepc c2 hp hrec] at heq
          by_cases hover : ((((k0, c0) :: rest).set
              (internalLookupIdx ((k0, c0) :: rest) k)
              ((((k0, c0) :: rest)[internalLookupIdx ((k0, c0) :: rest) k]).1,
                c1)).insertIdx (internalLookupIdx ((k0, c0) :: rest) k + 1)
              (sepc, c2)).length > maxI
          · rw [if_pos hover] at heq
            exact absurd heq (by simp)
          · rw [if_neg hover] at heq
            obtain rfl : BTNode.inner ((((k0, c0) :: rest).set
                (internalLookupIdx ((k0, c0) :: rest) k)
                ((((k0, c0) :: rest)[internalLookupIdx ((k0, c0) :: rest) k]).1,
                  c1)).insertIdx (internalLookupIdx ((k0, c0) :: rest) k + 1)
                (sepc, c2)) = t1 := by injection heq
            exact ⟨hordarr1, hnearr1, hmemarr1⟩
        · intro t1 sep t2 heq
          rw [insV_inner_split_eq maxL maxI _ k v _ c1 sepc c2 hp hrec] at heq
          by_cases hover : ((((k0, c0) :: rest).set
              (internalLookupIdx ((k0, c0) :: rest) k)
              ((((k0, c0) :: rest)[internalLookupIdx ((k0, c0) :: rest) k]).1,
                c1)).insertIdx (internalLookupIdx ((k0, c0) :: rest) k + 1)
              (sepc, c2)).length > maxI
          · rw [if_pos hover] at heq
            have hd1 : BTNode.inner (((((k0, c0) :: rest).set
                (internalLookupIdx ((k0, c0) :: rest) k)
                ((((k0, c0) :: rest)[internalLookupIdx ((k0, c0) :: rest) k]).1,
                  c1)).insertIdx (internalLookupIdx ((k0, c0) :: rest) k + 1)
                (sepc, c2)).take ((maxI + 1) / 2)) = t1 := by injection heq
            have hd2 : ((((((k0, c0) :: rest).set
                (internalLookupIdx ((k0, c0) :: rest) k)
                ((((k0, c0) :: rest)[internalLookupIdx ((k0, c0) :: rest) k]).1,
                  c1)).insertIdx (internalLookupIdx ((k0, c0) :: rest) k + 1)
                (sepc, c2)).drop ((maxI + 1) / 2)).map Prod.fst).getD 0 0 = sep := by
              injection heq with h1 h2 h3
            have hd3 : BTNode.inner (((((k0, c0) :: rest).set
                (internalLookupIdx ((k0, c0) :: rest) k)
                ((((k0, c0) :: rest)[internalLookupIdx ((k0, c0) :: rest) k]).1,
                  c1)).insertIdx (internalLookupIdx ((k0, c0) :: rest) k + 1)
                (sepc, c2)).drop ((maxI + 1) / 2)) = t2 := by
              injection heq with h1 h2 h3
            have hcge : 1 ≤ (maxI + 1) / 2 := by omega
            have hclt : (maxI + 1) / 2 < ((((k0, c0) :: rest).set
                (internalLookupIdx ((k0, c0) :: rest) k)
                ((((k0, c0) :: rest)[internalLookupIdx ((k0, c0) :: rest) k]).1,
                  c1)).insertIdx (internalLookupIdx ((k0, c0) :: rest) k + 1)
                (sepc, c2)).length := by omega
            have hsepEq : ((((((k0, c0) :: rest).set
                (internalLookupIdx ((k0, c0) :: rest) k)
                ((((k0, c0) :: rest)[internalLookupIdx ((k0, c0) :: rest) k]).1,
                  c1)).insertIdx (internalLookupIdx ((k0, c0) :: rest) k + 1)
                (sepc, c2)).drop ((maxI + 1) / 2)).map Prod.fst).getD 0 0 =
                sepD ((((k0, c0) :: rest).set
                (internalLookupIdx ((k0, c0) :: rest) k)
                ((((k0, c0) :: rest)[internalLookupIdx ((k0, c0) :: rest) k]).1,
                  c1)).insertIdx (internalLookupIdx ((k0, c0) :: rest) k + 1)
                (sepc, c2)) ((maxI + 1) / 2) := by
              have harg : (maxI + 1) / 2 + 0 = (maxI + 1) / 2 := rfl
              rw [sepD_eq_mapGetD, List.map_drop,
                getD_drop_add _ _ _ _ (by rw [List.length_map]; omega), harg]
            obtain ⟨hs1, hs2, hs3⟩ := ord_inner_split lo hi _ ((maxI + 1) / 2)
              hordarr1 hcge hclt
            rw [← hd1, ← hd2, ← hd3, hsepEq]
            refine ⟨hs1, hs2, hs3, ?_, ?_, ?_⟩
            · exact ne_inner_take _ _ hcge hnearr1
            · exact ne_inner_drop _ _ hclt hnearr1
            · have := hmemarr1
              rw [entries_take_drop_split _ ((maxI + 1) / 2)] at this
              rcases List.mem_append.mp this with hmem | hmem
              · exact Or.inl hmem
              · exact Or.inr hmem
          · rw [if_neg hover] at heq
            exact absurd heq (by simp)

end BPT

namespace BPT

theorem inBounds_none_none (k : Int) : inBounds none none k = true := rfl

theorem wfT_root_facts (root : BTNode) (hwf : wfT (some root) = true) :
    ordB none none root = true ∧
    (neB root = true ∨ ∃ kvs, root = BTNode.leaf kvs) := by
  cases root with
  | leaf kvs =>
    rw [wfT] at hwf
    refine ⟨?_, Or.inr ⟨kvs, rfl⟩⟩
    rw [ordB, Bool.and_eq_true, List.all_eq_true]
    exact ⟨hwf, fun s hs => rfl⟩
  | inner arr =>
    rw [wfT, Bool.and_eq_true] at hwf
    exact ⟨hwf.1, Or.inl hwf.2⟩

theorem insertT_post (maxL maxI : Nat) (hL : 1 ≤ maxL) (hI : 1 ≤ maxI)
    (t : Option BTNode) (k : Int) (v : Int × Int) (hwf : wfT t = true)
    (hins : (insertT maxL maxI t k v).2 = true) :
    ∃ root2, (insertT maxL maxI t k v).1 = some root2 ∧
      ordB none none root2 = true ∧ neB root2 = true ∧
      (k, v) ∈ entriesOf root2 := by
  cases t with
  | none =>
    refine ⟨BTNode.leaf [(k, v)], rfl, ?_, ?_, ?_⟩
    · rw [ordB]
      rfl
    · rw [neB]
      rfl
    · rw [entriesOf]
      exact List.mem_cons_self _ _
  | some root =>
    obtain ⟨hord, hne⟩ := wfT_root_facts root hwf
    obtain ⟨hok, hsplit⟩ := insV_spec maxL maxI hL hI root none none k v hord hne
      (inBounds_none_none k)
    cases hrec : insV maxL maxI root k v with
    | dup =>
      rw [insertT, hrec] at hins
      exact absurd hins (by simp)
    | ok r =>
      have heq : insertT maxL maxI (some root) k v = (some r, true) := by
        rw [insertT, hrec]
      obtain ⟨h1, h2, h3⟩ := hok r hrec
      exact ⟨r, by rw [heq], h1, h2, h3⟩
    | moreSplit r sep r2 =>
      have heq : insertT maxL maxI (some root) k v =
          (some (BTNode.inner [(0, r), (sep, r2)]), true) := by
        rw [insertT, hrec]
      obtain ⟨h1, h2, h3, h4, h5, h6⟩ := hsplit r sep r2 hrec
      refine ⟨BTNode.inner [(0, r), (sep, r2)], by rw [heq], ?_, ?_, ?_⟩
      · rw [ord_inner_iff]
        refine ⟨rfl, ?_, ?_⟩
        · intro s hs
          have hse : s = sep := by simpa using hs
          rw [hse]
          rfl
        · intro j hj
          simp only [List.length_cons, List.length_nil] at hj
          cases j with
          | zero =>
            rw [wloD_zero, whiD_zero_cons, childD_zero]
            exact h1
          | succ j2 =>
            have hj20 : j2 = 0 := by omega
            subst hj20
            have hwl : wloD none [((0 : Int), r), (sep, r2)] 1 = some sep := by
              rw [wloD, if_neg (by omega)]
              rfl
            have hwh : whiD none [((0 : Int), r), (sep, r2)] 1 = none := by
              rw [whiD, if_pos (by simp)]
            have hcd : childD [((0 : Int), r), (sep, r2)] 1 = r2 := rfl
            rw [hwl, hwh, hcd]
            exact h2
      · rw [ne_inner_iff]
        refine ⟨by simp, fun p hp => ?_⟩
        rcases List.mem_cons.mp hp with hEq | hp2
        · rw [hEq]
          exact h4
        · rcases List.mem_cons.mp hp2 with hEq | hp3
          · rw [hEq]
            exact h5
          · exact absurd hp3 (by simp)
      · rw [entries_inner]
        simp only [List.flatMap_cons, List.flatMap_nil, List.append_nil]
        rcases h6 with hmem | hmem
        · exact List.mem_append.mpr (Or.inl hmem)
        · exact List.mem_append.mpr (Or.inr hmem)

end BPT

namespace BPT

theorem set_append_cons_idx {α : Type} (A C : List α) (a b : α) (n : Nat)
    (h : n = A.length) : (A ++ b :: C).set n a = A ++ a :: C := by
  rw [h, set_append_cons]

theorem set_append_cons_cons {α : Type} (A C : List α) (a b x : α) :
    (A ++ a :: b :: C).set (A.length + 1) x = A ++ a :: x :: C := by
  induction A with
  | nil =>
    simp only [List.nil_append, List.length_nil, List.set_cons_succ,
      List.set_cons_zero]
  | cons y A2 ih =>
    simp only [List.cons_append, List.length_cons, List.set_cons_succ, ih]

theorem set_append_cons_cons_idx {α : Type} (A C : List α) (a b x : α) (n : Nat)
    (h : n = A.length + 1) : (A ++ a :: b :: C).set n x = A ++ a :: x :: C := by
  rw [h, set_append_cons_cons]

theorem eraseIdx_append_cons_cons_idx {α : Type} (A C : List α) (a b : α) (n : Nat)
    (h : n = A.length + 1) : (A ++ a :: b :: C).eraseIdx n = A ++ a :: C := by
  rw [h, eraseIdx_append_cons_cons]

theorem dropLast_append_getLastD {α : Type} (l : List α) (d : α) (h : l ≠ []) :
    l.dropLast ++ [l.getLastD d] = l := by
  rw [List.getLastD_eq_getLast?, List.getLast?_eq_getLast l h]
  exact List.dropLast_append_getLast h

theorem decomp_pair {α : Type} (l : List α) (i : Nat) (x y : α)
    (hi : i + 1 < l.length) (hx : l[i] = x)
    (hy : l[i + 1] = y) :
    l = l.take i ++ x :: y :: l.drop (i + 2) := by
  have hdrop : l.drop (i + 1) = y :: l.drop (i + 2) := by
    rw [← hy]
    exact (List.getElem_cons_drop l (i + 1) hi).symm
  conv =>
    lhs
    rw [list_decomp1 l i (by omega)]
  rw [hx, hdrop]

theorem entries_append_form (A B : List (Int × BTNode)) :
    entriesOf (BTNode.inner (A ++ B)) =
      A.flatMap (fun p => entriesOf p.2) ++ B.flatMap (fun p => entriesOf p.2) := by
  rw [entries_inner, List.flatMap_append]

theorem coalesceLeafStep_entries (pm : Nat) (arr : List (Int × BTNode)) (li : Nat)
    (L R : List (Int × (Int × Int))) (pL pR : Int × BTNode)
    (hlin : li + 1 < arr.length)
    (hL : arr[li] = pL) (hR : arr[li + 1] = pR)
    (hLleaf : pL.2 = BTNode.leaf L) (hRleaf : pR.2 = BTNode.leaf R) :
    entriesOf (coalesceLeafStep pm arr li (li + 1) L R).1 =
      entriesOf (BTNode.inner arr) := by
  simp only [coalesceLeafStep]
  have hdec := decomp_pair arr li pL pR hlin hL hR
  conv =>
    lhs
    rw [hdec]
  conv =>
    rhs
    rw [hdec]
  rw [set_append_cons_idx _ _ _ _ li (by rw [List.length_take]; omega)]
  rw [eraseIdx_append_cons_cons_idx _ _ _ _ (li + 1) (by rw [List.length_take]; omega)]
  rw [entries_append_form, entries_append_form]
  simp only [List.flatMap_cons]
  simp [entriesOf, hLleaf, hRleaf, List.append_assoc]

theorem internalMoveAllTo_entries (sep : Int) (node recip : List (Int × BTNode)) :
    (internalMoveAllTo sep node recip).flatMap (fun p => entriesOf p.2) =
      recip.flatMap (fun p => entriesOf p.2) ++
        node.flatMap (fun p => entriesOf p.2) := by
  cases node with
  | nil => simp [internalMoveAllTo]
  | cons q t =>
    obtain ⟨s0, v⟩ := q
    rw [internalMoveAllTo]
    simp [List.flatMap_append, List.flatMap_cons]

theorem coalesceInternalStep_entries (pm : Nat) (arr : List (Int × BTNode))
    (li : Nat) (LA RA : List (Int × BTNode)) (pL pR : Int × BTNode)
    (hlin : li + 1 < arr.length)
    (hL : arr[li] = pL) (hR : arr[li + 1] = pR)
    (hLI : pL.2 = BTNode.inner LA) (hRI : pR.2 = BTNode.inner RA) :
    entriesOf (coalesceInternalStep pm arr li (li + 1) LA RA).1 =
      entriesOf (BTNode.inner arr) := by
  simp only [coalesceInternalStep]
  have hdec := decomp_pair arr li pL pR hlin hL hR
  conv =>
    lhs
    rw [hdec]
  conv =>
    rhs
    rw [hdec]
  rw [set_append_cons_idx _ _ _ _ li (by rw [List.length_take]; omega)]
  rw [eraseIdx_append_cons_cons_idx _ _ _ _ (li + 1) (by rw [List.length_take]; omega)]
  rw [entries_append_form, entries_append_form]
  simp only [List.flatMap_cons]
  rw [hLI, hRI]
  simp [entries_inner, internalMoveAllTo_entries, List.append_assoc]

theorem redistributeLeafStep_entries_zero (arr : List (Int × BTNode))
    (N S : List (Int × (Int × Int))) (pN pS : Int × BTNode)
    (h1 : 1 < arr.length)
    (hN : arr[0] = pN) (hS : arr[1] = pS)
    (hNl : pN.2 = BTNode.leaf N) (hSl : pS.2 = BTNode.leaf S) (hSne : S ≠ []) :
    entriesOf (redistributeLeafStep arr 0 N S) = entriesOf (BTNode.inner arr) := by
  obtain ⟨s0, stail, rfl⟩ : ∃ s0 stail, S = s0 :: stail := by
    cases S with
    | nil => exact absurd rfl hSne
    | cons s0 stail => exact ⟨s0, stail, rfl⟩
  simp only [redistributeLeafStep]
  rw [if_pos (by simp)]
  have hdec := decomp_pair arr 0 pN pS h1 hN hS
  conv =>
    lhs
    rw [hdec]
  conv =>
    rhs
    rw [hdec]
  rw [set_append_cons_idx _ _ _ _ 0 (by rw [List.length_take]; omega)]
  rw [set_append_cons_cons_idx _ _ _ _ _ 1 (by rw [List.length_take]; omega)]
  rw [entries_append_form, entries_append_form]
  simp only [List.flatMap_cons, List.headD_cons, List.tail_cons]
  simp [entriesOf, hNl, hSl, List.append_assoc]

theorem redistributeLeafStep_entries_pos (arr : List (Int × BTNode)) (i : Nat)
    (N S : List (Int × (Int × Int))) (pN pS : Int × BTNode)
    (hge : 1 ≤ i) (hlt : i < arr.length)
    (hN : arr[i] = pN) (hS : arr[i - 1] = pS)
    (hNl : pN.2 = BTNode.leaf N) (hSl : pS.2 = BTNode.leaf S) (hSne : S ≠ []) :
    entriesOf (redistributeLeafStep arr i N S) = entriesOf (BTNode.inner arr) := by
  simp only [redistributeLeafStep]
  rw [if_neg (by simp only [beq_iff_eq]; omega)]
  have hS2 : arr[(i - 1)] = pS := hS
  have hN2 : arr[(i - 1) + 1] = pN := by
    simp only [show i - 1 + 1 = i from by omega]
    exact hN
  have hdec := decomp_pair arr (i - 1) pS pN (by omega) hS2 hN2
  conv =>
    lhs
    rw [hdec]
  conv =>
    rhs
    rw [hdec]
  rw [set_append_cons_idx _ _ _ _ (i - 1) (by rw [List.length_take]; omega)]
  rw [set_append_cons_cons_idx _ _ _ _ _ i (by rw [List.length_take]; omega)]
  rw [entries_append_form, entries_append_form]
  simp only [List.flatMap_cons]
  rw [hNl, hSl]
  have hSsplit : S.dropLast ++ [S.getLastD (0, (0, 0))] = S :=
    dropLast_append_getLastD S (0, (0, 0)) hSne
  simp only [entriesOf]
  conv =>
    rhs
    rw [← hSsplit]
  simp [List.append_assoc]

theorem redistributeInternalStep_entries_zero (arr : List (Int × BTNode))
    (NA SA : List (Int × BTNode)) (pN pS : Int × BTNode)
    (h1 : 1 < arr.length)
    (hN : arr[0] = pN) (hS : arr[1] = pS)
    (hNl : pN.2 = BTNode.inner NA) (hSl : pS.2 = BTNode.inner SA) (hSne : SA ≠ []) :
    entriesOf (redistributeInternalStep arr 0 NA SA) =
      entriesOf (BTNode.inner arr) := by
  obtain ⟨m0, mt, rfl⟩ : ∃ m0 mt, SA = m0 :: mt := by
    cases SA with
    | nil => exact absurd rfl hSne
    | cons m0 mt => exact ⟨m0, mt, rfl⟩
  simp only [redistributeInternalStep]
  rw [if_pos (by simp)]
  have hdec := decomp_pair arr 0 pN pS h1 hN hS
  conv =>
    lhs
    rw [hdec]
  conv =>
    rhs
    rw [hdec]
  rw [set_append_cons_idx _ _ _ _ 0 (by rw [List.length_take]; omega)]
  rw [set_append_cons_cons_idx _ _ _ _ _ 1 (by rw [List.length_take]; omega)]
  rw [entries_append_form, entries_append_form]
  simp only [List.flatMap_cons, List.headD_cons, List.tail_cons]
  rw [hNl, hSl]
  simp [entries_inner, List.flatMap_cons, List.flatMap_append, List.append_assoc]

theorem redistributeInternalStep_entries_pos (arr : List (Int × BTNode)) (i : Nat)
    (NA SA : List (Int × BTNode)) (pN pS : Int × BTNode)
    (hge : 1 ≤ i) (hlt : i < arr.length)
    (hN : arr[i] = pN) (hS : arr[i - 1] = pS)
    (hNl : pN.2 = BTNode.inner NA) (hSl : pS.2 = BTNode.inner SA) (hSne : SA ≠ []) :
    entriesOf (redistributeInternalStep arr i NA SA) =
      entriesOf (BTNode.inner arr) := by
  simp only [redistributeInternalStep]
  rw [if_neg (by simp only [beq_iff_eq]; omega)]
  have hS2 : arr[(i - 1)] = pS := hS
  have hN2 : arr[(i - 1) + 1] = pN := by
    simp only [show i - 1 + 1 = i from by omega]
    exact hN
  have hdec := decomp_pair arr (i - 1) pS pN (by omega) hS2 hN2
  conv =>
    lhs
    rw [hdec]
  conv =>
    rhs
    rw [hdec]
  rw [set_append_cons_idx _ _ _ _ (i - 1) (by rw [List.length_take]; omega)]
  rw [set_append_cons_cons_idx _ _ _ _ _ i (by rw [List.length_take]; omega)]
  rw [entries_append_form, entries_append_form]
  simp only [List.flatMap_cons]
  rw [hNl, hSl]
  have hSsplit : SA.dropLast ++ [SA.getLastD (0, BTNode.leaf [])] = SA :=
    dropLast_append_getLastD SA (0, BTNode.leaf []) hSne
  conv =>
    rhs
    rw [show entriesOf (BTNode.inner SA) =
        entriesOf (BTNode.inner (SA.dropLast ++ [SA.getLastD (0, BTNode.leaf [])]))
      by rw [hSsplit]]
  simp [entries_inner, List.flatMap_cons, List.flatMap_append, List.append_assoc]

end BPT

namespace BPT

theorem get?_some_getElem {α : Type} {l : List α} {n : Nat} {a : α}
    (h : l.get? n = some a) : ∃ hn : n < l.length, l[n] = a := by
  rw [List.get?_eq_getElem?] at h
  by_cases hn : n < l.length
  · refine ⟨hn, ?_⟩
    rw [List.getElem?_eq_getElem hn] at h
    exact Option.some.inj h
  · rw [List.getElem?_eq_none (by omega)] at h
    exact absurd h (by simp)

theorem neB_leaf_ne_nil {kvs : List (Int × (Int × Int))}
    (h : neB (BTNode.leaf kvs) = true) : kvs ≠ [] := by
  intro hcon
  subst hcon
  rw [neB] at h
  simp at h

theorem rebalanceChild_entries (maxL maxI : Nat) (isRoot : Bool)
    (arr : List (Int × BTNode)) (i : Nat)
    (hne : ∀ j, j < arr.length → j ≠ i → neB (childD arr j) = true) :
    entriesOf (rebalanceChild maxL maxI isRoot arr i).1 =
      entriesOf (BTNode.inner arr) := by
  simp only [rebalanceChild]
  split
  · rename_i nodeP sibP hgetN hgetS
    obtain ⟨hilen, hNel⟩ := get?_some_getElem hgetN
    split
    · rename_i nodeKvs sibKvs hnode hsib
      split
      · rename_i hfit
        split
        · rename_i hi0
          have hieq : i = 0 := by simpa using hi0
          subst hieq
          rw [if_pos hi0] at hgetS
          obtain ⟨hslen, hSel⟩ := get?_some_getElem hgetS
          exact coalesceLeafStep_entries (internalMin isRoot maxI) arr 0
            nodeKvs sibKvs nodeP sibP hslen hNel hSel hnode hsib
        · rename_i hi0
          have hige : 1 ≤ i := by
            rcases Nat.eq_zero_or_pos i with h0 | h0
            · exact absurd (by simpa using h0) hi0
            · omega
          rw [if_neg hi0] at hgetS
          obtain ⟨hslen, hSel⟩ := get?_some_getElem hgetS
          have hN2 : arr[(i - 1) + 1] = nodeP := by
            simp only [show i - 1 + 1 = i from by omega]
            exact hNel
          have hres := coalesceLeafStep_entries (internalMin isRoot maxI) arr
            (i - 1) sibKvs nodeKvs sibP nodeP (by omega) hSel hN2 hsib hnode
          rw [show i - 1 + 1 = i from by omega] at hres
          exact hres
      · rename_i hfit
        by_cases hi0 : i = 0
        · subst hi0
          rw [if_pos (by simp)] at hgetS
          obtain ⟨hslen, hSel⟩ := get?_some_getElem hgetS
          have hSne : sibKvs ≠ [] := by
            apply neB_leaf_ne_nil
            rw [← hsib]
            have := hne 1 hslen (by omega)
            rw [childD_getElem hslen, hSel] at this
            exact this
          exact redistributeLeafStep_entries_zero arr nodeKvs sibKvs nodeP sibP
            hslen hNel hSel hnode hsib hSne
        · rw [if_neg (by simpa using hi0)] at hgetS
          obtain ⟨hslen, hSel⟩ := get?_some_getElem hgetS
          have hSne : sibKvs ≠ [] := by
            apply neB_leaf_ne_nil
            rw [← hsib]
            have := hne (i - 1) hslen (by omega)
            rw [childD_getElem hslen, hSel] at this
            exact this
          exact redistributeLeafStep_entries_pos arr i nodeKvs sibKvs nodeP sibP
            (by omega) hilen hNel hSel hnode hsib hSne
    · rename_i nodeArr sibArr hnode hsib
      split
      · rename_i hfit
        split
        · rename_i hi0
          have hieq : i = 0 := by simpa using hi0
          subst hieq
          rw [if_pos hi0] at hgetS
          obtain ⟨hslen, hSel⟩ := get?_some_getElem hgetS
          exact coalesceInternalStep_entries (internalMin isRoot maxI) arr 0
            nodeArr sibArr nodeP sibP hslen hNel hSel hnode hsib
        · rename_i hi0
          have hige : 1 ≤ i := by
            rcases Nat.eq_zero_or_pos i with h0 | h0
            · exact absurd (by simpa using h0) hi0
            · omega
          rw [if_neg hi0] at hgetS
          obtain ⟨hslen, hSel⟩ := get?_some_getElem hgetS
          have hN2 : arr[(i - 1) + 1] = nodeP := by
            simp only [show i - 1 + 1 = i from by omega]
            exact hNel
          have hres := coalesceInternalStep_entries (internalMin isRoot maxI) arr
            (i - 1) sibArr nodeArr sibP nodeP (by omega) hSel hN2 hsib hnode
          rw [show i - 1 + 1 = i from by omega] at hres
          exact hres
      · rename_i hfit
        by_cases hi0 : i = 0
        · subst hi0
          rw [if_pos (by simp)] at hgetS
          obtain ⟨hslen, hSel⟩ := get?_some_getElem hgetS
          have hSne : sibArr ≠ [] := by
            have := hne 1 hslen (by omega)
            rw [childD_getElem hslen, hSel, hsib] at this
            exact ((ne_inner_iff sibArr).mp this).1
          exact redistributeInternalStep_entries_zero arr nodeArr sibArr nodeP sibP
            hslen hNel hSel hnode hsib hSne
        · rw [if_neg (by simpa using hi0)] at hgetS
          obtain ⟨hslen, hSel⟩ := get?_some_getElem hgetS
          have hSne : sibArr ≠ [] := by
            have := hne (i - 1) hslen (by omega)
            rw [childD_getElem hslen, hSel, hsib] at this
            exact ((ne_inner_iff sibArr).mp this).1
          exact redistributeInternalStep_entries_pos arr i nodeArr sibArr nodeP sibP
            (by omega) hilen hNel hSel hnode hsib hSne
    · rfl
  · rfl

end BPT

namespace BPT

theorem delV_inner_eq (maxL maxI : Nat) (isRoot : Bool) (arr : List (Int × BTNode))
    (k : Int) (p : Int × BTNode)
    (hp : arr.get? (internalLookupIdx arr k) = some p) :
    delV maxL maxI isRoot (BTNode.inner arr) k =
      (if (delV maxL maxI false p.2 k).2 then
        rebalanceChild maxL maxI isRoot
          (arr.set (internalLookupIdx arr k) (p.1, (delV maxL maxI false p.2 k).1))
          (internalLookupIdx arr k)
      else (BTNode.inner (arr.set (internalLookupIdx arr k)
        (p.1, (delV maxL maxI false p.2 k).1)), false)) := by
  rw [delV]
  split
  · rename_i hnone
    rw [hnone] at hp
    exact absurd hp (by simp)
  · rename_i p2 hp2
    rw [hp2] at hp
    obtain rfl : p2 = p := by injection hp
    rfl

theorem delV_entries (maxL maxI : Nat) :
    ∀ t, ∀ (lo hi : Option Int) (k : Int) (isRoot : Bool),
      ordB lo hi t = true → neB t = true → inBounds lo hi k = true →
      entriesOf (delV maxL maxI isRoot t k).1 =
        (entriesOf t).eraseP (fun p => p.1 == k) := by
  refine btNode_ind _ ?_ ?_
  · intro kvs lo hi k isRoot hord hne hin
    rw [ordB, Bool.and_eq_true] at hord
    simp only [delV]
    rw [entriesOf, entriesOf, leafRemove_eraseP kvs k hord.1]
  · intro arr hC lo hi k isRoot hord hne hin
    cases arr with
    | nil =>
      rw [ordB] at hord
      exact absurd hord (by simp)
    | cons q rest =>
      obtain ⟨k0, c0⟩ := q
      have hord2 := hord
      rw [ord_inner_iff] at hord2
      obtain ⟨hch, hsep, hwin⟩ := hord2
      obtain ⟨hlt, hF1, hF2⟩ := ilidx_spec k0 c0 rest k hch
      have hleni : internalLookupIdx ((k0, c0) :: rest) k <
          ((k0, c0) :: rest).length := by
        simp only [List.length_cons]
        omega
      have hp : ((k0, c0) :: rest).get? (internalLookupIdx ((k0, c0) :: rest) k) =
          some (((k0, c0) :: rest)[internalLookupIdx ((k0, c0) :: rest) k]) := by
        rw [List.get?_eq_getElem?, List.getElem?_eq_getElem hleni]
      have hchildp : childD ((k0, c0) :: rest)
          (internalLookupIdx ((k0, c0) :: rest) k) =
          (((k0, c0) :: rest)[internalLookupIdx ((k0, c0) :: rest) k]).2 :=
        childD_getElem hleni
      have hwini := hwin (internalLookupIdx ((k0, c0) :: rest) k) hlt
      have hneChild : neB ((((k0, c0) :: rest)[internalLookupIdx
          ((k0, c0) :: rest) k]).2) = true := by
        rw [ne_inner_iff] at hne
        exact hne.2 _ (List.getElem_mem hleni)
      have hinwin : inBounds
          (wloD lo ((k0, c0) :: rest) (internalLookupIdx ((k0, c0) :: rest) k))
          (whiD hi ((k0, c0) :: rest) (internalLookupIdx ((k0, c0) :: rest) k))
          k = true := by
        rw [inBounds_iff]
        constructor
        · intro l hl
          rw [wloD] at hl
          by_cases hi0 : internalLookupIdx ((k0, c0) :: rest) k = 0
          · rw [if_pos hi0] at hl
            exact ((inBounds_iff lo hi k).mp hin).1 l hl
          · rw [if_neg hi0] at hl
            obtain rfl : sepD ((k0, c0) :: rest)
                (internalLookupIdx ((k0, c0) :: rest) k) = l := by injection hl
            exact hF1 _ (by omega) (Nat.le_refl _)
        · intro h hh
          rw [whiD] at hh
          by_cases hiend : internalLookupIdx ((k0, c0) :: rest) k + 1 =
              ((k0, c0) :: rest).length
          · rw [if_pos hiend] at hh
            exact ((inBounds_iff lo hi k).mp hin).2 h hh
          · rw [if_neg hiend] at hh
            obtain rfl : sepD ((k0, c0) :: rest)
                (internalLookupIdx ((k0, c0) :: rest) k + 1) = h := by injection hh
            refine hF2 _ (by omega) ?_
            simp only [List.length_cons] at hiend
            omega
      have hIH := hC _ (List.getElem_mem hleni)
        (wloD lo ((k0, c0) :: rest) (internalLookupIdx ((k0, c0) :: rest) k))
        (whiD hi ((k0, c0) :: rest) (internalLookupIdx ((k0, c0) :: rest) k))
        k false (by rw [← hchildp]; exact hwini) hneChild hinwin
      have hAno : ∀ q2, q2 ∈ (((k0, c0) :: rest).take
          (internalLookupIdx ((k0, c0) :: rest) k)).flatMap
            (fun p => entriesOf p.2) → (q2.1 == k) = false := by
        intro q2 hq2
        obtain ⟨pc, hpc, hq3⟩ := List.mem_flatMap.mp hq2
        obtain ⟨j, hj1, hj2, hj3⟩ := mem_take_idx hpc
        have hpcc : childD ((k0, c0) :: rest) j = pc.2 := by
          rw [childD, hj3 (0, BTNode.leaf [])]
        have hb := (entries_sorted_bounds (childD ((k0, c0) :: rest) j)
          (wloD lo ((k0, c0) :: rest) j) (whiD hi ((k0, c0) :: rest) j)
          (hwin j (by simp only [List.length_cons] at hj2; omega))).2 q2
          (by rw [hpcc]; exact hq3)
        rw [inBounds_iff] at hb
        have hup := hb.2 (sepD ((k0, c0) :: rest) (j + 1))
          (by rw [whiD, if_neg (by simp only [List.length_cons] at hj2 ⊢; omega)])
        have hle := hF1 (j + 1) (by omega) (by omega)
        simp only [beq_eq_false_iff_ne, ne_eq]
        omega
      have hCno : ∀ q2, q2 ∈ (((k0, c0) :: rest).drop
          (internalLookupIdx ((k0, c0) :: rest) k + 1)).flatMap
            (fun p => entriesOf p.2) → (q2.1 == k) = false := by
        intro q2 hq2
        obtain ⟨pc, hpc, hq3⟩ := List.mem_flatMap.mp hq2
        obtain ⟨j, hj1, hj2⟩ := mem_drop_idx hpc
        have hpcc : childD ((k0, c0) :: rest)
            (internalLookupIdx ((k0, c0) :: rest) k + 1 + j) = pc.2 := by
          rw [childD, hj2 (0, BTNode.leaf [])]
        have hb := (entries_sorted_bounds _
          (wloD lo ((k0, c0) :: rest)
            (internalLookupIdx ((k0, c0) :: rest) k + 1 + j))
          (whiD hi ((k0, c0) :: rest)
            (internalLookupIdx ((k0, c0) :: rest) k + 1 + j))
          (hwin _ (by simp only [List.length_cons] at hj1; omega))).2 q2
          (by rw [hpcc]; exact hq3)
        rw [inBounds_iff] at hb
        have hlow := hb.1 (sepD ((k0, c0) :: rest)
            (internalLookupIdx ((k0, c0) :: rest) k + 1 + j))
          (by rw [wloD, if_neg (by omega)])
        have hgt := hF2 (internalLookupIdx ((k0, c0) :: rest) k + 1 + j)
          (by omega) (by simp only [List.length_cons] at hj1; omega)
        simp only [beq_eq_false_iff_ne, ne_eq]
        omega
      have hmain : entriesOf (BTNode.inner (((k0, c0) :: rest).set
          (internalLookupIdx ((k0, c0) :: rest) k)
          ((((k0, c0) :: rest)[internalLookupIdx ((k0, c0) :: rest) k]).1,
            (delV maxL maxI false
              ((((k0, c0) :: rest)[internalLookupIdx ((k0, c0) :: rest) k]).2)
              k).1))) =
          (entriesOf (BTNode.inner ((k0, c0) :: rest))).eraseP
            (fun p => p.1 == k) := by
        rw [entries_set_decomp _ _ _ hleni, hIH]
        rw [entries_idx_decomp ((k0, c0) :: rest)
          (internalLookupIdx ((k0, c0) :: rest) k) hleni]
        rw [List.append_assoc, List.append_assoc]
        rw [List.eraseP_append_right _ (fun b hb => by simp [hAno b hb])]
        rw [eraseP_append_right_clean _ _ _ hCno]
        rw [hchildp]
      rw [delV_inner_eq maxL maxI isRoot _ k _ hp]
      by_cases hflag : (delV maxL maxI false
          ((((k0, c0) :: rest)[internalLookupIdx ((k0, c0) :: rest) k]).2) k).2 = true
      · rw [if_pos hflag]
        rw [rebalanceChild_entries maxL maxI isRoot _ _ ?hne2]
        · exact hmain
        case hne2 =>
          intro j hj hji
          rw [List.length_set] at hj
          rw [childD_set_ne _ _ _ j hji]
          rw [ne_inner_iff] at hne
          rw [childD_getElem hj]
          exact hne.2 _ (List.getElem_mem hj)
      · rw [if_neg hflag]
        exact hmain

end BPT

namespace BPT

theorem adjustRoot_entries (t : BTNode) : entriesT (adjustRoot t) = entriesOf t := by
  cases t with
  | leaf kvs =>
    rw [adjustRoot]
    by_cases hemp : kvs.isEmpty
    · rw [if_pos hemp, entriesT, entriesOf]
      rw [List.isEmpty_iff] at hemp
      rw [hemp]
    · rw [if_neg hemp]
      rw [entriesT]
  | inner arr =>
    rw [adjustRoot]
    by_cases hlen : (arr.length == 1) = true
    · rw [if_pos hlen]
      have hlen2 : arr.length = 1 := by simpa using hlen
      obtain ⟨q, rfl⟩ : ∃ q, arr = [q] := by
        cases arr with
        | nil => simp at hlen2
        | cons q rest =>
          cases rest with
          | nil => exact ⟨q, rfl⟩
          | cons q2 rest2 => simp at hlen2
      rw [show ([q].get? 0).map Prod.snd = some q.2 from rfl, entriesT, entries_inner]
      simp
    · rw [if_neg hlen, entriesT]

theorem removeT_entries (maxL maxI : Nat) (root : BTNode) (k : Int)
    (hord : ordB none none root = true) (hne : neB root = true) :
    entriesT (removeT maxL maxI (some root) k) =
      (entriesOf root).eraseP (fun p => p.1 == k) := by
  simp only [removeT]
  have hdel := delV_entries maxL maxI root none none k true hord hne
    (inBounds_none_none k)
  by_cases hflag : (delV maxL maxI true root k).2 = true
  · rw [if_pos hflag, adjustRoot_entries, hdel]
  · rw [if_neg hflag, entriesT, hdel]

theorem eraseP_no_key (l : List (Int × (Int × Int))) (k : Int) (v : Int × Int)
    (hch : chainLtB (l.map Prod.fst) = true) (hmem : (k, v) ∈ l) :
    ∀ v2, (k, v2) ∉ l.eraseP (fun p => p.1 == k) := by
  intro v2 hmem2
  have hsp : (fun p => p.1 == k) ((k, v) : Int × (Int × Int)) = true :=
    beq_self_eq_true k
  obtain ⟨a, A, B, hA, hpa, hsplit, herase⟩ :=
    @List.exists_of_eraseP (Int × (Int × Int)) (fun p => p.1 == k) l (k, v) hmem hsp
  rw [herase] at hmem2
  have hnodup : (l.map Prod.fst).Nodup := by
    have hp := (chainLtB_pairwise _).mp hch
    exact List.Pairwise.imp (fun hlt => ne_of_lt hlt) hp
  rcases List.mem_append.mp hmem2 with hin | hin
  · have := hA _ hin
    simp at this
  · have hak : a.1 = k := by simpa using hpa
    rw [hsplit, List.map_append, List.map_cons] at hnodup
    have hdisj := (List.nodup_append.mp hnodup).2.1
    have hnotin : a.1 ∉ B.map Prod.fst := (List.nodup_cons.mp hdisj).1
    apply hnotin
    rw [hak]
    exact List.mem_map_of_mem Prod.fst hin

/-- C4: after a successful insert of (k, v) into a well-formed tree (page
capacities at least one entry), GetValue finds exactly v under k, and after a
subsequent Remove of k GetValue reports the key absent — Insert places the
pair in the leaf the descent selects (splitting as needed), and Remove erases
that sole occurrence (coalescing or redistributing as needed). -/
theorem c4_insert_get_remove (maxL maxI : Nat) (t : Option BTNode) (k : Int)
    (v : Int × Int) (hL : 1 ≤ maxL) (hI : 1 ≤ maxI) (hwf : wfT t = true)
    (hins : (insertT maxL maxI t k v).2 = true) :
    getT (insertT maxL maxI t k v).1 k = some v ∧
    getT (removeT maxL maxI (insertT maxL maxI t k v).1 k) k = none := by
  obtain ⟨root2, hsome, hord2, hne2, hmem2⟩ :=
    insertT_post maxL maxI hL hI t k v hwf hins
  rw [hsome]
  constructor
  · rw [getT]
    exact (getV_some_iff root2 none none k v hord2).mpr hmem2
  · have hrem := removeT_entries maxL maxI root2 k hord2 hne2
    have hsorted := (entries_sorted_bounds root2 none none hord2).1
    have hnok := eraseP_no_key (entriesOf root2) k v hsorted hmem2
    cases hres : removeT maxL maxI (some root2) k with
    | none => rw [getT]
    | some root3 =>
      rw [getT]
      cases hget : getV root3 k with
      | none => rfl
      | some v2 =>
        exfalso
        have hmem3 := getV_mem_of_some root3 k v2 hget
        have hmem4 : (k, v2) ∈ entriesT (removeT maxL maxI (some root2) k) := by
          rw [hres, entriesT]
          exact hmem3
        rw [hrem] at hmem4
        exact hnok v2 hmem4

/-- Witness for C4 at a concrete input: inserting key 5 with value (0,0) into
the empty tree succeeds; get finds (0,0) and, after removing 5, get reports
the key absent. -/
theorem c4_insert_get_remove_witness :
    wfT (none : Option BTNode) = true ∧
    (insertT 3 3 (none : Option BTNode) 5 ((0 : Int), (0 : Int))).2 = true ∧
    getT (insertT 3 3 (none : Option BTNode) 5 ((0 : Int), (0 : Int))).1 5 =
      some (0, 0) ∧
    getT (removeT 3 3 (insertT 3 3 (none : Option BTNode) 5
      ((0 : Int), (0 : Int))).1 5) 5 = none := by
  have h := c4_insert_get_remove 3 3 none 5 (0, 0) (by omega) (by omega) rfl rfl
  exact ⟨rfl, rfl, h.1, h.2⟩

end BPT
